import Mathlib

/-!
# Labeled weighted graph: container, traversals, shortest paths, spanning trees

A shallow embedding of `graph.cpp`.

* A `Vertex` is referred to by its label: no two vertices of one graph carry the
  same label, so a `Vertex *` is represented by the label of the vertex it points to.
* `std::map<Vertex *, int> connected` iterates in ascending pointer order.  The
  address given to the vertex of each label is the parameter `addr : String → Nat` of
  `connect`, which keeps every `connected` list in ascending address order; the loops
  over `connected` walk the list in that order.
* Visitor callbacks are represented by the list of their calls, in call order.
* `std::string` comparison is the lexicographic comparison of the character lists.
* `int` additions of weights are taken modulo 2^32 (`wrapInt`); counters of map entries
  (`verticesSize`, `vertexDegree`, `edgesSize`) are exact, being bounded by the number of
  entries held in memory.
* Loops and recursions carry an iteration budget; the theorems show that the budget given
  by the entry points is never used up.
* The order in which a `priority_queue` yields edges of equal weight is a parameter `tie`.
-/

namespace GraphProject

/-! ## Data model -/

/-- Vertex of `graph.h`: its label `val` and its adjacency map `connected`
(neighbour, weight), kept in iteration order. -/
structure Vertex where
  val : String
  connected : List (String × Int)
deriving DecidableEq

/-- Edge of `graph.h`, fields in initialiser order `{from, weight, to}`. -/
structure Edge where
  from_ : String
  weight : Int
  to_ : String
deriving DecidableEq

/-- Graph object: the `directional` flag and the map `vertices`, kept in ascending label order. -/
structure Graph where
  directional : Bool
  vertices : List Vertex
deriving DecidableEq

/-- Result of `Graph::Graph(directionalEdges)`: no vertices. -/
def Graph.empty (directionalEdges : Bool) : Graph := ⟨directionalEdges, []⟩

/-! ## The map `vertices` -/

/-- Lookup `vertices.at(label)` (absent: `none`). -/
def findVertex (vs : List Vertex) (label : String) : Option Vertex :=
  vs.find? (fun v => v.val = label)

/-- Test `vertices.count(label) == 1`. -/
def countLabel (vs : List Vertex) (label : String) : Bool :=
  (findVertex vs label).isSome

/-- Insertion of a new entry into the label-ordered map `vertices`. -/
def insertVertex (v : Vertex) : List Vertex → List Vertex
  | [] => [v]
  | u :: rest =>
    if v.val.data < u.val.data then v :: u :: rest else u :: insertVertex v rest

/-- Statement `vertices[label] = new Vertex{label, {}}` guarded by `vertices.count(label) == 0`. -/
def ensureVertex (vs : List Vertex) (label : String) : List Vertex :=
  if countLabel vs label then vs else insertVertex ⟨label, []⟩ vs

/-- Adjacency map `vertices[label]->connected` (no such vertex: nothing to walk over). -/
def connectedOf (vs : List Vertex) (label : String) : List (String × Int) :=
  match findVertex vs label with
  | some v => v.connected
  | none => []

/-- In-place update of `vertices[label]->connected`. -/
def updateConnected (vs : List Vertex) (label : String)
    (f : List (String × Int) → List (String × Int)) : List Vertex :=
  vs.map (fun v => if v.val = label then { v with connected := f v.connected } else v)

/-! ## The map `connected` -/

/-- Test `connected.count(p) == 1`. -/
def connCount (c : List (String × Int)) (label : String) : Bool :=
  c.any (fun p => p.1 = label)

/-- Insertion of a new key into the pointer-ordered map `connected`. -/
def connInsert (addr : String → Nat) (label : String) (weight : Int) :
    List (String × Int) → List (String × Int)
  | [] => [(label, weight)]
  | p :: rest =>
    if addr label < addr p.1 then (label, weight) :: p :: rest
    else p :: connInsert addr label weight rest

/-- Assignment `connected[p] = weight`: overwrite the entry of an existing key, insert otherwise. -/
def connAssign (addr : String → Nat) (c : List (String × Int)) (label : String) (weight : Int) :
    List (String × Int) :=
  if connCount c label then c.map (fun p => if p.1 = label then (label, weight) else p)
  else connInsert addr label weight c

/-- Call `connected.erase(p)`. -/
def connErase (c : List (String × Int)) (label : String) : List (String × Int) :=
  c.filter (fun p => p.1 ≠ label)

/-- Weight stored for the arc `a -> b`, if that arc is stored. -/
def arcWeight (g : Graph) (a b : String) : Option Int :=
  ((connectedOf g.vertices a).find? (fun p => p.1 = b)).map Prod.snd

/-- Arc `a -> b` is stored: `vertices[a]->connected.count(vertices[b]) == 1`. -/
def hasArc (g : Graph) (a b : String) : Bool :=
  connCount (connectedOf g.vertices a) b

/-! ## Container operations -/

/-- Method `Graph::contains`. -/
def Graph.contains (g : Graph) (label : String) : Bool := countLabel g.vertices label

/-- Method `Graph::verticesSize`. -/
def Graph.verticesSize (g : Graph) : Int := g.vertices.length

/-- Method `Graph::vertexDegree`. -/
def Graph.vertexDegree (g : Graph) (label : String) : Int :=
  if countLabel g.vertices label then ((connectedOf g.vertices label).length : Int) else -1

/-- Method `Graph::add`: the returned flag and the graph afterwards. -/
def Graph.add (g : Graph) (label : String) : Bool × Graph :=
  if countLabel g.vertices label then (false, g)
  else (true, { g with vertices := insertVertex ⟨label, []⟩ g.vertices })

/-- Method `Graph::connect`: the returned flag and the graph afterwards. -/
def Graph.connect (addr : String → Nat) (g : Graph) (from_ to_ : String) (weight : Int) :
    Bool × Graph :=
  if from_ = to_ then (false, g)
  else
    let vs1 := ensureVertex g.vertices from_
    let vs2 := ensureVertex vs1 to_
    if connCount (connectedOf vs2 from_) to_ then (false, { g with vertices := vs2 })
    else
      let vs3 := updateConnected vs2 from_ (fun c => connAssign addr c to_ weight)
      let vs4 :=
        if g.directional then vs3
        else updateConnected vs3 to_ (fun c => connAssign addr c from_ weight)
      (true, { g with vertices := vs4 })

/-- Method `Graph::disconnect`: the returned flag and the graph afterwards. -/
def Graph.disconnect (g : Graph) (from_ to_ : String) : Bool × Graph :=
  if countLabel g.vertices from_ = false ∨ countLabel g.vertices to_ = false then (false, g)
  else if connCount (connectedOf g.vertices from_) to_ = false then (false, g)
  else
    let vs1 := updateConnected g.vertices from_ (fun c => connErase c to_)
    let vs2 :=
      if g.directional then vs1
      else updateConnected vs1 to_ (fun c => connErase c from_)
    (true, { g with vertices := vs2 })

/-- One mutating call of the public interface. -/
inductive Op where
  | add (label : String)
  | connect (from_ to_ : String) (weight : Int)
  | disconnect (from_ to_ : String)

/-- Graph after one mutating call (the returned flag is dropped, as `readFile` does). -/
def applyOp (addr : String → Nat) (g : Graph) : Op → Graph
  | .add label => (g.add label).2
  | .connect a b w => (g.connect addr a b w).2
  | .disconnect a b => (g.disconnect a b).2

/-- Graph built from the empty graph by a sequence of add / connect / disconnect calls. -/
def build (addr : String → Nat) (directionalEdges : Bool) (ops : List Op) : Graph :=
  ops.foldl (applyOp addr) (Graph.empty directionalEdges)

/-! ## Depth-first traversal -/

/-- Insertion into the label-ordered `std::set<pair<Vertex *, int>, comp>`: an element whose
label compares equivalent to one already present is not inserted. -/
def labelSetInsert (x : String × Int) : List (String × Int) → List (String × Int)
  | [] => [x]
  | y :: ys =>
    if x.1.data < y.1.data then x :: y :: ys
    else if y.1.data < x.1.data then y :: labelSetInsert x ys
    else y :: ys

/-- Range constructor `connected(curr->connected.begin(), curr->connected.end(), comp)`:
the adjacency entries in ascending label order. -/
def sortedConnected (c : List (String × Int)) : List (String × Int) :=
  c.foldl (fun acc x => labelSetInsert x acc) []

/-- The `for` loop of `dfsTraverse` over the label-ordered neighbours; `recur` is the recursive
call.  Returns the set `visited` afterwards and the visitor calls made. -/
def dfsLoop (recur : List String → String → Option (List String × List String)) :
    List (String × Int) → List String → Option (List String × List String)
  | [], visited => some (visited, [])
  | i :: rest, visited =>
    if i.1 ∈ visited then dfsLoop recur rest visited
    else
      match recur (i.1 :: visited) i.1 with
      | none => none
      | some (visited1, out1) =>
        match dfsLoop recur rest visited1 with
        | none => none
        | some (visited2, out2) => some (visited2, out1 ++ out2)

/-- Method `Graph::dfsTraverse` with a recursion budget: the set `visited` afterwards and the
visitor calls made, `none` when the budget is used up. -/
def dfsTraverse (g : Graph) : Nat → List String → String → Option (List String × List String)
  | 0, _, _ => none
  | fuel + 1, visited, curr =>
    match dfsLoop (dfsTraverse g fuel) (sortedConnected (connectedOf g.vertices curr)) visited with
    | none => none
    | some (visited1, out) => some (visited1, curr :: out)

/-- Method `Graph::dfs`: the visitor calls, in order. -/
def Graph.dfs (g : Graph) (startLabel : String) : Option (List String) :=
  if countLabel g.vertices startLabel then
    (dfsTraverse g (g.vertices.length + 1) [startLabel] startLabel).map Prod.snd
  else some []

/-! ## Reachability -/

/-- Vertex `b` is reachable from `a` along stored arcs (`a` itself included). -/
def Reach (g : Graph) (a b : String) : Prop :=
  Relation.ReflTransGen (fun x y => hasArc g x y = true) a b

/-- The spec's rule for the entry that follows the visit sequence `seen`: `x` is the smallest
not-yet-visited neighbour of the most recently visited vertex that still has a
not-yet-visited neighbour. -/
def IsDfsNext (g : Graph) (seen : List String) (x : String) : Prop :=
  ∃ pre u post, seen = pre ++ u :: post ∧
    (∀ p ∈ post, ∀ y, hasArc g p y = true → y ∈ seen) ∧
    hasArc g u x = true ∧ x ∉ seen ∧
    ∀ y, hasArc g u y = true → y ∉ seen → x ≤ y

/-- Visit sequence `out`, following the sequence `seen`, obeys the spec's rule at every entry. -/
def DfsOrdered (g : Graph) : List String → List String → Prop
  | _, [] => True
  | seen, x :: rest => IsDfsNext g seen x ∧ DfsOrdered g (seen ++ [x]) rest

/-- What one call `dfsTraverse(visited, curr, visit)` establishes about its result. -/
def DfsSpec (g : Graph)
    (recur : List String → String → Option (List String × List String)) : Prop :=
  ∀ visited curr v1 out, recur visited curr = some (v1, out) →
    ∃ rest, out = curr :: rest ∧
      (∀ x, x ∈ v1 ↔ x ∈ visited ∨ x ∈ rest) ∧
      rest.Nodup ∧ (∀ x ∈ rest, x ∉ visited) ∧
      (∀ x ∈ rest, Reach g curr x) ∧
      (∀ x ∈ out, ∀ y, hasArc g x y = true → y ∈ v1) ∧
      (∀ pre, (∀ x, x ∈ visited ↔ x ∈ pre ∨ x = curr) → DfsOrdered g (pre ++ [curr]) rest)

/-- Number of vertices of the graph not yet in `visited`. -/
def unvisitedCount (g : Graph) (visited : List String) : Nat :=
  ((g.vertices.map (fun v => v.val)).filter (fun l => l ∉ visited)).length

/-- Directed graph of the tests' `graph0.txt`: arcs A->B (1), A->C (8), B->C (3);
vertices are allocated in order of first mention. -/
def graph0 : Graph :=
  build (fun l => if l = "A" then 0 else if l = "B" then 1 else 2) true
    [.connect "A" "B" 1, .connect "A" "C" 8, .connect "B" "C" 3]

/-- Addresses of the vertices of `graph0`, in allocation order. -/
def graph0Addr : String → Nat := fun l => if l = "A" then 0 else if l = "B" then 1 else 2

/-- The `connect` calls that `readFile("graph0.txt")` makes. -/
def graph0Ops : List Op := [.connect "A" "B" 1, .connect "A" "C" 8, .connect "B" "C" 3]

/-! ## Breadth-first traversal -/

/-- How a call of `bfs` ends. -/
inductive BfsOutcome where
  /-- The call returned after these visitor calls. -/
  | returned (calls : List String)
  /-- `curr->val` was evaluated with `curr == nullptr`. -/
  | nullDereference
  /-- The iteration budget of the embedding was used up. -/
  | budgetExhausted
deriving DecidableEq

/-- Inner `for` loop of `bfs`: every neighbour not yet in `visited` is pushed on the queue
and inserted into `visited`. -/
def bfsEnqueue : List (String × Int) → List String → List String → List String × List String
  | [], visited, q => (visited, q)
  | i :: rest, visited, q =>
    if i.1 ∈ visited then bfsEnqueue rest visited q
    else bfsEnqueue rest (i.1 :: visited) (q ++ [i.1])

/-- The `while (!q.empty())` loop of `bfs` with an iteration budget: the visitor calls made. -/
def bfsLoop (g : Graph) : Nat → List String → List String → Option (List String)
  | _, _, [] => some []
  | 0, _, _ :: _ => none
  | fuel + 1, visited, curr :: q =>
    match bfsLoop g fuel
        (bfsEnqueue (sortedConnected (connectedOf g.vertices curr)) visited q).1
        (bfsEnqueue (sortedConnected (connectedOf g.vertices curr)) visited q).2 with
    | none => none
    | some out => some (curr :: out)

/-- Sum of the out-degrees of the vertices of the graph that are not in `done`. -/
def degreeSum (g : Graph) (done : List String) : Nat :=
  (((g.vertices.map (fun v => v.val)).filter (fun l => l ∉ done)).map
    (fun l => (connectedOf g.vertices l).length)).sum

/-- Method `Graph::bfs`.  For a label that is not contained, `vertices[startLabel]` yields a
null pointer, which is pushed on the queue and dereferenced in the first iteration. -/
def Graph.bfs (g : Graph) (startLabel : String) : BfsOutcome :=
  if countLabel g.vertices startLabel then
    match bfsLoop g (degreeSum g [] + 1) [startLabel] [startLabel] with
    | some out => .returned out
    | none => .budgetExhausted
  else .nullDereference

/-- There is a walk of exactly `n` stored arcs from `a` to `b`. -/
def ReachIn (g : Graph) : Nat → String → String → Prop
  | 0, a, b => a = b
  | n + 1, a, b => ∃ c, ReachIn g n a c ∧ hasArc g c b = true

/-- Hop distance: `d` is the minimum number of arcs of a walk from `s` to `v`. -/
def HopDist (g : Graph) (s v : String) (d : Nat) : Prop :=
  ReachIn g d s v ∧ ∀ m, m < d → ¬ ReachIn g m s v

/-- Visit sequence `out` is in non-decreasing order of hop distance from `s`. -/
def DistSorted (g : Graph) (s : String) (out : List String) : Prop :=
  out.Pairwise (fun a b => ∀ da db, HopDist g s a da → HopDist g s b db → da ≤ db)

/-- Loop invariant of `bfs` started at `s`: `done` are the vertices already dequeued, the
queue is `q1 ++ q2` with `q1` at hop distance `D` and `q2` at hop distance `D + 1`. -/
structure BfsInv (g : Graph) (s : String) (D : Nat) (visited done q1 q2 : List String) :
    Prop where
  mem_visited : ∀ x, x ∈ visited ↔ x ∈ done ∨ x ∈ q1 ++ q2
  nodup : (done ++ (q1 ++ q2)).Nodup
  start_mem : s ∈ visited
  dist1 : ∀ x ∈ q1, HopDist g s x D
  dist2 : ∀ x ∈ q2, HopDist g s x (D + 1)
  closed : ∀ x ∈ done, ∀ y, hasArc g x y = true → y ∈ visited
  below : ∀ v d, HopDist g s v d → d < D → v ∈ done
  level : ∀ v, HopDist g s v D → v ∈ visited

/-- What the rest of the `bfs` loop, run from queue `q` after `done`, produces. -/
structure BfsPost (g : Graph) (s : String) (D : Nat) (done q out : List String) : Prop where
  head : out.head? = q.head?
  nodup : (done ++ out).Nodup
  dist : ∀ x ∈ out, ∃ d, D ≤ d ∧ HopDist g s x d
  sorted : DistSorted g s out
  reach : ∀ v, Reach g s v → v ∈ done ++ out

/-! ## Shortest paths -/

/-- Largest value of the 32-bit `int`. -/
def INT_MAX : Int := 2147483647

/-- Result of a 32-bit `int` addition whose mathematical value is `x` (two's complement). -/
def wrapInt (x : Int) : Int := (x + 2147483648) % 4294967296 - 2147483648

/-- Lookup in a `std::map<string, T>` (absent: `none`). -/
def mapFind? {α : Type} (m : List (String × α)) (k : String) : Option α :=
  (m.find? (fun p => p.1 = k)).map Prod.snd

/-- Assignment `m[k] = v` in a label-ordered `std::map<string, T>`. -/
def mapAssign {α : Type} (k : String) (v : α) : List (String × α) → List (String × α)
  | [] => [(k, v)]
  | p :: rest =>
    if k.data < p.1.data then (k, v) :: p :: rest
    else if p.1.data < k.data then p :: mapAssign k v rest
    else (k, v) :: rest

/-- Edges `{from, weight, to}` pushed for the adjacency entries `c` of vertex `from_`. -/
def outEdges (from_ : String) (c : List (String × Int)) : List Edge :=
  c.map (fun i => ⟨from_, i.2, i.1⟩)

/-- Value of `prevWeight`: the weight known for `edge.to`, `INT_MAX` when there is none. -/
def prevWeightOf (weights : List (String × Int)) (edge : Edge) : Int :=
  match mapFind? weights edge.to_ with
  | some w => w
  | none => INT_MAX

/-- Value of `toWeight`: `edge.weight + weights[edge.from]`, or `edge.weight` alone when
`edge.from` has no weight (it is the start). -/
def toWeightOf (weights : List (String × Int)) (edge : Edge) : Int :=
  match mapFind? weights edge.from_ with
  | some w => wrapInt (edge.weight + w)
  | none => edge.weight

/-- The relaxation `if (prevWeight > toWeight) { weights[to] = toWeight; previous[to] = from; }`. -/
def relax (weights : List (String × Int)) (previous : List (String × String)) (edge : Edge) :
    List (String × Int) × List (String × String) :=
  if prevWeightOf weights edge > toWeightOf weights edge then
    (mapAssign edge.to_ (toWeightOf weights edge) weights, mapAssign edge.to_ edge.from_ previous)
  else (weights, previous)

/-- The `while (!edges.empty())` loop of `dijkstra` with an iteration budget. -/
def dijkstraLoop (g : Graph) (startLabel : String) :
    Nat → List (String × Int) → List (String × String) → List String → List Edge →
      Option (List (String × Int) × List (String × String))
  | _, weights, previous, _, [] => some (weights, previous)
  | 0, _, _, _, _ :: _ => none
  | fuel + 1, weights, previous, visited, edge :: edges =>
    if edge.to_ ∈ visited then
      dijkstraLoop g startLabel fuel (relax weights previous edge).1
        (relax weights previous edge).2 visited edges
    else
      dijkstraLoop g startLabel fuel (relax weights previous edge).1
        (relax weights previous edge).2 (edge.to_ :: visited)
        (edges ++ outEdges edge.to_
          ((connectedOf g.vertices edge.to_).filter (fun i => i.1 ≠ startLabel)))

/-- Method `Graph::dijkstra`: the pair `(weights, previous)`. -/
def Graph.dijkstra (g : Graph) (startLabel : String) :
    Option (List (String × Int) × List (String × String)) :=
  if countLabel g.vertices startLabel then
    dijkstraLoop g startLabel (degreeSum g []) [] [] [startLabel]
      (outEdges startLabel (connectedOf g.vertices startLabel))
  else some ([], [])

/-- There is a walk from `a` to `b` along stored arcs whose weights sum to `total`. -/
inductive WalkWeight (g : Graph) (a : String) : String → Int → Prop where
  | nil : WalkWeight g a a 0
  | snoc (b c : String) (t w : Int) : WalkWeight g a b t → arcWeight g b c = some w →
      WalkWeight g a c (t + w)

/-- Directed graph with arcs A->B (10), A->C (1), C->E (1), E->B (1), B->D (1);
vertices are allocated in order of first mention. -/
def graphDetour : Graph :=
  build (fun l => if l = "A" then 0 else if l = "B" then 1 else if l = "C" then 2
      else if l = "E" then 3 else 4) true
    [.connect "A" "B" 10, .connect "A" "C" 1, .connect "C" "E" 1, .connect "E" "B" 1,
     .connect "B" "D" 1]

/-- The same arcs as `graphDetour`, with the vertices of `C` and `E` allocated before `B`,
so that the adjacency map of `A` iterates `C` before `B`. -/
def graphDetour2 : Graph :=
  build (fun l => if l = "A" then 0 else if l = "C" then 1 else if l = "E" then 2
      else if l = "B" then 3 else 4) true
    [.connect "A" "C" 1, .connect "C" "E" 1, .connect "A" "B" 10, .connect "E" "B" 1,
     .connect "B" "D" 1]

/-- Directed graph with the single arc A->B of weight `INT_MAX`. -/
def graphMax : Graph := build (fun _ => 0) true [.connect "A" "B" 2147483647]

/-- Sum of the stored weights of the arcs `previous[x] -> x` along the chain that follows
`previous` from `v` back to `start`, within `n` steps (`none`: the chain does not reach
`start` within `n` steps, or one of its links is not a stored arc). -/
def chainSum (g : Graph) (previous : List (String × String)) (start : String) :
    Nat → String → Option Int
  | 0, v => if v = start then some 0 else none
  | n + 1, v =>
    if v = start then some 0
    else
      match mapFind? previous v with
      | none => none
      | some u =>
        match arcWeight g u v, chainSum g previous start n u with
        | some w, some t => some (t + w)
        | _, _ => none

/-- Invariants of every graph object: no arc from a vertex to itself, one entry per
neighbour in each adjacency map, and in an undirected graph the two directions of an arc
stored with the same weight. -/
structure Graph.WF (g : Graph) : Prop where
  noSelf : ∀ a, arcWeight g a a = none
  keysNodup : ∀ a, ((connectedOf g.vertices a).map Prod.fst).Nodup
  symm : g.directional = false → ∀ a b, arcWeight g a b = arcWeight g b a

/-! ## Spanning trees -/

/-- Edge `e` joins `x` and `y`, in either direction. -/
def Edge.joins (e : Edge) (x y : String) : Prop :=
  (e.from_ = x ∧ e.to_ = y) ∨ (e.from_ = y ∧ e.to_ = x)

/-- Vertices `x` and `y` are joined by an edge of `T`. -/
def Adj (T : List Edge) (x y : String) : Prop := ∃ e ∈ T, e.joins x y

/-- Vertices `x` and `y` are connected by edges of `T` (used in either direction). -/
def Conn (T : List Edge) (x y : String) : Prop := Relation.ReflTransGen (Adj T) x y

/-- Total weight of a list of edges. -/
def totalWeight (T : List Edge) : Int := (T.map (fun e => e.weight)).sum

/-- Edge list `T` is a spanning tree of the connected component of `start`: its edges are
stored arcs with their stored weights, lie in the component, connect every vertex of the
component to `start`, and contain no cycle (removing any edge disconnects its endpoints). -/
structure IsSpanningTree (g : Graph) (start : String) (T : List Edge) : Prop where
  arcs : ∀ e ∈ T, arcWeight g e.from_ e.to_ = some e.weight
  inside : ∀ e ∈ T, Reach g start e.from_
  spans : ∀ v, Reach g start v → Conn T start v
  acyclic : ∀ e ∈ T, ¬ Conn (T.erase e) e.from_ e.to_

/-- Spanning tree in counting form: `comp` lists the component of `start`, and `T` connects
it with one edge less than it has vertices. -/
structure CountTree (g : Graph) (comp : List String) (start : String) (T : List Edge) :
    Prop where
  arcs : ∀ e ∈ T, arcWeight g e.from_ e.to_ = some e.weight
  inside : ∀ e ∈ T, e.from_ ∈ comp ∧ e.to_ ∈ comp
  spans : ∀ v ∈ comp, Conn T start v
  count : T.length + 1 = comp.length

/-! ## Priority queue of edges -/

/-- Smallest weight among `e0 :: q`. -/
def lightest : Edge → List Edge → Int
  | e0, [] => e0.weight
  | e0, e :: q => min e0.weight (lightest e q)

/-- Calls `edges.top()` and `edges.pop()` on a `priority_queue` ordered by ascending weight:
the edge returned and the queue afterwards.  Which of several edges of the smallest weight
is on top is decided by the heap layout; here it is chosen by `tie`, an arbitrary function
of the queue contents. -/
def pqPop (tie : List Edge → Nat) (q : List Edge) : Option (Edge × List Edge) :=
  match q with
  | [] => none
  | e0 :: rest =>
    let cands := q.filter (fun e => e.weight = lightest e0 rest)
    let top := cands.getD (tie q % cands.length) e0
    some (top, q.erase top)

/-! ## Minimum spanning tree: Prim -/

/-- The `while (!edges.empty())` loop of `mstPrim` with an iteration budget: the final
`weight` and the visitor calls made. -/
def primLoop (g : Graph) (tie : List Edge → Nat) :
    Nat → List String → List Edge → Int → Option (Int × List Edge)
  | 0, _, edges, weight =>
    match pqPop tie edges with
    | none => some (weight, [])
    | some _ => none
  | fuel + 1, visited, edges, weight =>
    match pqPop tie edges with
    | none => some (weight, [])
    | some (curr, edges1) =>
      if curr.to_ ∈ visited then primLoop g tie fuel visited edges1 weight
      else
        match primLoop g tie fuel (curr.to_ :: visited)
            (edges1 ++ outEdges curr.to_
              ((connectedOf g.vertices curr.to_).filter
                (fun i => i.1 ∉ curr.to_ :: visited)))
            (wrapInt (weight + curr.weight)) with
        | none => none
        | some (total, calls) => some (total, curr :: calls)

/-- Method `Graph::mstPrim`: the returned weight and the visitor calls, in order. -/
def Graph.mstPrim (g : Graph) (tie : List Edge → Nat) (startLabel : String) :
    Option (Int × List Edge) :=
  if g.directional ∨ g.vertices.isEmpty ∨ countLabel g.vertices startLabel = false then
    some (-1, [])
  else
    primLoop g tie (degreeSum g []) [startLabel]
      (outEdges startLabel (connectedOf g.vertices startLabel)) 0

/-- Loop invariant of `mstPrim` started at `start`: `V` is the set `visited`, `Q` the
queue, `F` the edges accepted so far, and `T0` any spanning tree to compare with. -/
structure PrimInv (g : Graph) (comp : List String) (start : String) (T0 : List Edge)
    (V : List String) (Q F : List Edge) : Prop where
  start_mem : start ∈ V
  sub : ∀ v ∈ V, v ∈ comp
  conn : ∀ v ∈ V, Conn F start v
  inside : ∀ f ∈ F, f.from_ ∈ V ∧ f.to_ ∈ V
  queue : ∀ q ∈ Q, q.from_ ∈ V ∧ arcWeight g q.from_ q.to_ = some q.weight
  frontier : ∀ x ∈ V, ∀ y w, arcWeight g x y = some w → y ∉ V → (⟨x, w, y⟩ : Edge) ∈ Q
  tree : ∃ T, CountTree g comp start T ∧ F.Subperm T ∧ totalWeight T ≤ totalWeight T0

/-- All arcs that leave the vertices listed in `comp`, as edges. -/
def compEdges (g : Graph) (comp : List String) : List Edge :=
  comp.flatMap (fun a => outEdges a (connectedOf g.vertices a))

/-! ## Minimum spanning tree: Kruskal -/

/-- How a call ends that may throw `std::out_of_range`. -/
inductive Outcome (α : Type) where
  /-- The call returned this value. -/
  | returned (a : α)
  /-- `origin.at(key)` was evaluated for a key that `origin` does not have. -/
  | outOfRange
  /-- The iteration budget of the embedding was used up. -/
  | budgetExhausted
deriving DecidableEq

/-- Test `origin.count(key) == 1` on the map `origin`, kept as the list of its
(key, member) pairs. -/
def originHasKey (origin : List (String × String)) (key : String) : Bool :=
  origin.any (fun p => p.1 = key)

/-- First `for` loop of `cycle`: the accepted neighbours of `edge.from` are pushed on the
stack (top of the stack first in the list); they are not inserted into `cycVisited`. -/
def cycleSeed (origin : List (String × String)) (from_ : String) :
    List (String × Int) → List String → List String
  | [], s => s
  | i :: rest, s =>
    if (from_, i.1) ∈ origin then cycleSeed origin from_ rest (i.1 :: s)
    else cycleSeed origin from_ rest s

/-- Inner `for` loop of `cycle`: accepted neighbours of `curr` that are not in `cycVisited`
are pushed on the stack and inserted into `cycVisited`. -/
def cyclePush (origin : List (String × String)) (curr : String) :
    List (String × Int) → List String → List String → List String × List String
  | [], s, cycVisited => (s, cycVisited)
  | i :: rest, s, cycVisited =>
    if (curr, i.1) ∈ origin ∧ i.1 ∉ cycVisited then
      cyclePush origin curr rest (i.1 :: s) (i.1 :: cycVisited)
    else cyclePush origin curr rest s cycVisited

/-- The `while (!s.empty())` loop of `cycle` with an iteration budget. -/
def cycleLoop (g : Graph) (origin : List (String × String)) (to_ : String) :
    Nat → List String → List String → Outcome Bool
  | _, [], _ => .returned false
  | 0, _ :: _, _ => .budgetExhausted
  | fuel + 1, curr :: s, cycVisited =>
    if originHasKey origin curr = false then .outOfRange
    else if (curr, to_) ∈ origin then .returned true
    else
      cycleLoop g origin to_ fuel
        (cyclePush origin curr (connectedOf g.vertices curr) s cycVisited).1
        (cyclePush origin curr (connectedOf g.vertices curr) s cycVisited).2

/-- Method `Graph::cycle`. -/
def Graph.cycle (g : Graph) (origin : List (String × String)) (edge : Edge) : Outcome Bool :=
  cycleLoop g origin edge.to_ ((connectedOf g.vertices edge.from_).length + origin.length)
    (if originHasKey origin edge.from_ then
      cycleSeed origin edge.from_ (connectedOf g.vertices edge.from_) []
     else [])
    [edge.from_]

/-- Inner `for` loop of the first `while` loop of `mstKruskal`, for the dequeued vertex
`curr`: the state `(visited, q, origin, edges)` afterwards. -/
def kruskalScan (curr : String) :
    List (String × Int) → List String → List String → List (String × String) → List Edge →
      List String × List String × List (String × String) × List Edge
  | [], visited, q, origin, edges => (visited, q, origin, edges)
  | i :: rest, visited, q, origin, edges =>
    kruskalScan curr rest
      (if i.1 ∈ visited then visited else i.1 :: visited)
      (if i.1 ∈ visited then q else q ++ [i.1])
      (if (curr, i.1) ∈ origin then origin else (i.1, curr) :: origin)
      (if (curr, i.1) ∈ origin then edges else edges ++ [⟨curr, i.2, i.1⟩])

/-- First `while` loop of `mstKruskal` with an iteration budget: the edges pushed on the
priority queue. -/
def kruskalCollect (g : Graph) :
    Nat → List String → List String → List (String × String) → List Edge →
      Option (List Edge)
  | _, _, [], _, edges => some edges
  | 0, _, _ :: _, _, _ => none
  | fuel + 1, visited, curr :: q, origin, edges =>
    kruskalCollect g fuel
      (kruskalScan curr (connectedOf g.vertices curr) visited q origin edges).1
      (kruskalScan curr (connectedOf g.vertices curr) visited q origin edges).2.1
      (kruskalScan curr (connectedOf g.vertices curr) visited q origin edges).2.2.1
      (kruskalScan curr (connectedOf g.vertices curr) visited q origin edges).2.2.2

/-- Second `while` loop of `mstKruskal` with an iteration budget: the final `weight` and
the visitor calls made. -/
def kruskalLoop (g : Graph) (tie : List Edge → Nat) :
    Nat → List (String × String) → List Edge → Int → Outcome (Int × List Edge)
  | 0, _, edges, weight =>
    match pqPop tie edges with
    | none => .returned (weight, [])
    | some _ => .budgetExhausted
  | fuel + 1, origin, edges, weight =>
    match pqPop tie edges with
    | none => .returned (weight, [])
    | some (edge, edges1) =>
      match g.cycle origin edge with
      | .returned true => kruskalLoop g tie fuel origin edges1 weight
      | .returned false =>
        match kruskalLoop g tie fuel
            ((edge.from_, edge.to_) :: (edge.to_, edge.from_) :: origin) edges1
            (wrapInt (weight + edge.weight)) with
        | .returned (total, calls) => .returned (total, edge :: calls)
        | .outOfRange => .outOfRange
        | .budgetExhausted => .budgetExhausted
      | .outOfRange => .outOfRange
      | .budgetExhausted => .budgetExhausted

/-- Method `Graph::mstKruskal`: the returned weight and the visitor calls, in order. -/
def Graph.mstKruskal (g : Graph) (tie : List Edge → Nat) (startLabel : String) :
    Outcome (Int × List Edge) :=
  if g.directional ∨ g.vertices.isEmpty ∨ countLabel g.vertices startLabel = false then
    .returned (-1, [])
  else
    match kruskalCollect g (degreeSum g [] + 1) [startLabel] [startLabel] [] [] with
    | none => .budgetExhausted
    | some edges => kruskalLoop g tie edges.length [] edges 0

/-- Number of entries of `origin` whose member is not in `cycVisited`. -/
def unmarked (origin : List (String × String)) (cycVisited : List String) : Nat :=
  ((origin.map Prod.snd).filter (fun x => x ∉ cycVisited)).length

/-- Vertices `x` and `y` are connected through pairs of `origin`. -/
def OriginConn (origin : List (String × String)) (x y : String) : Prop :=
  Relation.ReflTransGen (fun a b => (a, b) ∈ origin) x y

/-- Loop invariant of `cycle`: `D` are the vertices whose accepted neighbours have all been
pushed (`edge.from` and the vertices popped so far). -/
structure CycleInv (origin : List (String × String)) (from_ to_ : String)
    (s cycVisited D : List String) : Prop where
  closed : ∀ x ∈ D, ∀ y, (x, y) ∈ origin → y ∈ s ∨ y ∈ D
  notTo : ∀ x ∈ D, (x, to_) ∉ origin
  stack : ∀ x ∈ s, OriginConn origin from_ x ∧ originHasKey origin x = true
  marked : ∀ x ∈ cycVisited, x ∈ s ∨ x ∈ D
  from_mem : from_ ∈ D

/-- The part of `kruskalScan` that records edges: the state `(origin, edges)` afterwards. -/
def scanEdges (curr : String) :
    List (String × Int) → List (String × String) → List Edge →
      List (String × String) × List Edge
  | [], origin, edges => (origin, edges)
  | i :: rest, origin, edges =>
    scanEdges curr rest
      (if (curr, i.1) ∈ origin then origin else (i.1, curr) :: origin)
      (if (curr, i.1) ∈ origin then edges else edges ++ [⟨curr, i.2, i.1⟩])

/-- No two entries of the edge list join the same two vertices. -/
def EdgesUnique (E : List Edge) : Prop :=
  E.Pairwise (fun a b => ¬ a.joins b.from_ b.to_)

/-- Loop invariant of the first `while` loop of `mstKruskal`; `done` are the vertices
already dequeued. -/
structure CollectInv (g : Graph) (start : String) (V q : List String)
    (O : List (String × String)) (E : List Edge) (done : List String) : Prop where
  mem_visited : ∀ x, x ∈ V ↔ x ∈ done ∨ x ∈ q
  nodup : (done ++ q).Nodup
  start_mem : start ∈ V
  reach : ∀ x ∈ V, Reach g start x
  closed : ∀ x ∈ done, ∀ y, hasArc g x y = true → y ∈ V
  origin : ∀ a b, (b, a) ∈ O ↔ ∃ w, (⟨a, w, b⟩ : Edge) ∈ E
  arcs : ∀ e ∈ E, e.from_ ∈ done ∧ arcWeight g e.from_ e.to_ = some e.weight
  cover : ∀ x ∈ done, ∀ y w, arcWeight g x y = some w →
    (⟨x, w, y⟩ : Edge) ∈ E ∨ (⟨y, w, x⟩ : Edge) ∈ E
  unique : EdgesUnique E

/-- What the first `while` loop of `mstKruskal` collects: every edge of the component of
`start`, once, in one of its two directions. -/
structure Collected (g : Graph) (start : String) (E : List Edge) : Prop where
  arcs : ∀ e ∈ E, arcWeight g e.from_ e.to_ = some e.weight
  inside : ∀ e ∈ E, Reach g start e.from_
  cover : ∀ x, Reach g start x → ∀ y w, arcWeight g x y = some w →
    (⟨x, w, y⟩ : Edge) ∈ E ∨ (⟨y, w, x⟩ : Edge) ∈ E
  unique : EdgesUnique E

/-- Loop invariant of the second `while` loop of `mstKruskal`: `E1` are the collected
edges, `O` the map `origin`, `Q` the queue, `F` the edges accepted so far, and `T0` any
spanning tree to compare with. -/
structure KruskalInv (g : Graph) (comp : List String) (start : String) (T0 E1 : List Edge)
    (O : List (String × String)) (Q F : List Edge) : Prop where
  origin : ∀ a b, (a, b) ∈ O ↔ Adj F a b
  queue : ∀ e ∈ Q, e ∈ E1
  unique : EdgesUnique (F ++ Q)
  processed : ∀ e ∈ E1, e ∈ Q ∨ Conn F e.from_ e.to_
  tree : ∃ T, CountTree g comp start T ∧ F.Subperm T ∧ totalWeight T ≤ totalWeight T0

/-- Undirected graph with the edges A-B of weight 2147483647 and B-C of weight 1. -/
def graphBig : Graph :=
  build graph0Addr false [.connect "A" "B" 2147483647, .connect "B" "C" 1]

/-! ## Invariant of the map `vertices` -/

/-- Invariant of the map `vertices` of a graph built through the public interface: one entry
per label, and every key of a `connected` map is a vertex of `vertices`. -/
structure Graph.Closed (g : Graph) : Prop where
  labelsNodup : (g.vertices.map (fun v => v.val)).Nodup
  targets : ∀ a b, hasArc g a b = true → countLabel g.vertices b = true

/-! ## Counting edges -/

/-- Inner `for` loop of `edgesSize` in undirected mode, for the vertex `i`: the state
`(visited, total)` afterwards.  The map `visited` is represented by the list of its
(key, member) pairs. -/
def edgesScan (i : String) :
    List (String × Int) → List (String × String) → Nat → List (String × String) × Nat
  | [], visited, total => (visited, total)
  | j :: rest, visited, total =>
    if (i, j.1) ∉ visited then
      edgesScan i rest ((j.1, i) :: (i, j.1) :: visited) (total + 1)
    else edgesScan i rest visited total

/-- Outer `for` loop of `edgesSize` over the map `vertices`: the final `total`. -/
def edgesLoop (directional : Bool) : List Vertex → List (String × String) → Nat → Nat
  | [], _, total => total
  | v :: rest, visited, total =>
    if directional then edgesLoop directional rest visited (total + v.connected.length)
    else
      edgesLoop directional rest (edgesScan v.val v.connected visited total).1
        (edgesScan v.val v.connected visited total).2

/-- Method `Graph::edgesSize`.  The counter is exact: it is bounded by the number of map
entries held in memory. -/
def Graph.edgesSize (g : Graph) : Int := (edgesLoop g.directional g.vertices [] 0 : Nat)

/-- Spec-side quantity: the sum of the out-degrees `vertexDegree(label)` over the labels of
the graph. -/
def outDegreeSum (g : Graph) : Int :=
  ((g.vertices.map (fun v => v.val)).map (fun l => g.vertexDegree l)).sum

/-- Spec-side quantity: the number of unordered pairs of distinct labels of the graph that
are joined by a stored arc; each pair is listed with its smaller label first. -/
def unorderedPairCount (g : Graph) : Nat :=
  ((List.product (g.vertices.map (fun v => v.val)) (g.vertices.map (fun v => v.val))).filter
    (fun p => p.1.data < p.2.data ∧ (hasArc g p.1 p.2 = true ∨ hasArc g p.2 p.1 = true))).length

/-- The stored arcs `(from, to)`, vertex by vertex. -/
def arcList (vs : List Vertex) : List (String × String) :=
  vs.flatMap (fun v => v.connected.map (fun p => (v.val, p.1)))

/-- Loop invariant of `edgesSize` in undirected mode. -/
structure EdgesInv (g : Graph) (visited : List (String × String)) (total : Nat) : Prop where
  nodup : visited.Nodup
  symm : ∀ x y, (x, y) ∈ visited → (y, x) ∈ visited
  arcs : ∀ x y, (x, y) ∈ visited → hasArc g x y = true
  count : visited.length = 2 * total

/-- Undirected graph of `testGraphBasic`-like shape: a-b, a-c, a-d. -/
def graphStar : Graph :=
  build (fun l => if l = "a" then 0 else if l = "b" then 1 else if l = "c" then 2 else 3) false
    [.add "a", .add "b", .add "c", .add "d", .add "e", .connect "a" "b" 10,
      .connect "a" "c" 20, .connect "a" "d" 40]

/-! ## Edges as a string -/

/-- Function `std::to_string(int)`: the decimal digits of the value, after a minus sign when
it is negative. -/
def to_string (n : Int) : String := toString n

/-- Method `Graph::getEdgesAsString`: the `for` loop appends one item and a comma per element
of the label-ordered set, `pop_back` removes the last character. -/
def Graph.getEdgesAsString (g : Graph) (label : String) : String :=
  if countLabel g.vertices label = false ∨ (connectedOf g.vertices label).isEmpty then ""
  else
    String.mk ((sortedConnected (connectedOf g.vertices label)).foldl
      (fun rtn i => rtn ++ (i.1 ++ "(" ++ to_string i.2 ++ "),")) "").data.dropLast

/-! ## Walks behind the weights of `dijkstra` -/

/-- Weight `w` is the total weight of a walk from `start` to `v` along stored arcs whose
last arc is `p -> v`. -/
def WalkVia (g : Graph) (start p v : String) (w : Int) : Prop :=
  ∃ t a, WalkWeight g start p t ∧ arcWeight g p v = some a ∧ w = t + a

/-- True shortest distance: `d` is the least total weight of a walk from `s` to `v`. -/
def ShortestDist (g : Graph) (s v : String) (d : Int) : Prop :=
  WalkWeight g s v d ∧ ∀ t, WalkWeight g s v t → d ≤ t

/-- Directed graph with the arcs A->B of weight `INT_MAX` and B->C of weight 0. -/
def graphMaxZero : Graph :=
  build graph0Addr true [.connect "A" "B" 2147483647, .connect "B" "C" 0]

/-- Directed graph with the arcs A->B (5), B->C (-10), C->B (1): a cycle of negative
weight behind `A`. -/
def graphNeg : Graph :=
  build graph0Addr true [.connect "A" "B" 5, .connect "B" "C" (-10), .connect "C" "B" 1]

/-! ## The sums formed by `dijkstra` -/

/-- Mathematical value of the sum assigned to `toWeight`: `edge.weight + weights[edge.from]`,
or `edge.weight` alone when `edge.from` has no weight. -/
def exactSum (weights : List (String × Int)) (edge : Edge) : Int :=
  match mapFind? weights edge.from_ with
  | some w => edge.weight + w
  | none => edge.weight

/-- Record of the `while` loop of `dijkstra`, one entry per edge taken from the worklist, in
order: whether `edge.to` has no weight yet (so that `prevWeight` is `INT_MAX`), and the
mathematical value of the candidate total `toWeight`.  The loop state evolves as in
`dijkstraLoop`. -/
def dijkstraSums (g : Graph) (startLabel : String) :
    Nat → List (String × Int) → List (String × String) → List String → List Edge →
      List (Bool × Int)
  | _, _, _, _, [] => []
  | 0, _, _, _, _ :: _ => []
  | fuel + 1, weights, previous, visited, edge :: edges =>
    ((mapFind? weights edge.to_).isNone, exactSum weights edge) ::
      (if edge.to_ ∈ visited then
        dijkstraSums g startLabel fuel (relax weights previous edge).1
          (relax weights previous edge).2 visited edges
      else
        dijkstraSums g startLabel fuel (relax weights previous edge).1
          (relax weights previous edge).2 (edge.to_ :: visited)
          (edges ++ outEdges edge.to_
            ((connectedOf g.vertices edge.to_).filter (fun i => i.1 ≠ startLabel))))

/-- The candidate totals that `dijkstra(startLabel)` forms, with the same entry state and
iteration budget as `Graph.dijkstra`. -/
def Graph.dijkstraSums (g : Graph) (startLabel : String) : List (Bool × Int) :=
  if countLabel g.vertices startLabel then
    GraphProject.dijkstraSums g startLabel (degreeSum g []) [] [] [startLabel]
      (outEdges startLabel (connectedOf g.vertices startLabel))
  else []

/-- Loop invariant of `dijkstra` started at `start`, as far as the keys of the two maps
are concerned. -/
structure DijkKeys (g : Graph) (start : String) (weights : List (String × Int))
    (previous : List (String × String)) (visited : List String) (edges : List Edge) :
    Prop where
  keys_eq : ∀ v, (mapFind? weights v).isSome = true ↔ (mapFind? previous v).isSome = true
  keys_visited : ∀ v, (mapFind? weights v).isSome = true ↔ (v ∈ visited ∧ v ≠ start)
  start_mem : start ∈ visited
  edges_ok : ∀ e ∈ edges, e.from_ ∈ visited ∧ hasArc g e.from_ e.to_ = true ∧ e.to_ ≠ start
  reach : ∀ v ∈ visited, Reach g start v
  frontier : ∀ u ∈ visited, ∀ y, hasArc g u y = true → y ≠ start →
    y ∈ visited ∨ ∃ e ∈ edges, e.to_ = y

/-- Undirected graph with the single edge A-B of weight 2^30. -/
def graphEdge30 : Graph := build graph0Addr false [.connect "A" "B" 1073741824]

/-- Undirected star with centre A and the edges A-B, A-C, A-D of weight 10^9 each. -/
def graphStar9 : Graph :=
  build (fun l => if l = "A" then 0 else if l = "B" then 1 else if l = "C" then 2 else 3) false
    [.connect "A" "B" 1000000000, .connect "A" "C" 1000000000, .connect "A" "D" 1000000000]

/-- Directed graph with the arcs A->B (1), B->C (2147483547), C->B (100): the arc C->B leads
back to a vertex that already has a weight. -/
def graphBack : Graph :=
  build graph0Addr true [.connect "A" "B" 1, .connect "B" "C" 2147483547, .connect "C" "B" 100]

/-! ## Theorems -/

/-! ### The maps `vertices` and `connected` -/

theorem findVertex_insertVertex_ne (v : Vertex) (vs : List Vertex) (l : String)
    (h : v.val ≠ l) : findVertex (insertVertex v vs) l = findVertex vs l := by
  induction vs with
  | nil => simp [insertVertex, findVertex, h]
  | cons u rest ih =>
    unfold insertVertex
    split
    · simp [findVertex, List.find?_cons, h]
    · simp only [findVertex, List.find?_cons] at ih ⊢
      rw [ih]

theorem findVertex_insertVertex_self (v : Vertex) (vs : List Vertex)
    (h : countLabel vs v.val = false) : findVertex (insertVertex v vs) v.val = some v := by
  induction vs with
  | nil => simp [insertVertex, findVertex]
  | cons u rest ih =>
    have hu : u.val ≠ v.val := by
      intro e
      simp [countLabel, findVertex, List.find?_cons, e] at h
    have hr : countLabel rest v.val = false := by
      simpa [countLabel, findVertex, List.find?_cons, hu] using h
    unfold insertVertex
    split
    · simp [findVertex, List.find?_cons]
    · have := ih hr
      simp only [findVertex, List.find?_cons] at this ⊢
      simp [hu, this]

theorem countLabel_ensureVertex_self (vs : List Vertex) (l : String) :
    countLabel (ensureVertex vs l) l = true := by
  unfold ensureVertex
  by_cases h : countLabel vs l = true
  · simp [h]
  · have h' : countLabel vs l = false := by simpa using h
    simp only [h', Bool.false_eq_true, if_false]
    have := findVertex_insertVertex_self ⟨l, []⟩ vs h'
    simp [countLabel, this]

theorem countLabel_ensureVertex_of (vs : List Vertex) (l x : String)
    (h : countLabel vs x = true) : countLabel (ensureVertex vs l) x = true := by
  unfold ensureVertex
  by_cases hl : countLabel vs l = true
  · simp [hl, h]
  · simp only [hl, if_false]
    have hne : l ≠ x := by
      intro e
      exact hl (e ▸ h)
    have := findVertex_insertVertex_ne ⟨l, []⟩ vs x hne
    simpa [countLabel, this] using h

theorem connectedOf_ensureVertex (vs : List Vertex) (l x : String) :
    connectedOf (ensureVertex vs l) x = connectedOf vs x := by
  unfold ensureVertex
  by_cases hl : countLabel vs l = true
  · simp [hl]
  · have h' : countLabel vs l = false := by simpa using hl
    simp only [h', Bool.false_eq_true, if_false]
    by_cases e : l = x
    · subst e
      have h1 := findVertex_insertVertex_self ⟨l, []⟩ vs h'
      have h2 : findVertex vs l = none := by
        simpa [countLabel] using h'
      simp only [connectedOf]
      rw [h1, h2]
    · have := findVertex_insertVertex_ne ⟨l, []⟩ vs x e
      simp [connectedOf, this]

theorem findVertex_val (vs : List Vertex) (l : String) (v : Vertex)
    (h : findVertex vs l = some v) : v.val = l := by
  have := List.find?_some h
  simpa using this

theorem findVertex_updateConnected (vs : List Vertex) (a l : String)
    (f : List (String × Int) → List (String × Int)) :
    findVertex (updateConnected vs a f) l =
      (findVertex vs l).map
        (fun v => if v.val = a then { v with connected := f v.connected } else v) := by
  have hfun : ((fun v : Vertex => decide (v.val = l)) ∘
      fun v : Vertex => if v.val = a then { v with connected := f v.connected } else v) =
      fun v : Vertex => decide (v.val = l) := by
    funext v
    by_cases ha : v.val = a <;> simp [Function.comp, ha]
  simp only [updateConnected, findVertex, List.find?_map, hfun]

theorem countLabel_updateConnected (vs : List Vertex) (a l : String)
    (f : List (String × Int) → List (String × Int)) :
    countLabel (updateConnected vs a f) l = countLabel vs l := by
  simp [countLabel, findVertex_updateConnected]

theorem connectedOf_updateConnected_ne (vs : List Vertex) (a l : String)
    (f : List (String × Int) → List (String × Int)) (h : l ≠ a) :
    connectedOf (updateConnected vs a f) l = connectedOf vs l := by
  simp only [connectedOf, findVertex_updateConnected]
  cases hv : findVertex vs l with
  | none => simp
  | some v =>
    have := findVertex_val vs l v hv
    simp [this, h]

theorem connectedOf_updateConnected_self (vs : List Vertex) (a : String)
    (f : List (String × Int) → List (String × Int)) (h : countLabel vs a = true) :
    connectedOf (updateConnected vs a f) a = f (connectedOf vs a) := by
  simp only [connectedOf, findVertex_updateConnected]
  cases hv : findVertex vs a with
  | none => simp [countLabel, hv] at h
  | some v =>
    have := findVertex_val vs a v hv
    simp [this]

theorem find_connInsert (addr : String → Nat) (c : List (String × Int)) (b : String) (w : Int)
    (h : connCount c b = false) :
    (connInsert addr b w c).find? (fun p => p.1 = b) = some (b, w) := by
  induction c with
  | nil => simp [connInsert]
  | cons p rest ih =>
    have hp : p.1 ≠ b := by
      intro e
      simp [connCount, e] at h
    have hr : connCount rest b = false := by
      simpa [connCount, hp] using h
    unfold connInsert
    split
    · simp
    · simp [List.find?_cons, hp, ih hr]

theorem find_connAssign (addr : String → Nat) (c : List (String × Int)) (b : String) (w : Int) :
    (connAssign addr c b w).find? (fun p => p.1 = b) = some (b, w) := by
  unfold connAssign
  by_cases h : connCount c b = true
  · simp only [h, if_true]
    clear addr
    induction c with
    | nil => simp [connCount] at h
    | cons p rest ih =>
      by_cases hp : p.1 = b
      · simp [List.find?_cons, hp]
      · have hr : connCount rest b = true := by
          simpa [connCount, hp] using h
        simp [List.find?_cons, hp, ih hr]
  · have h' : connCount c b = false := by simpa using h
    simp only [h', Bool.false_eq_true, if_false]
    exact find_connInsert addr c b w h'

/-! ### C1: contract of `connect` -/

/-- C1: `connect(from, to, w)` returns false exactly when `from = to` or the arc `from -> to`
is already stored; when it returns true, both labels are contained afterwards, the arc
`from -> to` is stored with weight `w`, and in an undirected graph so is `to -> from`. -/
theorem connect_contract (addr : String → Nat) (g : Graph) (from_ to_ : String) (w : Int) :
    ((g.connect addr from_ to_ w).1 = false ↔ (from_ = to_ ∨ hasArc g from_ to_ = true)) ∧
    ((g.connect addr from_ to_ w).1 = true →
      (g.connect addr from_ to_ w).2.contains from_ = true ∧
      (g.connect addr from_ to_ w).2.contains to_ = true ∧
      arcWeight (g.connect addr from_ to_ w).2 from_ to_ = some w ∧
      (g.directional = false → arcWeight (g.connect addr from_ to_ w).2 to_ from_ = some w)) := by
  by_cases hft : from_ = to_
  · simp [Graph.connect, hft]
  have hc : connectedOf (ensureVertex (ensureVertex g.vertices from_) to_) from_ =
      connectedOf g.vertices from_ := by
    rw [connectedOf_ensureVertex, connectedOf_ensureVertex]
  have hcf : countLabel (ensureVertex (ensureVertex g.vertices from_) to_) from_ = true :=
    countLabel_ensureVertex_of _ _ _ (countLabel_ensureVertex_self _ _)
  have hct : countLabel (ensureVertex (ensureVertex g.vertices from_) to_) to_ = true :=
    countLabel_ensureVertex_self _ _
  by_cases harc : connCount (connectedOf g.vertices from_) to_ = true
  · simp [Graph.connect, hft, hc, harc, hasArc]
  · have hne : to_ ≠ from_ := fun e => hft e.symm
    refine ⟨by simp [Graph.connect, hft, hc, harc, hasArc], fun _ => ?_⟩
    cases hd : g.directional
    · simp only [Graph.connect, hft, hc, harc, hd, if_false, Graph.contains, arcWeight,
        Bool.false_eq_true]
      refine ⟨?_, ?_, ?_, fun _ => ?_⟩
      · rw [countLabel_updateConnected, countLabel_updateConnected]; exact hcf
      · rw [countLabel_updateConnected, countLabel_updateConnected]; exact hct
      · rw [connectedOf_updateConnected_ne _ _ _ _ hft,
          connectedOf_updateConnected_self _ _ _ hcf, find_connAssign]
        rfl
      · rw [connectedOf_updateConnected_self _ _ _
          (by rw [countLabel_updateConnected]; exact hct), find_connAssign]
        rfl
    · simp only [Graph.connect, hft, hc, harc, hd, if_false, if_true, Graph.contains, arcWeight,
        Bool.false_eq_true]
      refine ⟨?_, ?_, ?_, fun h => ?_⟩
      · rw [countLabel_updateConnected]; exact hcf
      · rw [countLabel_updateConnected]; exact hct
      · rw [connectedOf_updateConnected_self _ _ _ hcf, find_connAssign]
        rfl
      · simp at h

/-! ### Label-ordered neighbour sets -/

theorem mem_labelSetInsert_fst (x : String × Int) (ys : List (String × Int)) (l : String) :
    l ∈ (labelSetInsert x ys).map Prod.fst ↔ l = x.1 ∨ l ∈ ys.map Prod.fst := by
  induction ys with
  | nil => simp [labelSetInsert]
  | cons y ys ih =>
    unfold labelSetInsert
    split
    · simp
    · split
      · simp only [List.map_cons, List.mem_cons, ih]
        tauto
      · rename_i h1 h2
        have hd : x.1.data = y.1.data := by
          rcases lt_trichotomy x.1.data y.1.data with h | h | h
          · exact absurd h h1
          · exact h
          · exact absurd h h2
        have he : x.1 = y.1 := String.ext hd
        simp only [List.map_cons, List.mem_cons, he]
        tauto

theorem mem_labelSetInsert (x : String × Int) (ys : List (String × Int)) (p : String × Int)
    (h : p ∈ labelSetInsert x ys) : p = x ∨ p ∈ ys := by
  induction ys with
  | nil => simpa [labelSetInsert] using h
  | cons y ys ih =>
    unfold labelSetInsert at h
    split at h
    · simpa using h
    · split at h
      · simp only [List.mem_cons] at h ⊢
        rcases h with h | h
        · exact Or.inr (Or.inl h)
        · rcases ih h with h | h
          · exact Or.inl h
          · exact Or.inr (Or.inr h)
      · exact Or.inr h

theorem pairwise_labelSetInsert (x : String × Int) (ys : List (String × Int))
    (h : ys.Pairwise (fun a b => a.1.data < b.1.data)) :
    (labelSetInsert x ys).Pairwise (fun a b => a.1.data < b.1.data) := by
  induction ys with
  | nil => simp [labelSetInsert]
  | cons y ys ih =>
    rw [List.pairwise_cons] at h
    unfold labelSetInsert
    split
    · rename_i h1
      rw [List.pairwise_cons]
      refine ⟨fun b hb => ?_, List.pairwise_cons.mpr h⟩
      rcases List.mem_cons.mp hb with e | hb
      · rw [e]; exact h1
      · exact lt_trans h1 (h.1 b hb)
    · split
      · rename_i h1 h2
        rw [List.pairwise_cons]
        refine ⟨fun b hb => ?_, ih h.2⟩
        rcases mem_labelSetInsert x ys b hb with e | hb
        · rw [e]; exact h2
        · exact h.1 b hb
      · exact List.pairwise_cons.mpr h

theorem sortedConnected_aux (c acc : List (String × Int)) :
    (acc.Pairwise (fun a b => a.1.data < b.1.data) →
      (c.foldl (fun acc x => labelSetInsert x acc) acc).Pairwise
        (fun a b => a.1.data < b.1.data)) ∧
    (∀ l, l ∈ (c.foldl (fun acc x => labelSetInsert x acc) acc).map Prod.fst ↔
      l ∈ c.map Prod.fst ∨ l ∈ acc.map Prod.fst) ∧
    (∀ p, p ∈ c.foldl (fun acc x => labelSetInsert x acc) acc → p ∈ c ∨ p ∈ acc) := by
  induction c generalizing acc with
  | nil => simp
  | cons x c ih =>
    obtain ⟨h1, h2, h3⟩ := ih (labelSetInsert x acc)
    refine ⟨fun h => h1 (pairwise_labelSetInsert x acc h), fun l => ?_, fun p hp => ?_⟩
    · simp only [List.foldl_cons, h2, mem_labelSetInsert_fst, List.map_cons, List.mem_cons]
      tauto
    · simp only [List.foldl_cons] at hp
      rcases h3 p hp with h | h
      · exact Or.inl (List.mem_cons_of_mem _ h)
      · rcases mem_labelSetInsert x acc p h with h | h
        · exact Or.inl (h ▸ List.mem_cons_self _ _)
        · exact Or.inr h

theorem connCount_iff (c : List (String × Int)) (l : String) :
    connCount c l = true ↔ l ∈ c.map Prod.fst := by
  simp [connCount]

theorem sortedConnected_pairwise (c : List (String × Int)) :
    (sortedConnected c).Pairwise (fun a b => a.1 < b.1) := by
  have := (sortedConnected_aux c []).1 List.Pairwise.nil
  refine List.Pairwise.imp ?_ this
  intro a b hab
  exact String.lt_iff_toList_lt.mpr hab

theorem mem_sortedConnected_fst (c : List (String × Int)) (l : String) :
    l ∈ (sortedConnected c).map Prod.fst ↔ connCount c l = true := by
  rw [connCount_iff]
  have := (sortedConnected_aux c []).2.1 l
  simpa [sortedConnected] using this

theorem mem_sortedConnected (c : List (String × Int)) (p : String × Int)
    (h : p ∈ sortedConnected c) : p ∈ c := by
  have := (sortedConnected_aux c []).2.2 p h
  simpa using this

theorem hasArc_of_mem_sorted (g : Graph) (curr : String) (i : String × Int)
    (h : i ∈ sortedConnected (connectedOf g.vertices curr)) : hasArc g curr i.1 = true := by
  unfold hasArc
  rw [← mem_sortedConnected_fst]
  exact List.mem_map_of_mem _ h

theorem mem_sorted_of_hasArc (g : Graph) (curr y : String) (h : hasArc g curr y = true) :
    ∃ i ∈ sortedConnected (connectedOf g.vertices curr), i.1 = y := by
  unfold hasArc at h
  rw [← mem_sortedConnected_fst] at h
  obtain ⟨i, hi, e⟩ := List.mem_map.mp h
  exact ⟨i, hi, e⟩

/-! ### Depth-first traversal -/

theorem dfsOrdered_append (g : Graph) (o1 o2 : List String) :
    ∀ s, DfsOrdered g s (o1 ++ o2) ↔ DfsOrdered g s o1 ∧ DfsOrdered g (s ++ o1) o2 := by
  induction o1 with
  | nil => intro s; simp [DfsOrdered]
  | cons x o1 ih =>
    intro s
    have h := ih (s ++ [x])
    simp only [List.append_assoc, List.singleton_append] at h
    show IsDfsNext g s x ∧ DfsOrdered g (s ++ [x]) (o1 ++ o2) ↔
      (IsDfsNext g s x ∧ DfsOrdered g (s ++ [x]) o1) ∧ DfsOrdered g (s ++ x :: o1) o2
    rw [h, and_assoc]

theorem dfsLoop_spec (g : Graph)
    (recur : List String → String → Option (List String × List String))
    (hrec : DfsSpec g recur) (curr : String) :
    ∀ (nbrs : List (String × Int)) (visited v2 out : List String),
      dfsLoop recur nbrs visited = some (v2, out) →
      (∀ i ∈ nbrs, hasArc g curr i.1 = true) →
      (∀ x, x ∈ v2 ↔ x ∈ visited ∨ x ∈ out) ∧ out.Nodup ∧ (∀ x ∈ out, x ∉ visited) ∧
      (∀ x ∈ out, Reach g curr x) ∧ (∀ x ∈ out, ∀ y, hasArc g x y = true → y ∈ v2) ∧
      (∀ i ∈ nbrs, i.1 ∈ v2) ∧
      (∀ pre post, (∀ x, x ∈ visited ↔ x ∈ pre ++ curr :: post) →
        (∀ p ∈ post, ∀ y, hasArc g p y = true → y ∈ visited) →
        nbrs.Pairwise (fun a b => a.1 < b.1) →
        (∀ y, hasArc g curr y = true → y ∉ visited → ∃ i ∈ nbrs, i.1 = y) →
        DfsOrdered g (pre ++ curr :: post) out) := by
  intro nbrs
  induction nbrs with
  | nil =>
    intro visited v2 out h _
    simp only [dfsLoop, Option.some.injEq, Prod.mk.injEq] at h
    obtain ⟨rfl, rfl⟩ := h
    simp [DfsOrdered]
  | cons i rest ih =>
    intro visited v2 out h harc
    rw [dfsLoop] at h
    by_cases hi : i.1 ∈ visited
    · simp only [hi, if_true] at h
      obtain ⟨h1, h2, h3, h4, h5, h6, h7⟩ :=
        ih visited v2 out h (fun j hj => harc j (List.mem_cons_of_mem _ hj))
      refine ⟨h1, h2, h3, h4, h5, ?_, ?_⟩
      · intro j hj
        rcases List.mem_cons.mp hj with e | hj
        · subst e; exact (h1 _).mpr (Or.inl hi)
        · exact h6 j hj
      · intro pre post hs hpost hpw hun
        refine h7 pre post hs hpost (List.Pairwise.of_cons hpw) (fun y hy hyv => ?_)
        obtain ⟨j, hj, e⟩ := hun y hy hyv
        rcases List.mem_cons.mp hj with e1 | hj
        · subst e1; exact absurd (e ▸ hi) hyv
        · exact ⟨j, hj, e⟩
    · simp only [hi, if_false] at h
      cases hr : recur (i.1 :: visited) i.1 with
      | none => simp [hr] at h
      | some r1 =>
        obtain ⟨v1, o1⟩ := r1
        simp only [hr] at h
        cases hl : dfsLoop recur rest v1 with
        | none => simp [hl] at h
        | some r2 =>
          obtain ⟨v2', o2⟩ := r2
          simp only [hl, Option.some.injEq, Prod.mk.injEq] at h
          obtain ⟨rfl, rfl⟩ := h
          obtain ⟨rest1, rfl, p1, p2, p3, p4, p5, p6⟩ := hrec _ _ _ _ hr
          obtain ⟨h1, h2, h3, h4, h5, h6, h7⟩ :=
            ih v1 v2' o2 hl (fun j hj => harc j (List.mem_cons_of_mem _ hj))
          have hiarc : hasArc g curr i.1 = true := harc i (List.mem_cons_self _ _)
          have hv1 : ∀ x, x ∈ v1 ↔ x ∈ visited ∨ x ∈ i.1 :: rest1 := by
            intro x
            rw [p1]
            simp only [List.mem_cons]
            tauto
          have hmono : ∀ x, x ∈ visited → x ∈ v1 := fun x hx => (hv1 x).mpr (Or.inl hx)
          have hmono2 : ∀ x, x ∈ v1 → x ∈ v2' := fun x hx => (h1 x).mpr (Or.inl hx)
          have ho1 : ∀ x ∈ i.1 :: rest1, x ∉ visited := by
            intro x hx
            rcases List.mem_cons.mp hx with e | hx
            · rw [e]; exact hi
            · exact fun hv => p3 x hx (List.mem_cons_of_mem _ hv)
          refine ⟨?_, ?_, ?_, ?_, ?_, ?_, ?_⟩
          · intro x
            rw [h1, hv1, List.mem_append]
            tauto
          · rw [List.nodup_append]
            refine ⟨?_, h2, ?_⟩
            · rw [List.nodup_cons]
              exact ⟨fun hmem => p3 _ hmem (List.mem_cons_self _ _), p2⟩
            · intro x hx1 hx2
              exact h3 x hx2 ((hv1 x).mpr (Or.inr hx1))
          · intro x hx
            rcases List.mem_append.mp hx with hx | hx
            · exact ho1 x hx
            · exact fun hv => h3 x hx (hmono x hv)
          · intro x hx
            rcases List.mem_append.mp hx with hx | hx
            · rcases List.mem_cons.mp hx with e | hx
              · rw [e]; exact Relation.ReflTransGen.single hiarc
              · exact Relation.ReflTransGen.head hiarc (p4 x hx)
            · exact h4 x hx
          · intro x hx y hy
            rcases List.mem_append.mp hx with hx | hx
            · exact hmono2 y (p5 x hx y hy)
            · exact h5 x hx y hy
          · intro j hj
            rcases List.mem_cons.mp hj with e | hj
            · subst e
              exact hmono2 _ ((hv1 _).mpr (Or.inr (List.mem_cons_self _ _)))
            · exact h6 j hj
          · intro pre post hs hpost hpw hun
            rw [dfsOrdered_append]
            refine ⟨⟨?_, ?_⟩, ?_⟩
            · refine ⟨pre, curr, post, rfl, ?_, hiarc, ?_, ?_⟩
              · intro p hp y hy
                exact (hs y).mp (hpost p hp y hy)
              · exact fun hmem => hi ((hs _).mpr hmem)
              · intro y hy hyn
                obtain ⟨j, hj, e⟩ := hun y hy (fun hv => hyn ((hs y).mp hv))
                rcases List.mem_cons.mp hj with e1 | hj
                · subst e1; rw [e]
                · rw [← e]
                  exact le_of_lt (List.rel_of_pairwise_cons hpw hj)
            · have := p6 (pre ++ curr :: post) (by
                intro x
                rw [List.mem_cons, ← hs]
                tauto)
              simpa using this
            · have := h7 pre (post ++ i.1 :: rest1) (by
                  intro x
                  rw [hv1, hs]
                  simp only [List.mem_append, List.mem_cons]
                  tauto)
                (by
                  intro p hp y hy
                  rcases List.mem_append.mp hp with hp | hp
                  · exact hmono y (hpost p hp y hy)
                  · exact p5 p hp y hy)
                (List.Pairwise.of_cons hpw)
                (by
                  intro y hy hyv
                  obtain ⟨j, hj, e⟩ := hun y hy (fun hv => hyv (hmono y hv))
                  rcases List.mem_cons.mp hj with e1 | hj
                  · subst e1
                    exact absurd ((hv1 _).mpr (Or.inr (List.mem_cons_self _ _))) (e ▸ hyv)
                  · exact ⟨j, hj, e⟩)
              simpa using this

theorem dfsTraverse_spec (g : Graph) : ∀ fuel, DfsSpec g (dfsTraverse g fuel) := by
  intro fuel
  induction fuel with
  | zero => intro visited curr v1 out h; simp [dfsTraverse] at h
  | succ fuel ih =>
    intro visited curr v1 out h
    rw [dfsTraverse] at h
    cases hl : dfsLoop (dfsTraverse g fuel) (sortedConnected (connectedOf g.vertices curr))
        visited with
    | none => simp [hl] at h
    | some r =>
      obtain ⟨v, o⟩ := r
      simp only [hl, Option.some.injEq, Prod.mk.injEq] at h
      obtain ⟨rfl, rfl⟩ := h
      obtain ⟨h1, h2, h3, h4, h5, h6, h7⟩ :=
        dfsLoop_spec g _ ih curr _ _ _ _ hl (fun i hi => hasArc_of_mem_sorted g curr i hi)
      refine ⟨o, rfl, h1, h2, h3, h4, ?_, ?_⟩
      · intro x hx y hy
        rcases List.mem_cons.mp hx with e | hx
        · subst e
          obtain ⟨i, hi, e⟩ := mem_sorted_of_hasArc g x y hy
          exact e ▸ h6 i hi
        · exact h5 x hx y hy
      · intro pre hpre
        have := h7 pre [] (by
            intro x
            rw [hpre]
            simp)
          (by simp) (sortedConnected_pairwise _)
          (fun y hy _ => mem_sorted_of_hasArc g curr y hy)
        simpa using this

theorem countLabel_iff (vs : List Vertex) (l : String) :
    countLabel vs l = true ↔ l ∈ vs.map (fun v => v.val) := by
  simp only [countLabel, findVertex, List.find?_isSome, List.mem_map, decide_eq_true_eq]

theorem connectedOf_of_not_count (vs : List Vertex) (l : String)
    (h : countLabel vs l = false) : connectedOf vs l = [] := by
  have : findVertex vs l = none := by simpa [countLabel] using h
  simp [connectedOf, this]

theorem filter_notMem_length_le (L v v1 : List String) (h : ∀ x ∈ v, x ∈ v1) :
    (L.filter (fun l => l ∉ v1)).length ≤ (L.filter (fun l => l ∉ v)).length := by
  induction L with
  | nil => simp
  | cons a L ih =>
    by_cases h1 : a ∈ v1
    · by_cases h0 : a ∈ v
      · simpa [List.filter_cons, h1, h0] using ih
      · simp only [List.filter_cons, h1, h0, not_true_eq_false, decide_False, not_false_eq_true,
          decide_True, if_true, List.length_cons]
        exact Nat.le_succ_of_le ih
    · have h0 : a ∉ v := fun hv => h1 (h a hv)
      simpa [List.filter_cons, h1, h0] using ih

theorem filter_notMem_length_lt (L v v1 : List String) (i : String) (h : ∀ x ∈ v, x ∈ v1)
    (hi : i ∈ L) (hiv : i ∉ v) (hi1 : i ∈ v1) :
    (L.filter (fun l => l ∉ v1)).length < (L.filter (fun l => l ∉ v)).length := by
  induction L with
  | nil => simp at hi
  | cons a L ih =>
    by_cases e : a = i
    · subst e
      simp only [List.filter_cons, hi1, hiv, not_true_eq_false, decide_False, not_false_eq_true,
        decide_True, if_true, List.length_cons]
      exact Nat.lt_succ_of_le (filter_notMem_length_le L v v1 h)
    · have hi' : i ∈ L := by
        rcases List.mem_cons.mp hi with e1 | hi
        · exact absurd e1.symm e
        · exact hi
      have := ih hi'
      by_cases h1 : a ∈ v1
      · by_cases h0 : a ∈ v
        · simpa [List.filter_cons, h1, h0] using this
        · simp only [List.filter_cons, h1, h0, not_true_eq_false, decide_False,
            not_false_eq_true, decide_True, if_true, List.length_cons]
          exact Nat.lt_succ_of_lt this
      · have h0 : a ∉ v := fun hv => h1 (h a hv)
        simpa [List.filter_cons, h1, h0] using this

theorem dfsLoop_isSome (g : Graph) (fuel : Nat)
    (hT : ∀ visited curr,
      (unvisitedCount g visited + 1 < fuel ∨ (connectedOf g.vertices curr = [] ∧ 1 ≤ fuel)) →
      (dfsTraverse g fuel visited curr).isSome = true) :
    ∀ (nbrs : List (String × Int)) (visited : List String),
      unvisitedCount g visited < fuel →
      (dfsLoop (dfsTraverse g fuel) nbrs visited).isSome = true := by
  intro nbrs
  induction nbrs with
  | nil => intro visited _; simp [dfsLoop]
  | cons i rest ih =>
    intro visited hlt
    rw [dfsLoop]
    by_cases hi : i.1 ∈ visited
    · simp only [hi, if_true]
      exact ih visited hlt
    · simp only [hi, if_false]
      have hcall : (dfsTraverse g fuel (i.1 :: visited) i.1).isSome = true := by
        apply hT
        by_cases hc : countLabel g.vertices i.1 = true
        · left
          have := filter_notMem_length_lt (g.vertices.map (fun v => v.val)) visited
            (i.1 :: visited) i.1 (fun x hx => List.mem_cons_of_mem _ hx)
            ((countLabel_iff _ _).mp hc) hi (List.mem_cons_self _ _)
          unfold unvisitedCount at hlt ⊢
          omega
        · right
          refine ⟨connectedOf_of_not_count _ _ (by simpa using hc), ?_⟩
          omega
      cases hr : dfsTraverse g fuel (i.1 :: visited) i.1 with
      | none => simp [hr] at hcall
      | some r =>
        obtain ⟨v1, o1⟩ := r
        obtain ⟨rest1, _, p1, _⟩ := dfsTraverse_spec g fuel _ _ _ _ hr
        have hmono : ∀ x ∈ visited, x ∈ v1 :=
          fun x hx => (p1 x).mpr (Or.inl (List.mem_cons_of_mem _ hx))
        have hle := filter_notMem_length_le (g.vertices.map (fun v => v.val)) visited v1 hmono
        have := ih v1 (by unfold unvisitedCount at hlt ⊢; omega)
        cases hl : dfsLoop (dfsTraverse g fuel) rest v1 with
        | none => simp [hl] at this
        | some r2 => simp [hl]

theorem dfsTraverse_isSome (g : Graph) : ∀ fuel visited curr,
    (unvisitedCount g visited + 1 < fuel ∨ (connectedOf g.vertices curr = [] ∧ 1 ≤ fuel)) →
    (dfsTraverse g fuel visited curr).isSome = true := by
  intro fuel
  induction fuel with
  | zero => intro visited curr h; omega
  | succ fuel ih =>
    intro visited curr h
    rw [dfsTraverse]
    have hloop : (dfsLoop (dfsTraverse g fuel) (sortedConnected (connectedOf g.vertices curr))
        visited).isSome = true := by
      rcases h with h | ⟨h, _⟩
      · exact dfsLoop_isSome g fuel ih _ visited (by omega)
      · rw [h]; simp [sortedConnected, dfsLoop]
    cases hl : dfsLoop (dfsTraverse g fuel) (sortedConnected (connectedOf g.vertices curr))
        visited with
    | none => simp [hl] at hloop
    | some r => simp

theorem dfsOrdered_get (g : Graph) : ∀ (rest s : List String), DfsOrdered g s rest →
    ∀ k (hk : k < rest.length), IsDfsNext g (s ++ rest.take k) (rest.get ⟨k, hk⟩) := by
  intro rest
  induction rest with
  | nil => intro s _ k hk; simp at hk
  | cons x rest ih =>
    intro s h k hk
    cases k with
    | zero => simpa using h.1
    | succ k =>
      have := ih (s ++ [x]) h.2 k (by simpa using hk)
      simpa using this

/-- Result of `dfs` from a contained start: the traversal returns, its visit sequence is
`start :: rest`, without repetition, closed under stored arcs, within reach of `start`,
and ordered by the spec's rule. -/
theorem dfs_result (g : Graph) (start : String) (h : g.contains start = true) :
    ∃ rest, g.dfs start = some (start :: rest) ∧ (start :: rest).Nodup ∧
      (∀ v, v ∈ start :: rest ↔ Reach g start v) ∧ DfsOrdered g [start] rest := by
  have hc : countLabel g.vertices start = true := h
  have hfuel : unvisitedCount g [start] + 1 < g.vertices.length + 1 := by
    have := filter_notMem_length_lt (g.vertices.map (fun v => v.val)) [] [start] start
      (by simp) ((countLabel_iff _ _).mp hc) (by simp) (by simp)
    have h2 : ((g.vertices.map (fun v => v.val)).filter (fun l => l ∉ ([] : List String))).length
        ≤ g.vertices.length := by
      have := List.length_filter_le (fun l => decide (l ∉ ([] : List String)))
        (g.vertices.map (fun v => v.val))
      rwa [List.length_map] at this
    unfold unvisitedCount
    omega
  have hsome := dfsTraverse_isSome g (g.vertices.length + 1) [start] start (Or.inl hfuel)
  cases hr : dfsTraverse g (g.vertices.length + 1) [start] start with
  | none => simp [hr] at hsome
  | some r =>
    obtain ⟨v1, out⟩ := r
    obtain ⟨rest, rfl, p1, p2, p3, p4, p5, p6⟩ := dfsTraverse_spec g _ _ _ _ _ hr
    refine ⟨rest, by simp [Graph.dfs, hc, hr], ?_, ?_, ?_⟩
    · rw [List.nodup_cons]
      exact ⟨fun hm => p3 _ hm (by simp), p2⟩
    · intro v
      constructor
      · intro hv
        rcases List.mem_cons.mp hv with e | hv
        · rw [e]; exact Relation.ReflTransGen.refl
        · exact p4 v hv
      · intro hv
        induction hv with
        | refl => exact List.mem_cons_self _ _
        | tail _ hbc ih =>
          have := (p1 _).mp (p5 _ ih _ hbc)
          simpa using this
    · exact p6 [] (by simp)

/-! ### C2: `dfs` visits exactly the reachable vertices, each once -/

/-- C2: `dfs` returns; from a contained start its visit sequence has no label twice and
holds exactly the vertices reachable from start along stored arcs (start included); from
a start that is not contained the visitor is never called. -/
theorem dfs_visits_reachable_once (g : Graph) (start : String) :
    ∃ out, g.dfs start = some out ∧
      (if g.contains start = true then out.Nodup ∧ ∀ v, v ∈ out ↔ Reach g start v
       else out = []) := by
  by_cases h : g.contains start = true
  · obtain ⟨rest, h1, h2, h3, _⟩ := dfs_result g start h
    exact ⟨start :: rest, h1, by simp only [h, if_true]; exact ⟨h2, h3⟩⟩
  · refine ⟨[], ?_, by simp [h]⟩
    have hc : countLabel g.vertices start = false := by simpa [Graph.contains] using h
    simp [Graph.dfs, hc]

/-! ### C3: `dfs` visit order -/

theorem isDfsNext_unique (g : Graph) (seen : List String) (x y : String)
    (hx : IsDfsNext g seen x) (hy : IsDfsNext g seen y) : x = y := by
  obtain ⟨pre, u, post, e1, c1, a1, n1, m1⟩ := hx
  obtain ⟨pre', u', post', e2, c2, a2, n2, m2⟩ := hy
  have e : pre ++ u :: post = pre' ++ u' :: post' := e1.symm.trans e2
  rcases List.append_eq_append_iff.1 e with ⟨a', _, h2⟩ | ⟨c', _, h2⟩
  · cases a' with
    | nil =>
      simp only [List.nil_append, List.cons.injEq] at h2
      rw [← h2.1] at a2 m2
      exact le_antisymm (m1 y a2 n2) (m2 x a1 n1)
    | cons z zs =>
      simp only [List.cons_append, List.cons.injEq] at h2
      have hmem : u' ∈ post := by rw [h2.2]; simp
      exact absurd (c1 u' hmem y a2) n2
  · cases c' with
    | nil =>
      simp only [List.nil_append, List.cons.injEq] at h2
      rw [← h2.1] at a1 m1
      exact le_antisymm (m1 y a2 n2) (m2 x a1 n1)
    | cons z zs =>
      simp only [List.cons_append, List.cons.injEq] at h2
      have hmem : u ∈ post' := by rw [h2.2]; simp
      exact absurd (c2 u hmem x a1) n1

theorem dfsOrdered_of_get (g : Graph) : ∀ (rest s : List String),
    (∀ k (hk : k < rest.length), IsDfsNext g (s ++ rest.take k) (rest.get ⟨k, hk⟩)) →
    DfsOrdered g s rest := by
  intro rest
  induction rest with
  | nil => intro s _; trivial
  | cons x rest ih =>
    intro s h
    refine ⟨by simpa using h 0 (by simp), ih (s ++ [x]) (fun k hk => ?_)⟩
    have := h (k + 1) (by simpa using hk)
    simpa using this

theorem dfsOrdered_prefix (g : Graph) : ∀ (r1 r2 s : List String),
    DfsOrdered g s r1 → DfsOrdered g s r2 → r1 <+: r2 ∨ r2 <+: r1 := by
  intro r1
  induction r1 with
  | nil => intro r2 s _ _; exact Or.inl (List.nil_prefix)
  | cons x r1 ih =>
    intro r2 s h1 h2
    cases r2 with
    | nil => exact Or.inr (List.nil_prefix)
    | cons y r2 =>
      have hxy : x = y := isDfsNext_unique g s x y h1.1 h2.1
      subst hxy
      rcases ih r2 (s ++ [x]) h1.2 h2.2 with h | h
      · exact Or.inl ((List.prefix_cons_inj x).2 h)
      · exact Or.inr ((List.prefix_cons_inj x).2 h)

theorem dfsOrdered_fresh (g : Graph) (start : String) : ∀ (rest s : List String),
    (∀ v ∈ s, Reach g start v) → DfsOrdered g s rest →
    ∀ (a b : List String) (x : String), rest = a ++ x :: b →
      x ∉ s ++ a ∧ Reach g start x := by
  intro rest
  induction rest with
  | nil => intro s _ _ a b x e; simp at e
  | cons y rest ih =>
    intro s hs h a b x e
    have hy : y ∉ s ∧ Reach g start y := by
      obtain ⟨pre, u, post, e1, _, a1, n1, _⟩ := h.1
      refine ⟨n1, Relation.ReflTransGen.tail (hs u ?_) a1⟩
      rw [e1]; simp
    cases a with
    | nil =>
      simp only [List.nil_append, List.cons.injEq] at e
      rw [← e.1]
      simpa using hy
    | cons z a =>
      simp only [List.cons_append, List.cons.injEq] at e
      have hs' : ∀ v ∈ s ++ [y], Reach g start v := by
        intro v hv
        rcases List.mem_append.1 hv with hv | hv
        · exact hs v hv
        · rw [List.mem_singleton.1 hv]; exact hy.2
      have := ih (s ++ [y]) hs' h.2 a b x e.2
      rw [← e.1]
      simpa using this

theorem dfsOrdered_unique (g : Graph) (start : String) (rest rest' : List String)
    (h1 : DfsOrdered g [start] rest) (hcov : ∀ v, Reach g start v → v ∈ start :: rest)
    (h2 : DfsOrdered g [start] rest') (hcov' : ∀ v, Reach g start v → v ∈ start :: rest') :
    rest' = rest := by
  have hs : ∀ v ∈ [start], Reach g start v := by
    intro v hv
    rw [List.mem_singleton.1 hv]
    exact Relation.ReflTransGen.refl
  have key : ∀ (r1 r2 : List String), DfsOrdered g [start] r1 → DfsOrdered g [start] r2 →
      (∀ v, Reach g start v → v ∈ start :: r1) → r1 <+: r2 → r2 = r1 := by
    intro r1 r2 _ k2 c1 hp
    obtain ⟨t, ht⟩ := hp
    cases t with
    | nil => simpa using ht.symm
    | cons x t =>
      exfalso
      obtain ⟨hn, hr⟩ := dfsOrdered_fresh g start r2 [start] hs k2 r1 t x ht.symm
      exact hn (by simpa using c1 x hr)
  rcases dfsOrdered_prefix g rest rest' [start] h1 h2 with h | h
  · exact key rest rest' h1 h2 hcov h
  · exact (key rest' rest h2 h1 hcov' h).symm

/-- C3: from a contained start `dfs` returns a visit sequence that begins with start, in
which every later entry is the smallest not-yet-visited neighbour of the most recently
visited vertex that still has a not-yet-visited neighbour, and that holds every vertex
reachable from start exactly once; it is the only sequence that begins with start, obeys
that rule at every later entry and holds every reachable vertex. -/
theorem dfs_preorder (g : Graph) (start : String) (h : g.contains start = true) :
    ∃ out, g.dfs start = some out ∧ out.head? = some start ∧
      (∀ k (hk : k + 1 < out.length),
        IsDfsNext g (out.take (k + 1)) (out.get ⟨k + 1, hk⟩)) ∧
      out.Nodup ∧ (∀ v, v ∈ out ↔ Reach g start v) ∧
      ∀ out1 : List String, out1.head? = some start →
        (∀ k (hk : k + 1 < out1.length),
          IsDfsNext g (out1.take (k + 1)) (out1.get ⟨k + 1, hk⟩)) →
        (∀ v, Reach g start v → v ∈ out1) → out1 = out := by
  obtain ⟨rest, h1, h2, h3, h4⟩ := dfs_result g start h
  refine ⟨start :: rest, h1, rfl, fun k hk => ?_, h2, h3, fun out1 hhead hrule hcov => ?_⟩
  · have := dfsOrdered_get g rest [start] h4 k (by simpa using hk)
    simpa using this
  · cases out1 with
    | nil => simp at hhead
    | cons s rest1 =>
      simp only [List.head?_cons, Option.some.injEq] at hhead
      subst hhead
      have h5 : DfsOrdered g [s] rest1 := by
        apply dfsOrdered_of_get
        intro k hk
        have := hrule k (by simpa using hk)
        simpa using this
      rw [dfsOrdered_unique g s rest rest1 h4 (fun v hv => (h3 v).2 hv) h5 hcov]

theorem dfs_preorder_witness :
    graph0.contains "A" = true ∧ graph0.dfs "A" = some ["A", "B", "C"] ∧
    ∃ out, graph0.dfs "A" = some out ∧ out.head? = some "A" ∧
      (∀ k (hk : k + 1 < out.length),
        IsDfsNext graph0 (out.take (k + 1)) (out.get ⟨k + 1, hk⟩)) ∧
      out.Nodup ∧ (∀ v, v ∈ out ↔ Reach graph0 "A" v) ∧
      ∀ out1 : List String, out1.head? = some "A" →
        (∀ k (hk : k + 1 < out1.length),
          IsDfsNext graph0 (out1.take (k + 1)) (out1.get ⟨k + 1, hk⟩)) →
        (∀ v, Reach graph0 "A" v → v ∈ out1) → out1 = out :=
  ⟨by decide, by decide, dfs_preorder graph0 "A" (by decide)⟩

/-! ### Breadth-first traversal -/

theorem reachIn_of_reach (g : Graph) (a b : String) (h : Reach g a b) :
    ∃ n, ReachIn g n a b := by
  induction h with
  | refl => exact ⟨0, rfl⟩
  | tail _ hbc ih =>
    obtain ⟨n, hn⟩ := ih
    exact ⟨n + 1, _, hn, hbc⟩

theorem reach_of_reachIn (g : Graph) (a : String) :
    ∀ n b, ReachIn g n a b → Reach g a b := by
  intro n
  induction n with
  | zero => intro b h; rw [show a = b from h]; exact Relation.ReflTransGen.refl
  | succ n ih =>
    intro b h
    obtain ⟨c, hc, harc⟩ := h
    exact Relation.ReflTransGen.tail (ih c hc) harc

theorem exists_hopDist (g : Graph) (s v : String) :
    ∀ n, ReachIn g n s v → ∃ d, d ≤ n ∧ HopDist g s v d := by
  intro n
  induction n using Nat.strong_induction_on with
  | _ n ih =>
    intro h
    by_cases hex : ∃ m, m < n ∧ ReachIn g m s v
    · obtain ⟨m, hm, hr⟩ := hex
      obtain ⟨d, hd, hdist⟩ := ih m hm hr
      exact ⟨d, by omega, hdist⟩
    · exact ⟨n, le_refl n, h, fun m hm hr => hex ⟨m, hm, hr⟩⟩

theorem hopDist_unique (g : Graph) (s v : String) (d1 d2 : Nat)
    (h1 : HopDist g s v d1) (h2 : HopDist g s v d2) : d1 = d2 := by
  rcases Nat.lt_trichotomy d1 d2 with h | h | h
  · exact absurd h1.1 (h2.2 d1 h)
  · exact h
  · exact absurd h2.1 (h1.2 d2 h)

theorem bfsEnqueue_spec : ∀ (nbrs : List (String × Int)) (visited q : List String),
    ∃ new, (bfsEnqueue nbrs visited q).2 = q ++ new ∧ new.Nodup ∧
      (∀ x ∈ new, x ∉ visited) ∧ (∀ x ∈ new, ∃ i ∈ nbrs, i.1 = x) ∧
      (∀ x, x ∈ (bfsEnqueue nbrs visited q).1 ↔ x ∈ visited ∨ x ∈ new) ∧
      (∀ i ∈ nbrs, i.1 ∈ (bfsEnqueue nbrs visited q).1) ∧
      new.length ≤ nbrs.length := by
  intro nbrs
  induction nbrs with
  | nil => intro visited q; exact ⟨[], by simp [bfsEnqueue]⟩
  | cons i rest ih =>
    intro visited q
    rw [bfsEnqueue]
    by_cases hi : i.1 ∈ visited
    · simp only [hi, if_true]
      obtain ⟨new, h1, h2, h3, h4, h5, h6, h7⟩ := ih visited q
      refine ⟨new, h1, h2, h3, ?_, h5, ?_, ?_⟩
      · intro x hx
        obtain ⟨j, hj, e⟩ := h4 x hx
        exact ⟨j, List.mem_cons_of_mem _ hj, e⟩
      · intro j hj
        rcases List.mem_cons.mp hj with e | hj
        · subst e; exact (h5 _).mpr (Or.inl hi)
        · exact h6 j hj
      · simp only [List.length_cons]; omega
    · simp only [hi, if_false]
      obtain ⟨new, h1, h2, h3, h4, h5, h6, h7⟩ := ih (i.1 :: visited) (q ++ [i.1])
      refine ⟨i.1 :: new, ?_, ?_, ?_, ?_, ?_, ?_, ?_⟩
      · rw [h1]; simp
      · rw [List.nodup_cons]
        exact ⟨fun hm => h3 _ hm (List.mem_cons_self _ _), h2⟩
      · intro x hx
        rcases List.mem_cons.mp hx with e | hx
        · rw [e]; exact hi
        · exact fun hv => h3 x hx (List.mem_cons_of_mem _ hv)
      · intro x hx
        rcases List.mem_cons.mp hx with e | hx
        · exact ⟨i, List.mem_cons_self _ _, e.symm⟩
        · obtain ⟨j, hj, e⟩ := h4 x hx
          exact ⟨j, List.mem_cons_of_mem _ hj, e⟩
      · intro x
        rw [h5]
        simp only [List.mem_cons]
        tauto
      · intro j hj
        rcases List.mem_cons.mp hj with e | hj
        · subst e; exact (h5 _).mpr (Or.inl (List.mem_cons_self _ _))
        · exact h6 j hj
      · simp only [List.length_cons]; omega

theorem length_labelSetInsert_le (x : String × Int) (ys : List (String × Int)) :
    (labelSetInsert x ys).length ≤ ys.length + 1 := by
  induction ys with
  | nil => simp [labelSetInsert]
  | cons y ys ih =>
    unfold labelSetInsert
    split
    · simp
    · split
      · simp only [List.length_cons]; omega
      · simp

theorem length_sortedConnected_le (c : List (String × Int)) :
    (sortedConnected c).length ≤ c.length := by
  have key : ∀ (c acc : List (String × Int)),
      (c.foldl (fun acc x => labelSetInsert x acc) acc).length ≤ c.length + acc.length := by
    intro c
    induction c with
    | nil => intro acc; simp
    | cons x c ih =>
      intro acc
      have h1 := ih (labelSetInsert x acc)
      have h2 := length_labelSetInsert_le x acc
      simp only [List.foldl_cons, List.length_cons]
      omega
  simpa [sortedConnected] using key c []

theorem sum_filter_mono (L : List String) (f : String → Nat) (d d1 : List String)
    (h : ∀ x ∈ d, x ∈ d1) :
    ((L.filter (fun l => l ∉ d1)).map f).sum ≤ ((L.filter (fun l => l ∉ d)).map f).sum := by
  induction L with
  | nil => simp
  | cons a L ih =>
    by_cases h1 : a ∈ d1
    · by_cases h0 : a ∈ d
      · simpa [List.filter_cons, h1, h0] using ih
      · simp only [List.filter_cons, h1, h0, not_true_eq_false, decide_False, not_false_eq_true,
          decide_True, if_true, List.map_cons, List.sum_cons, Bool.false_eq_true, if_false]
        omega
    · have h0 : a ∉ d := fun hv => h1 (h a hv)
      simpa [List.filter_cons, h1, h0] using ih

theorem sum_filter_step (L : List String) (f : String → Nat) (d d1 : List String) (c : String)
    (h : ∀ x, x ∈ d1 ↔ x = c ∨ x ∈ d) (hc : c ∉ d) (hf : c ∉ L → f c = 0) :
    ((L.filter (fun l => l ∉ d1)).map f).sum + f c ≤
      ((L.filter (fun l => l ∉ d)).map f).sum := by
  induction L with
  | nil => simp [hf (by simp)]
  | cons a L ih =>
    by_cases e : a = c
    · subst e
      have h1 : a ∈ d1 := (h a).mpr (Or.inl rfl)
      have := sum_filter_mono L f d d1 (fun x hx => (h x).mpr (Or.inr hx))
      simp only [List.filter_cons, h1, hc, not_true_eq_false, decide_False, not_false_eq_true,
        decide_True, if_true, List.map_cons, List.sum_cons, Bool.false_eq_true, if_false]
      omega
    · have hf' : c ∉ L → f c = 0 := by
        intro hcl
        apply hf
        intro hm
        rcases List.mem_cons.mp hm with e1 | hm
        · exact e e1.symm
        · exact hcl hm
      have := ih hf'
      by_cases h0 : a ∈ d
      · have h1 : a ∈ d1 := (h a).mpr (Or.inr h0)
        simpa [List.filter_cons, h1, h0] using this
      · have h1 : a ∉ d1 := by
          intro hm
          rcases (h a).mp hm with e1 | hm
          · exact e e1
          · exact h0 hm
        simp only [List.filter_cons, h1, h0, not_false_eq_true, decide_True, if_true,
          List.map_cons, List.sum_cons]
        omega

theorem degreeSum_step (g : Graph) (d d1 : List String) (c : String)
    (h : ∀ x, x ∈ d1 ↔ x = c ∨ x ∈ d) (hc : c ∉ d) :
    degreeSum g d1 + (connectedOf g.vertices c).length ≤ degreeSum g d := by
  apply sum_filter_step _ (fun l => (connectedOf g.vertices l).length) d d1 c h hc
  intro hcl
  have : countLabel g.vertices c = false := by
    rw [← Bool.not_eq_true, countLabel_iff]
    exact hcl
  simp [connectedOf_of_not_count _ _ this]

theorem bfsLoop_step (g : Graph) (s : String) (fuel : Nat)
    (hIH : ∀ visited done D q1 q2, BfsInv g s D visited done q1 q2 →
      (q1 ++ q2).length + degreeSum g done ≤ fuel →
      ∃ out, bfsLoop g fuel visited (q1 ++ q2) = some out ∧
        BfsPost g s D done (q1 ++ q2) out)
    (visited done : List String) (D : Nat) (curr : String) (r1 q2 : List String)
    (inv : BfsInv g s D visited done (curr :: r1) q2) :
    (curr :: r1 ++ q2).length + degreeSum g done ≤ fuel + 1 →
    ∃ out, bfsLoop g (fuel + 1) visited (curr :: r1 ++ q2) = some out ∧
      BfsPost g s D done (curr :: r1 ++ q2) out := by
  intro hfuel
  obtain ⟨new, e1, n1, n2, n3, n4, n5, n6⟩ :=
    bfsEnqueue_spec (sortedConnected (connectedOf g.vertices curr)) visited (r1 ++ q2)
  have hcurrD : HopDist g s curr D := inv.dist1 curr (List.mem_cons_self _ _)
  have hnd := inv.nodup
  have hcurr_done : curr ∉ done := by
    intro hm
    have := (List.nodup_append.mp hnd).2.2
    exact this hm (by simp)
  have hmono : ∀ x, x ∈ visited →
      x ∈ (bfsEnqueue (sortedConnected (connectedOf g.vertices curr)) visited (r1 ++ q2)).1 :=
    fun x hx => (n4 x).mpr (Or.inl hx)
  have hnewarc : ∀ x ∈ new, hasArc g curr x = true := by
    intro x hx
    obtain ⟨i, hi, e⟩ := n3 x hx
    exact e ▸ hasArc_of_mem_sorted g curr i hi
  have inv' : BfsInv g s D
      (bfsEnqueue (sortedConnected (connectedOf g.vertices curr)) visited (r1 ++ q2)).1
      (done ++ [curr]) r1 (q2 ++ new) := by
    refine ⟨?_, ?_, hmono s inv.start_mem, ?_, ?_, ?_, ?_, ?_⟩
    · intro x
      rw [n4, inv.mem_visited]
      simp only [List.mem_append, List.mem_cons, List.mem_singleton, List.cons_append]
      tauto
    · have h1 : ((done ++ (curr :: r1 ++ q2)) ++ new).Nodup := by
        refine List.Nodup.append hnd n1 ?_
        intro x hx hx2
        exact n2 x hx2 ((inv.mem_visited x).mpr (List.mem_append.mp hx))
      simpa [List.append_assoc] using h1
    · intro x hx
      exact inv.dist1 x (List.mem_cons_of_mem _ hx)
    · intro x hx
      rcases List.mem_append.mp hx with hx | hx
      · exact inv.dist2 x hx
      · refine ⟨⟨curr, hcurrD.1, hnewarc x hx⟩, ?_⟩
        intro m hm hr
        cases m with
        | zero =>
          have : s = x := hr
          exact n2 x hx (this ▸ inv.start_mem)
        | succ m =>
          obtain ⟨c, hc, hcx⟩ := hr
          obtain ⟨d, hd, hdist⟩ := exists_hopDist g s c m hc
          have hcd : c ∈ done := inv.below c d hdist (by omega)
          exact n2 x hx (inv.closed c hcd x hcx)
    · intro x hx y hy
      rcases List.mem_append.mp hx with hx | hx
      · exact hmono y (inv.closed x hx y hy)
      · have e : x = curr := by simpa using hx
        subst e
        obtain ⟨i, hi, e⟩ := mem_sorted_of_hasArc g x y hy
        exact e ▸ n5 i hi
    · intro v d hd hlt
      exact List.mem_append_left _ (inv.below v d hd hlt)
    · intro v hv
      exact hmono v (inv.level v hv)
  have hdeg := degreeSum_step g done (done ++ [curr]) curr
    (by intro x; simp only [List.mem_append, List.mem_singleton]; tauto) hcurr_done
  have hlen := length_sortedConnected_le (connectedOf g.vertices curr)
  have hfuel' : (r1 ++ (q2 ++ new)).length + degreeSum g (done ++ [curr]) ≤ fuel := by
    simp only [List.length_append, List.length_cons] at hfuel ⊢
    omega
  obtain ⟨out, ho, post⟩ := hIH _ _ _ _ _ inv' hfuel'
  have e2 : (bfsEnqueue (sortedConnected (connectedOf g.vertices curr)) visited (r1 ++ q2)).2
      = r1 ++ (q2 ++ new) := by
    rw [e1, List.append_assoc]
  refine ⟨curr :: out, ?_, ?_, ?_, ?_, ?_, ?_⟩
  · show bfsLoop g (fuel + 1) visited (curr :: (r1 ++ q2)) = some (curr :: out)
    rw [bfsLoop, e2, ho]
  · rfl
  · have := post.nodup
    simpa [List.append_assoc] using this
  · intro x hx
    rcases List.mem_cons.mp hx with e | hx
    · exact ⟨D, le_refl D, e ▸ hcurrD⟩
    · exact post.dist x hx
  · refine List.Pairwise.cons ?_ post.sorted
    intro b hb da db hda hdb
    obtain ⟨d, hd, hdist⟩ := post.dist b hb
    rw [hopDist_unique g s curr da D hda hcurrD, hopDist_unique g s b db d hdb hdist]
    exact hd
  · intro v hv
    have := post.reach v hv
    simpa [List.append_assoc] using this

theorem bfsInv_next (g : Graph) (s : String) (D : Nat) (visited done q2 : List String)
    (inv : BfsInv g s D visited done [] q2) : BfsInv g s (D + 1) visited done q2 [] := by
  have hbelow : ∀ v d, HopDist g s v d → d < D + 1 → v ∈ done := by
    intro v d hd hlt
    by_cases h : d < D
    · exact inv.below v d hd h
    · have e : d = D := by omega
      subst e
      rcases (inv.mem_visited v).mp (inv.level v hd) with h1 | h1
      · exact h1
      · have := hopDist_unique g s v d (d + 1) hd (inv.dist2 v (by simpa using h1))
        omega
  refine ⟨?_, ?_, inv.start_mem, ?_, ?_, inv.closed, hbelow, ?_⟩
  · intro x
    rw [inv.mem_visited]
    simp
  · simpa using inv.nodup
  · exact inv.dist2
  · intro x hx
    simp at hx
  · intro v hv
    obtain ⟨c, hc, hcv⟩ := hv.1
    obtain ⟨d, hd, hdist⟩ := exists_hopDist g s c D hc
    exact inv.closed c (hbelow c d hdist (by omega)) v hcv

theorem bfsLoop_spec (g : Graph) (s : String) : ∀ fuel visited done D q1 q2,
    BfsInv g s D visited done q1 q2 →
    (q1 ++ q2).length + degreeSum g done ≤ fuel →
    ∃ out, bfsLoop g fuel visited (q1 ++ q2) = some out ∧
      BfsPost g s D done (q1 ++ q2) out := by
  have hempty : ∀ fuel visited done D, BfsInv g s D visited done [] [] →
      ∃ out, bfsLoop g fuel visited ([] ++ []) = some out ∧
        BfsPost g s D done ([] ++ []) out := by
    intro fuel visited done D inv
    refine ⟨[], by cases fuel <;> simp [bfsLoop], rfl, by simpa using inv.nodup, by simp,
      List.Pairwise.nil, ?_⟩
    intro v hv
    have hvis : ∀ x, x ∈ visited ↔ x ∈ done := by
      intro x
      rw [inv.mem_visited]
      simp
    have : v ∈ visited := by
      induction hv with
      | refl => exact inv.start_mem
      | tail _ hbc ih => exact inv.closed _ ((hvis _).mp ih) _ hbc
    simpa using (hvis v).mp this
  intro fuel
  induction fuel with
  | zero =>
    intro visited done D q1 q2 inv hfuel
    have h1 : q1 = [] := by
      cases q1 with
      | nil => rfl
      | cons a l => simp at hfuel
    have h2 : q2 = [] := by
      cases q2 with
      | nil => rfl
      | cons a l => simp at hfuel
    subst h1 h2
    exact hempty 0 visited done D inv
  | succ fuel ih =>
    intro visited done D q1 q2 inv hfuel
    cases q1 with
    | cons curr r1 => exact bfsLoop_step g s fuel ih visited done D curr r1 q2 inv hfuel
    | nil =>
      cases q2 with
      | nil => exact hempty (fuel + 1) visited done D inv
      | cons curr r2 =>
        have inv' := bfsInv_next g s D visited done (curr :: r2) inv
        obtain ⟨out, ho, post⟩ :=
          bfsLoop_step g s fuel ih visited done (D + 1) curr r2 [] inv' (by simpa using hfuel)
        refine ⟨out, by simpa using ho, by simpa using post.head, post.nodup, ?_, post.sorted,
          post.reach⟩
        intro x hx
        obtain ⟨d, hd, hdist⟩ := post.dist x hx
        exact ⟨d, by omega, hdist⟩

/-! ### C4: `bfs` from a contained start -/

/-- C4: from a contained start, `bfs` returns; its visit sequence starts with start, lists
exactly the vertices reachable from start with no label twice, and is in non-decreasing
order of hop distance from start. -/
theorem bfs_levels (g : Graph) (start : String) (h : g.contains start = true) :
    ∃ out, g.bfs start = .returned out ∧ out.head? = some start ∧ out.Nodup ∧
      (∀ v, v ∈ out ↔ Reach g start v) ∧
      ∀ i j (hi : i < out.length) (hj : j < out.length), i ≤ j →
        ∀ di dj, HopDist g start (out.get ⟨i, hi⟩) di →
          HopDist g start (out.get ⟨j, hj⟩) dj → di ≤ dj := by
  have hc : countLabel g.vertices start = true := h
  have inv : BfsInv g start 0 [start] [] [start] [] := by
    refine ⟨by simp, by simp, by simp, ?_, by simp, by simp, ?_, ?_⟩
    · intro x hx
      have e : x = start := by simpa using hx
      subst e
      exact ⟨rfl, fun m hm => by omega⟩
    · intro v d _ hd
      omega
    · intro v hv
      have : start = v := hv.1
      simp [this]
  obtain ⟨out, ho, post⟩ := bfsLoop_spec g start (degreeSum g [] + 1) [start] [] 0 [start] []
    inv (by simp; omega)
  have ho' : bfsLoop g (degreeSum g [] + 1) [start] [start] = some out := by simpa using ho
  refine ⟨out, by simp [Graph.bfs, hc, ho'], by simpa using post.head,
    by simpa using post.nodup, ?_, ?_⟩
  · intro v
    constructor
    · intro hv
      obtain ⟨d, _, hd⟩ := post.dist v hv
      exact reach_of_reachIn g start d v hd.1
    · intro hv
      simpa using post.reach v hv
  · intro i j hi hj hij di dj hdi hdj
    rcases Nat.lt_or_eq_of_le hij with hlt | e
    · exact (List.pairwise_iff_get.mp post.sorted) ⟨i, hi⟩ ⟨j, hj⟩ hlt di dj hdi hdj
    · subst e
      exact le_of_eq (hopDist_unique g start _ di dj hdi hdj)

theorem bfs_levels_witness :
    graph0.contains "A" = true ∧
    ∃ out, graph0.bfs "A" = .returned out ∧ out.head? = some "A" ∧ out.Nodup ∧
      (∀ v, v ∈ out ↔ Reach graph0 "A" v) ∧
      ∀ i j (hi : i < out.length) (hj : j < out.length), i ≤ j →
        ∀ di dj, HopDist graph0 "A" (out.get ⟨i, hi⟩) di →
          HopDist graph0 "A" (out.get ⟨j, hj⟩) dj → di ≤ dj :=
  ⟨by decide, bfs_levels graph0 "A" (by decide)⟩

/-! ### C5: `bfs` from a label that is not contained -/

/-- C5 (evaluation of the code): for a label that is not contained, `bfs` does not complete:
it dereferences the null pointer that `vertices[startLabel]` has just created, whereas
`dfs` returns without any visitor call. -/
theorem bfs_unknown_start (g : Graph) (label : String) (h : g.contains label = false) :
    g.bfs label = .nullDereference ∧ g.dfs label = some [] := by
  have hc : countLabel g.vertices label = false := h
  simp [Graph.bfs, Graph.dfs, hc]

theorem bfs_unknown_start_witness :
    graph0.contains "X" = false ∧
    (graph0.bfs "X" = .nullDereference ∧ graph0.dfs "X" = some []) :=
  ⟨by decide, bfs_unknown_start graph0 "X" (by decide)⟩

/-! ### C6, C7: `dijkstra` and shortest paths -/

/-- C6 (evaluation of the code): on the graph A->B (10), A->C (1), C->E (1), E->B (1),
B->D (1), whose weights are all non-negative, `dijkstra("A")` reports weight 11 for `D`
although the walk A, C, E, B, D has total weight 4; this holds for both iteration orders of
the adjacency map of `A`. -/
theorem dijkstra_detour_not_shortest :
    graphDetour.dijkstra "A" =
      some ([("B", 3), ("C", 1), ("D", 11), ("E", 2)],
        [("B", "E"), ("C", "A"), ("D", "B"), ("E", "C")]) ∧
    WalkWeight graphDetour "A" "D" 4 ∧
    graphDetour2.dijkstra "A" =
      some ([("B", 3), ("C", 1), ("D", 11), ("E", 2)],
        [("B", "E"), ("C", "A"), ("D", "B"), ("E", "C")]) ∧
    WalkWeight graphDetour2 "A" "D" 4 := by
  refine ⟨by decide, ?_, by decide, ?_⟩
  · have h : WalkWeight graphDetour "A" "D" (0 + 1 + 1 + 1 + 1) :=
      .snoc "B" "D" _ 1 (.snoc "E" "B" _ 1 (.snoc "C" "E" _ 1 (.snoc "A" "C" _ 1 .nil
        (by decide)) (by decide)) (by decide)) (by decide)
    exact h
  · have h : WalkWeight graphDetour2 "A" "D" (0 + 1 + 1 + 1 + 1) :=
      .snoc "B" "D" _ 1 (.snoc "E" "B" _ 1 (.snoc "C" "E" _ 1 (.snoc "A" "C" _ 1 .nil
        (by decide)) (by decide)) (by decide)) (by decide)
    exact h

/-- C7 (evaluation of the code): on the same graph the chain of `previous` from `D` is
D, B, E, C, A, the stored arcs along it weigh 1 + 1 + 1 + 1 = 4, and `weights["D"]` is 11. -/
theorem dijkstra_detour_chain_sum :
    ∃ weights previous, graphDetour.dijkstra "A" = some (weights, previous) ∧
      mapFind? weights "D" = some 11 ∧
      chainSum graphDetour previous "A" 4 "D" = some 4 ∧
      (∀ n, n < 4 → chainSum graphDetour previous "A" n "D" = none) := by
  refine ⟨[("B", 3), ("C", 1), ("D", 11), ("E", 2)],
    [("B", "E"), ("C", "A"), ("D", "B"), ("E", "C")], by decide, by decide, by decide, ?_⟩
  intro n hn
  have h : n = 0 ∨ n = 1 ∨ n = 2 ∨ n = 3 := by omega
  rcases h with h | h | h | h <;> subst h <;> decide

/-! ### Arcs after the mutating calls -/

theorem hasArc_eq_isSome (g : Graph) (a b : String) :
    hasArc g a b = (arcWeight g a b).isSome := by
  simp only [hasArc, connCount, arcWeight, Option.isSome_map']
  rw [Bool.eq_iff_iff, List.any_eq_true, List.find?_isSome]

theorem find_connInsert_ne (addr : String → Nat) (c : List (String × Int)) (b b1 : String)
    (w : Int) (h : b1 ≠ b) :
    (connInsert addr b w c).find? (fun p => p.1 = b1) = c.find? (fun p => p.1 = b1) := by
  have hb : ¬ b = b1 := fun e => h e.symm
  induction c with
  | nil => simp [connInsert, hb]
  | cons p rest ih =>
    unfold connInsert
    split
    · simp [List.find?_cons, hb]
    · simp only [List.find?_cons, ih]

theorem find_connAssign_ne (addr : String → Nat) (c : List (String × Int)) (b b1 : String)
    (w : Int) (h : b1 ≠ b) :
    (connAssign addr c b w).find? (fun p => p.1 = b1) = c.find? (fun p => p.1 = b1) := by
  have hb : ¬ b = b1 := fun e => h e.symm
  have hmap : ∀ c : List (String × Int),
      (c.map (fun p => if p.1 = b then (b, w) else p)).find? (fun p => p.1 = b1) =
        c.find? (fun p => p.1 = b1) := by
    intro c
    induction c with
    | nil => simp
    | cons p rest ih =>
      by_cases hp : p.1 = b
      · have hp1 : ¬ p.1 = b1 := fun e => h (e.symm.trans hp)
        simp only [List.map_cons, hp, if_true, List.find?_cons, hb, hp1, decide_False]
        exact ih
      · simp only [List.map_cons, hp, if_false, List.find?_cons]
        rw [ih]
  unfold connAssign
  split
  · exact hmap c
  · exact find_connInsert_ne addr c b b1 w h

theorem find_connErase (c : List (String × Int)) (b b1 : String) :
    (connErase c b).find? (fun p => p.1 = b1) =
      if b1 = b then none else c.find? (fun p => p.1 = b1) := by
  unfold connErase
  rw [List.find?_filter]
  by_cases hb : b1 = b
  · subst hb
    simp only [if_true]
    rw [List.find?_eq_none]
    intro p _
    simp
  · simp only [hb, if_false]
    congr 1
    funext p
    by_cases hp : p.1 = b1
    · have : ¬ p.1 = b := fun e => hb (hp.symm.trans e)
      simp [hp, this, hb]
    · simp [hp]

theorem keys_connInsert_perm (addr : String → Nat) (c : List (String × Int)) (b : String)
    (w : Int) : ((connInsert addr b w c).map Prod.fst).Perm (b :: c.map Prod.fst) := by
  induction c with
  | nil => simp [connInsert]
  | cons p rest ih =>
    unfold connInsert
    split
    · simp
    · simp only [List.map_cons]
      exact (List.Perm.cons _ ih).trans (List.Perm.swap _ _ _)

theorem keys_connAssign_nodup (addr : String → Nat) (c : List (String × Int)) (b : String)
    (w : Int) (h : (c.map Prod.fst).Nodup) : ((connAssign addr c b w).map Prod.fst).Nodup := by
  unfold connAssign
  by_cases hc : connCount c b = true
  · simp only [hc, if_true]
    have : (c.map (fun p => if p.1 = b then (b, w) else p)).map Prod.fst = c.map Prod.fst := by
      rw [List.map_map]
      apply List.map_congr_left
      intro p _
      by_cases hp : p.1 = b <;> simp [hp]
    rw [this]
    exact h
  · simp only [hc, if_false, Bool.false_eq_true]
    rw [(keys_connInsert_perm addr c b w).nodup_iff, List.nodup_cons]
    exact ⟨fun hm => hc ((connCount_iff c b).mpr hm), h⟩

theorem keys_connErase_nodup (c : List (String × Int)) (b : String)
    (h : (c.map Prod.fst).Nodup) : ((connErase c b).map Prod.fst).Nodup :=
  List.Nodup.sublist ((List.filter_sublist c).map Prod.fst) h

theorem connectedOf_updateConnected (vs : List Vertex) (a x : String)
    (f : List (String × Int) → List (String × Int)) (hf : f [] = []) :
    connectedOf (updateConnected vs a f) x =
      if x = a then f (connectedOf vs a) else connectedOf vs x := by
  by_cases hx : x = a
  · subst hx
    simp only [if_true]
    by_cases hc : countLabel vs x = true
    · exact connectedOf_updateConnected_self vs x f hc
    · have hc' : countLabel vs x = false := by simpa using hc
      have h2 : countLabel (updateConnected vs x f) x = false := by
        rw [countLabel_updateConnected]; exact hc'
      rw [connectedOf_of_not_count _ _ h2, connectedOf_of_not_count _ _ hc', hf]
  · simp only [hx, if_false]
    exact connectedOf_updateConnected_ne vs a x f hx

theorem connectedOf_add (g : Graph) (l x : String) :
    connectedOf (g.add l).2.vertices x = connectedOf g.vertices x := by
  unfold Graph.add
  by_cases hc : countLabel g.vertices l = true
  · simp [hc]
  · have := connectedOf_ensureVertex g.vertices l x
    simp only [ensureVertex, hc, if_false] at this
    simp only [hc, if_false]
    exact this

theorem connectedOf_connect_false (addr : String → Nat) (g : Graph) (a b : String) (w : Int)
    (x : String) (h : (g.connect addr a b w).1 = false) :
    connectedOf (g.connect addr a b w).2.vertices x = connectedOf g.vertices x := by
  unfold Graph.connect at h ⊢
  by_cases hab : a = b
  · simp [hab]
  · simp only [hab, if_false] at h ⊢
    by_cases hc : connCount (connectedOf (ensureVertex (ensureVertex g.vertices a) b) a) b = true
    · simp only [hc, if_true]
      rw [connectedOf_ensureVertex, connectedOf_ensureVertex]
    · simp [hc] at h

theorem connectedOf_connect (addr : String → Nat) (g : Graph) (a b : String) (w : Int)
    (x : String) (h : (g.connect addr a b w).1 = true) :
    connectedOf (g.connect addr a b w).2.vertices x =
      if x = a then connAssign addr (connectedOf g.vertices a) b w
      else if g.directional = false ∧ x = b then connAssign addr (connectedOf g.vertices b) a w
      else connectedOf g.vertices x := by
  have hab : a ≠ b := by
    intro e
    simp [Graph.connect, e] at h
  have hc : connectedOf (ensureVertex (ensureVertex g.vertices a) b) a =
      connectedOf g.vertices a := by
    rw [connectedOf_ensureVertex, connectedOf_ensureVertex]
  have hcb : connectedOf (ensureVertex (ensureVertex g.vertices a) b) b =
      connectedOf g.vertices b := by
    rw [connectedOf_ensureVertex, connectedOf_ensureVertex]
  have hcx : connectedOf (ensureVertex (ensureVertex g.vertices a) b) x =
      connectedOf g.vertices x := by
    rw [connectedOf_ensureVertex, connectedOf_ensureVertex]
  have hcnt : connCount (connectedOf g.vertices a) b = false := by
    by_contra hcon
    simp [Graph.connect, hab, hc, hcon] at h
  have hcf : countLabel (ensureVertex (ensureVertex g.vertices a) b) a = true :=
    countLabel_ensureVertex_of _ _ _ (countLabel_ensureVertex_self _ _)
  have hct : countLabel (ensureVertex (ensureVertex g.vertices a) b) b = true :=
    countLabel_ensureVertex_self _ _
  cases hd : g.directional
  · simp only [Graph.connect, hab, hc, hcnt, hd, if_false, Bool.false_eq_true, true_and]
    by_cases hxa : x = a
    · subst hxa
      simp only [if_true]
      rw [connectedOf_updateConnected_ne _ _ _ _ hab,
        connectedOf_updateConnected_self _ _ _ hcf, hc]
    · simp only [hxa, if_false]
      by_cases hxb : x = b
      · subst hxb
        simp only [if_true]
        rw [connectedOf_updateConnected_self _ _ _
          (by rw [countLabel_updateConnected]; exact hct),
          connectedOf_updateConnected_ne _ _ _ _ hxa, hcb]
      · simp only [hxb, if_false]
        rw [connectedOf_updateConnected_ne _ _ _ _ hxb,
          connectedOf_updateConnected_ne _ _ _ _ hxa, hcx]
  · simp only [Graph.connect, hab, hc, hcnt, hd, if_false, if_true, Bool.false_eq_true,
      Bool.true_eq_false, false_and]
    by_cases hxa : x = a
    · subst hxa
      simp only [if_true]
      rw [connectedOf_updateConnected_self _ _ _ hcf, hc]
    · simp only [hxa, if_false]
      rw [connectedOf_updateConnected_ne _ _ _ _ hxa, hcx]

theorem connectedOf_disconnect (g : Graph) (a b : String) (x : String) (hab : a ≠ b)
    (h : (g.disconnect a b).1 = true) :
    connectedOf (g.disconnect a b).2.vertices x =
      if x = a then connErase (connectedOf g.vertices a) b
      else if g.directional = false ∧ x = b then connErase (connectedOf g.vertices b) a
      else connectedOf g.vertices x := by
  unfold Graph.disconnect at h ⊢
  by_cases h1 : countLabel g.vertices a = false ∨ countLabel g.vertices b = false
  · simp [h1] at h
  · simp only [h1, if_false] at h ⊢
    by_cases h2 : connCount (connectedOf g.vertices a) b = false
    · simp [h2] at h
    · have h2' : connCount (connectedOf g.vertices a) b = true := by simpa using h2
      simp only [h2', Bool.true_eq_false, if_false]
      cases hd : g.directional
      · simp only [Bool.false_eq_true, if_false, true_and]
        rw [connectedOf_updateConnected _ _ _ _ (by simp [connErase]),
          connectedOf_updateConnected _ _ _ _ (by simp [connErase]),
          connectedOf_updateConnected _ _ _ _ (by simp [connErase])]
        by_cases hxa : x = a
        · subst hxa
          simp [hab]
        · by_cases hxb : x = b
          · subst hxb
            have : ¬ x = a := hxa
            simp [this]
          · simp [hxa, hxb]
      · simp only [if_true, Bool.true_eq_false, false_and, if_false]
        rw [connectedOf_updateConnected _ _ _ _ (by simp [connErase])]

theorem connectedOf_disconnect_false (g : Graph) (a b : String)
    (h : (g.disconnect a b).1 = false) : (g.disconnect a b).2 = g := by
  unfold Graph.disconnect at h ⊢
  by_cases h1 : countLabel g.vertices a = false ∨ countLabel g.vertices b = false
  · simp [h1]
  · simp only [h1, if_false] at h ⊢
    by_cases h2 : connCount (connectedOf g.vertices a) b = false
    · simp [h2]
    · simp [h2] at h

theorem arcWeight_congr (g g1 : Graph)
    (h : ∀ x, connectedOf g1.vertices x = connectedOf g.vertices x) (x y : String) :
    arcWeight g1 x y = arcWeight g x y := by
  simp only [arcWeight, h]

theorem arcWeight_connect (addr : String → Nat) (g : Graph) (a b : String) (w : Int)
    (x y : String) (h : (g.connect addr a b w).1 = true) :
    arcWeight (g.connect addr a b w).2 x y =
      if x = a ∧ y = b then some w
      else if g.directional = false ∧ x = b ∧ y = a then some w
      else arcWeight g x y := by
  have hab : a ≠ b := by
    intro e
    simp [Graph.connect, e] at h
  simp only [arcWeight, connectedOf_connect addr g a b w x h]
  by_cases hxa : x = a
  · subst hxa
    have hxb : ¬ x = b := hab
    by_cases hyb : y = b
    · subst hyb
      simp [find_connAssign]
    · simp [hyb, hxb, find_connAssign_ne _ _ _ _ _ hyb]
  · simp only [hxa, if_false, false_and]
    by_cases hxb : g.directional = false ∧ x = b
    · obtain ⟨hd, hxb⟩ := hxb
      subst hxb
      by_cases hya : y = a
      · subst hya
        simp [hd, find_connAssign]
      · simp [hd, hya, find_connAssign_ne _ _ _ _ _ hya]
    · simp only [hxb, if_false]
      have : ¬ (g.directional = false ∧ x = b ∧ y = a) := fun hh => hxb ⟨hh.1, hh.2.1⟩
      simp [this]

theorem arcWeight_disconnect (g : Graph) (a b : String) (x y : String) (hab : a ≠ b)
    (h : (g.disconnect a b).1 = true) :
    arcWeight (g.disconnect a b).2 x y =
      if x = a ∧ y = b then none
      else if g.directional = false ∧ x = b ∧ y = a then none
      else arcWeight g x y := by
  simp only [arcWeight, connectedOf_disconnect g a b x hab h]
  by_cases hxa : x = a
  · subst hxa
    have hxb : ¬ x = b := hab
    by_cases hyb : y = b
    · subst hyb
      simp [find_connErase]
    · simp [hyb, hxb, find_connErase]
  · simp only [hxa, if_false, false_and]
    by_cases hxb : g.directional = false ∧ x = b
    · obtain ⟨hd, hxb⟩ := hxb
      subst hxb
      by_cases hya : y = a
      · subst hya
        simp [hd, find_connErase]
      · simp [hd, hya, find_connErase]
    · simp only [hxb, if_false]
      have : ¬ (g.directional = false ∧ x = b ∧ y = a) := fun hh => hxb ⟨hh.1, hh.2.1⟩
      simp [this]

theorem directional_add (g : Graph) (l : String) : (g.add l).2.directional = g.directional := by
  unfold Graph.add
  split <;> rfl

theorem directional_connect (addr : String → Nat) (g : Graph) (a b : String) (w : Int) :
    (g.connect addr a b w).2.directional = g.directional := by
  unfold Graph.connect
  split
  · rfl
  · simp only
    split <;> rfl

theorem directional_disconnect (g : Graph) (a b : String) :
    (g.disconnect a b).2.directional = g.directional := by
  unfold Graph.disconnect
  split
  · rfl
  · split <;> rfl

theorem directional_build (addr : String → Nat) (d : Bool) (ops : List Op) :
    (build addr d ops).directional = d := by
  have key : ∀ (ops : List Op) (g : Graph),
      (ops.foldl (applyOp addr) g).directional = g.directional := by
    intro ops
    induction ops with
    | nil => intro g; rfl
    | cons op ops ih =>
      intro g
      rw [List.foldl_cons, ih]
      cases op with
      | add l => exact directional_add g l
      | connect a b w => exact directional_connect addr g a b w
      | disconnect a b => exact directional_disconnect g a b
  exact key ops (Graph.empty d)

theorem WF_of_congr (g g1 : Graph) (hwf : g.WF) (hd : g1.directional = g.directional)
    (h : ∀ x, connectedOf g1.vertices x = connectedOf g.vertices x) : g1.WF := by
  refine ⟨fun a => ?_, fun a => ?_, fun hd1 a b => ?_⟩
  · rw [arcWeight_congr g g1 h]; exact hwf.noSelf a
  · rw [h]; exact hwf.keysNodup a
  · rw [arcWeight_congr g g1 h, arcWeight_congr g g1 h]
    exact hwf.symm (hd ▸ hd1) a b

theorem WF_empty (d : Bool) : (Graph.empty d).WF := by
  refine ⟨fun a => ?_, fun a => ?_, fun _ a b => ?_⟩ <;>
    simp [Graph.empty, arcWeight, connectedOf, findVertex]

theorem WF_add (g : Graph) (l : String) (hwf : g.WF) : (g.add l).2.WF :=
  WF_of_congr g _ hwf (directional_add g l) (connectedOf_add g l)

theorem WF_connect (addr : String → Nat) (g : Graph) (a b : String) (w : Int) (hwf : g.WF) :
    (g.connect addr a b w).2.WF := by
  cases h : (g.connect addr a b w).1
  · exact WF_of_congr g _ hwf (directional_connect addr g a b w)
      (fun x => connectedOf_connect_false addr g a b w x h)
  · have hab : a ≠ b := by
      intro e
      simp [Graph.connect, e] at h
    refine ⟨fun x => ?_, fun x => ?_, fun hd x y => ?_⟩
    · rw [arcWeight_connect addr g a b w x x h]
      have h1 : ¬ (x = a ∧ x = b) := fun hh => hab (hh.1.symm.trans hh.2)
      have h2 : ¬ (g.directional = false ∧ x = b ∧ x = a) :=
        fun hh => hab (hh.2.2.symm.trans hh.2.1)
      simp only [h1, h2, if_false]
      exact hwf.noSelf x
    · rw [connectedOf_connect addr g a b w x h]
      split
      · exact keys_connAssign_nodup _ _ _ _ (hwf.keysNodup a)
      · split
        · exact keys_connAssign_nodup _ _ _ _ (hwf.keysNodup b)
        · exact hwf.keysNodup x
    · rw [directional_connect] at hd
      rw [arcWeight_connect addr g a b w x y h, arcWeight_connect addr g a b w y x h,
        hwf.symm hd x y]
      by_cases h1 : x = a ∧ y = b
      · have h2 : ¬ (y = a ∧ x = b) := fun hh => hab (h1.1.symm.trans hh.2)
        simp [h1, h2, hd]
      · by_cases h2 : y = a ∧ x = b
        · simp [h1, h2, hd]
        · have h3 : ¬ (x = b ∧ y = a) := fun hh => h2 ⟨hh.2, hh.1⟩
          have h4 : ¬ (y = b ∧ x = a) := fun hh => h1 ⟨hh.2, hh.1⟩
          simp [h1, h2, h3, h4]

theorem WF_disconnect (g : Graph) (a b : String) (hwf : g.WF) : (g.disconnect a b).2.WF := by
  cases h : (g.disconnect a b).1
  · rw [connectedOf_disconnect_false g a b h]; exact hwf
  · have hab : a ≠ b := by
      intro e
      subst e
      have h2 : hasArc g a a = true := by
        unfold Graph.disconnect at h
        by_contra hcon
        have hcon' : connCount (connectedOf g.vertices a) a = false := by
          simpa [hasArc] using hcon
        simp [hcon'] at h
      rw [hasArc_eq_isSome, hwf.noSelf] at h2
      simp at h2
    refine ⟨fun x => ?_, fun x => ?_, fun hd x y => ?_⟩
    · rw [arcWeight_disconnect g a b x x hab h]
      have h1 : ¬ (x = a ∧ x = b) := fun hh => hab (hh.1.symm.trans hh.2)
      have h2 : ¬ (g.directional = false ∧ x = b ∧ x = a) :=
        fun hh => hab (hh.2.2.symm.trans hh.2.1)
      simp only [h1, h2, if_false]
      exact hwf.noSelf x
    · rw [connectedOf_disconnect g a b x hab h]
      split
      · exact keys_connErase_nodup _ _ (hwf.keysNodup a)
      · split
        · exact keys_connErase_nodup _ _ (hwf.keysNodup b)
        · exact hwf.keysNodup x
    · rw [directional_disconnect] at hd
      rw [arcWeight_disconnect g a b x y hab h, arcWeight_disconnect g a b y x hab h,
        hwf.symm hd x y]
      by_cases h1 : x = a ∧ y = b
      · have h2 : ¬ (y = a ∧ x = b) := fun hh => hab (h1.1.symm.trans hh.2)
        simp [h1, h2, hd]
      · by_cases h2 : y = a ∧ x = b
        · simp [h1, h2, hd]
        · have h3 : ¬ (x = b ∧ y = a) := fun hh => h2 ⟨hh.2, hh.1⟩
          have h4 : ¬ (y = b ∧ x = a) := fun hh => h1 ⟨hh.2, hh.1⟩
          simp [h1, h2, h3, h4]

theorem WF_build (addr : String → Nat) (d : Bool) (ops : List Op) : (build addr d ops).WF := by
  have key : ∀ (ops : List Op) (g : Graph), g.WF → (ops.foldl (applyOp addr) g).WF := by
    intro ops
    induction ops with
    | nil => intro g h; exact h
    | cons op ops ih =>
      intro g h
      rw [List.foldl_cons]
      apply ih
      cases op with
      | add l => exact WF_add g l h
      | connect a b w => exact WF_connect addr g a b w h
      | disconnect a b => exact WF_disconnect g a b h
  exact key ops (Graph.empty d) (WF_empty d)

/-! ### The `dijkstra` loop -/

theorem wrapInt_eq (x : Int) (h1 : -2147483648 ≤ x) (h2 : x ≤ 2147483647) : wrapInt x = x := by
  unfold wrapInt
  omega

theorem mapFind_mapAssign {α : Type} (m : List (String × α)) (k k1 : String) (v : α) :
    mapFind? (mapAssign k v m) k1 = if k1 = k then some v else mapFind? m k1 := by
  induction m with
  | nil =>
    by_cases h : k1 = k
    · simp [mapAssign, mapFind?, h]
    · have h' : ¬ k = k1 := fun e => h e.symm
      simp [mapAssign, mapFind?, h, h']
  | cons p rest ih =>
    unfold mapAssign
    by_cases h : k1 = k
    · subst h
      simp only [if_true] at ih ⊢
      split
      · simp [mapFind?]
      · split
        · rename_i h1 h2
          have hp : ¬ p.1 = k1 := by
            intro e
            rw [e] at h2
            exact lt_irrefl _ h2
          simp only [mapFind?, List.find?_cons, hp, decide_False] at ih ⊢
          exact ih
        · simp [mapFind?]
    · have h' : ¬ k = k1 := fun e => h e.symm
      simp only [h, if_false] at ih ⊢
      split
      · simp [mapFind?, List.find?_cons, h']
      · split
        · simp only [mapFind?, List.find?_cons] at ih ⊢
          by_cases hp : p.1 = k1
          · simp [hp]
          · simp only [hp, decide_False]
            exact ih
        · rename_i h1 h2
          have hd : k.data = p.1.data := by
            rcases lt_trichotomy k.data p.1.data with h3 | h3 | h3
            · exact absurd h3 h1
            · exact h3
            · exact absurd h3 h2
          have he : k = p.1 := String.ext hd
          have hp : ¬ p.1 = k1 := fun e => h' (he.trans e)
          simp [mapFind?, List.find?_cons, h', hp]

theorem mapFind_isSome_iff {α : Type} (m : List (String × α)) (k : String) :
    (mapFind? m k).isSome = true ↔ k ∈ m.map Prod.fst := by
  simp only [mapFind?, Option.isSome_map', List.find?_isSome, List.mem_map, decide_eq_true_eq]

theorem mem_outEdges (from_ : String) (c : List (String × Int)) (e : Edge) :
    e ∈ outEdges from_ c ↔ ∃ p ∈ c, e = ⟨from_, p.2, p.1⟩ := by
  simp only [outEdges, List.mem_map]
  constructor
  · rintro ⟨p, hp, rfl⟩; exact ⟨p, hp, rfl⟩
  · rintro ⟨p, hp, rfl⟩; exact ⟨p, hp, rfl⟩

theorem hasArc_of_mem (g : Graph) (a : String) (p : String × Int)
    (h : p ∈ connectedOf g.vertices a) : hasArc g a p.1 = true := by
  unfold hasArc
  rw [connCount_iff]
  exact List.mem_map_of_mem _ h

theorem mem_of_hasArc (g : Graph) (a y : String) (h : hasArc g a y = true) :
    ∃ p ∈ connectedOf g.vertices a, p.1 = y := by
  unfold hasArc at h
  rw [connCount_iff] at h
  obtain ⟨p, hp, e⟩ := List.mem_map.mp h
  exact ⟨p, hp, e⟩

theorem reach_of_not_contained (g : Graph) (start v : String)
    (h : countLabel g.vertices start = false) (hr : Reach g start v) : v = start := by
  induction hr with
  | refl => rfl
  | tail _ hbc ih =>
    rw [ih] at hbc
    simp [hasArc, connectedOf_of_not_count _ _ h, connCount] at hbc

/-! ### C8: key sets of the result of `dijkstra` -/

/-- C8 as stated fails: in the graph with the single arc A->B of weight 2147483647 (a value
of `int`; the only path sum is that weight, so nothing overflows) `B` is reachable from `A`
and differs from it, yet `dijkstra("A")` returns two empty mappings. -/
theorem dijkstra_keys_counterexample :
    arcWeight graphMax "A" "B" = some 2147483647 ∧
    ¬ (∃ weights previous, graphMax.dijkstra "A" = some (weights, previous) ∧
      (∀ v, v ∈ weights.map Prod.fst ↔ v ∈ previous.map Prod.fst) ∧
      (∀ v, v ∈ weights.map Prod.fst ↔ (v ≠ "A" ∧ Reach graphMax "A" v)) ∧
      (graphMax.contains "A" = false → weights = [] ∧ previous = [])) := by
  refine ⟨by decide, ?_⟩
  rintro ⟨weights, previous, h1, _, h3, _⟩
  have h0 : graphMax.dijkstra "A" = some ([], []) := by decide
  rw [h0] at h1
  simp only [Option.some.injEq, Prod.mk.injEq] at h1
  have hr : Reach graphMax "A" "B" := Relation.ReflTransGen.single (by decide)
  have := (h3 "B").mpr ⟨by decide, hr⟩
  rw [← h1.1] at this
  simp at this

/-! ### Connectivity by edge lists -/

theorem Edge.joins_symm (e : Edge) (x y : String) (h : e.joins x y) : e.joins y x := by
  rcases h with h | h
  · exact Or.inr h
  · exact Or.inl h

theorem Edge.joins_self (e : Edge) : e.joins e.from_ e.to_ := Or.inl ⟨rfl, rfl⟩

theorem Conn.refl (T : List Edge) (x : String) : Conn T x x := Relation.ReflTransGen.refl

theorem Conn.trans {T : List Edge} {x y z : String} (h1 : Conn T x y) (h2 : Conn T y z) :
    Conn T x z := Relation.ReflTransGen.trans h1 h2

theorem Conn.symm {T : List Edge} {x y : String} (h : Conn T x y) : Conn T y x := by
  induction h with
  | refl => exact Relation.ReflTransGen.refl
  | tail _ hbc ih =>
    obtain ⟨e, he, hj⟩ := hbc
    exact Relation.ReflTransGen.head ⟨e, he, e.joins_symm _ _ hj⟩ ih

theorem Conn.edge {T : List Edge} {e : Edge} {x y : String} (he : e ∈ T) (hj : e.joins x y) :
    Conn T x y := Relation.ReflTransGen.single ⟨e, he, hj⟩

/-- Connectivity transfers along any map of edges into connections. -/
theorem Conn.of_edges {T T1 : List Edge} (h : ∀ e ∈ T, Conn T1 e.from_ e.to_) {x y : String}
    (hc : Conn T x y) : Conn T1 x y := by
  induction hc with
  | refl => exact Relation.ReflTransGen.refl
  | tail _ hbc ih =>
    obtain ⟨e, he, hj⟩ := hbc
    rcases hj with ⟨h1, h2⟩ | ⟨h1, h2⟩
    · exact ih.trans (h1 ▸ h2 ▸ h e he)
    · exact ih.trans (h1 ▸ h2 ▸ (h e he).symm)

theorem Conn.mono {T T1 : List Edge} (h : ∀ e ∈ T, e ∈ T1) {x y : String} (hc : Conn T x y) :
    Conn T1 x y :=
  Conn.of_edges (fun e he => Conn.edge (h e he) e.joins_self) hc

/-- A connection from inside a vertex set to outside of it uses an edge that leaves the set. -/
theorem Conn.crossing {T : List Edge} {x y : String} (S : String → Prop) (hc : Conn T x y)
    (hx : S x) (hy : ¬ S y) : ∃ e ∈ T, ∃ a b, e.joins a b ∧ S a ∧ ¬ S b := by
  induction hc with
  | refl => exact absurd hx hy
  | @tail b c _ hbc ih =>
    by_cases hb : S b
    · obtain ⟨e, he, hj⟩ := hbc
      exact ⟨e, he, b, c, hj, hb, hy⟩
    · exact ih hb

/-- Removing one edge either keeps a connection or splits it at that edge. -/
theorem Conn.split {T : List Edge} (e : Edge) {a b : String} (hc : Conn T a b) :
    Conn (T.erase e) a b ∨
    (Conn (T.erase e) a e.from_ ∧ Conn (T.erase e) e.to_ b) ∨
    (Conn (T.erase e) a e.to_ ∧ Conn (T.erase e) e.from_ b) := by
  induction hc with
  | refl => exact Or.inl (Conn.refl _ _)
  | @tail b c _ hbc ih =>
    obtain ⟨f, hf, hj⟩ := hbc
    by_cases hfe : f = e
    · subst hfe
      rcases hj with ⟨h1, h2⟩ | ⟨h1, h2⟩
      · subst h1 h2
        rcases ih with h | ⟨h3, _⟩ | ⟨h3, _⟩
        · exact Or.inr (Or.inl ⟨h, Conn.refl _ _⟩)
        · exact Or.inr (Or.inl ⟨h3, Conn.refl _ _⟩)
        · exact Or.inl h3
      · subst h1 h2
        rcases ih with h | ⟨h3, _⟩ | ⟨h3, _⟩
        · exact Or.inr (Or.inr ⟨h, Conn.refl _ _⟩)
        · exact Or.inl h3
        · exact Or.inr (Or.inr ⟨h3, Conn.refl _ _⟩)
    · have hstep : Conn (T.erase e) b c :=
        Conn.edge ((List.mem_erase_of_ne hfe).mpr hf) hj
      rcases ih with h | ⟨h3, h4⟩ | ⟨h3, h4⟩
      · exact Or.inl (h.trans hstep)
      · exact Or.inr (Or.inl ⟨h3, h4.trans hstep⟩)
      · exact Or.inr (Or.inr ⟨h3, h4.trans hstep⟩)

theorem Conn.of_subperm {T T1 : List Edge} (h : T.Subperm T1) {x y : String}
    (hc : Conn T x y) : Conn T1 x y :=
  Conn.mono (fun _ he => h.subset he) hc

/-! ### Counting edges of connected edge lists -/

theorem exists_spanning_sub_aux (comp : List String) (hnd : comp.Nodup) (s : String)
    (L : List Edge) (hin : ∀ e ∈ L, e.from_ ∈ comp ∧ e.to_ ∈ comp)
    (hconn : ∀ v ∈ comp, Conn L s v) :
    ∀ (k : Nat) (V : List String) (U : List Edge), V.Nodup → (∀ v ∈ V, v ∈ comp) → s ∈ V →
      U.Subperm L → (∀ e ∈ U, e.from_ ∈ V ∧ e.to_ ∈ V) → (∀ v ∈ V, Conn U s v) →
      U.length + 1 = V.length → comp.length - V.length = k →
      ∃ U1 : List Edge, U1.Subperm L ∧ U1.length + 1 = comp.length ∧
        ∀ v ∈ comp, Conn U1 s v := by
  intro k
  induction k with
  | zero =>
    intro V U hV hsub hs hU hUin hUc hlen hk
    have hsp : V.Subperm comp := List.subperm_of_subset hV hsub
    have hperm : V.Perm comp := hsp.perm_of_length_le (by omega)
    refine ⟨U, hU, by rw [hlen, hperm.length_eq], fun v hv => hUc v (hperm.mem_iff.mpr hv)⟩
  | succ k ih =>
    intro V U hV hsub hs hU hUin hUc hlen hk
    have hex : ∃ c ∈ comp, c ∉ V := by
      by_contra hcon
      push_neg at hcon
      have := (List.subperm_of_subset hnd hcon).length_le
      omega
    obtain ⟨c, hc, hcV⟩ := hex
    obtain ⟨f, hf, x, y, hj, hx, hy⟩ := Conn.crossing (fun v => v ∈ V) (hconn c hc) hs hcV
    have hfU : f ∉ U := by
      intro hm
      obtain ⟨h1, h2⟩ := hUin f hm
      rcases hj with ⟨e1, e2⟩ | ⟨e1, e2⟩
      · exact hy (e2 ▸ h2)
      · exact hy (e1 ▸ h1)
    have hycomp : y ∈ comp := by
      obtain ⟨h1, h2⟩ := hin f hf
      rcases hj with ⟨e1, e2⟩ | ⟨e1, e2⟩
      · exact e2 ▸ h2
      · exact e1 ▸ h1
    apply ih (y :: V) (f :: U)
    · exact List.nodup_cons.mpr ⟨hy, hV⟩
    · intro v hv
      rcases List.mem_cons.mp hv with e | hv
      · rw [e]; exact hycomp
      · exact hsub v hv
    · exact List.mem_cons_of_mem _ hs
    · exact List.cons_subperm_of_not_mem_of_mem hfU hf hU
    · intro e he
      rcases List.mem_cons.mp he with e1 | he
      · subst e1
        rcases hj with ⟨e1, e2⟩ | ⟨e1, e2⟩
        · rw [e1, e2]
          exact ⟨List.mem_cons_of_mem _ hx, List.mem_cons_self _ _⟩
        · rw [e1, e2]
          exact ⟨List.mem_cons_self _ _, List.mem_cons_of_mem _ hx⟩
      · obtain ⟨h1, h2⟩ := hUin e he
        exact ⟨List.mem_cons_of_mem _ h1, List.mem_cons_of_mem _ h2⟩
    · intro v hv
      have hmono : ∀ a, Conn U s a → Conn (f :: U) s a :=
        fun a ha => Conn.mono (fun e he => List.mem_cons_of_mem _ he) ha
      rcases List.mem_cons.mp hv with e | hv
      · rw [e]
        exact (hmono x (hUc x hx)).trans (Conn.edge (List.mem_cons_self _ _) hj)
      · exact hmono v (hUc v hv)
    · simp only [List.length_cons]; omega
    · have := (List.subperm_of_subset hV hsub).length_le
      simp only [List.length_cons]
      omega

/-- An edge list that connects the vertex list `comp` has a sub-list with exactly
`comp.length - 1` edges that still connects it. -/
theorem exists_spanning_sub (comp : List String) (hnd : comp.Nodup) (s : String)
    (hs : s ∈ comp) (L : List Edge) (hin : ∀ e ∈ L, e.from_ ∈ comp ∧ e.to_ ∈ comp)
    (hconn : ∀ v ∈ comp, Conn L s v) :
    ∃ U : List Edge, U.Subperm L ∧ U.length + 1 = comp.length ∧ ∀ v ∈ comp, Conn U s v := by
  apply exists_spanning_sub_aux comp hnd s L hin hconn (comp.length - 1) [s] []
  · simp
  · intro v hv
    rw [List.mem_singleton.mp hv]; exact hs
  · simp
  · exact List.nil_subperm
  · simp
  · intro v hv
    rw [List.mem_singleton.mp hv]; exact Conn.refl _ _
  · simp
  · simp

/-- In a spanning tree in counting form, removing any edge disconnects its endpoints. -/
theorem CountTree.bridge {g : Graph} {comp : List String} {s : String} {T : List Edge}
    (hT : CountTree g comp s T) (hnd : comp.Nodup) (hs : s ∈ comp) (e : Edge) (he : e ∈ T) :
    ¬ Conn (T.erase e) e.from_ e.to_ := by
  intro hcon
  have hconn : ∀ v ∈ comp, Conn (T.erase e) s v := by
    intro v hv
    rcases Conn.split e (hT.spans v hv) with h | ⟨h1, h2⟩ | ⟨h1, h2⟩
    · exact h
    · exact (h1.trans hcon).trans h2
    · exact (h1.trans hcon.symm).trans h2
  obtain ⟨U, hU, hlen, _⟩ := exists_spanning_sub comp hnd s hs (T.erase e)
    (fun f hf => hT.inside f (List.mem_of_mem_erase hf)) hconn
  have h1 := hU.length_le
  have h2 := List.length_erase_of_mem he
  have h3 := hT.count
  have h4 : 0 < T.length := List.length_pos_of_mem he
  omega

/-- On the tree path between `u` and `v` there is an edge that leaves the vertex set `S`. -/
theorem exists_path_edge (T : List Edge)
    (hbridge : ∀ e ∈ T, ¬ Conn (T.erase e) e.from_ e.to_) (S : String → Prop) (u v : String)
    (hu : S u) (hv : ¬ S v) :
    ∀ (n : Nat) (M : List Edge), M.length = n → M.Subperm T → Conn M u v →
      ∃ e ∈ T, ∃ x y, e.joins x y ∧ S x ∧ ¬ S y ∧ ¬ Conn (T.erase e) u v := by
  intro n
  induction n with
  | zero =>
    intro M hlen _ hc
    have : M = [] := List.length_eq_zero.mp hlen
    subst this
    obtain ⟨e, he, _⟩ := Conn.crossing S hc hu hv
    simp at he
  | succ n ih =>
    intro M hlen hsub hc
    by_cases hex : ∃ e ∈ M, Conn (M.erase e) u v
    · obtain ⟨e, he, hce⟩ := hex
      refine ih (M.erase e) ?_ ((List.erase_sublist e M).subperm.trans hsub) hce
      rw [List.length_erase_of_mem he, hlen]
      rfl
    · push_neg at hex
      obtain ⟨e, he, x, y, hj, hx, hy⟩ := Conn.crossing S hc hu hv
      refine ⟨e, hsub.subset he, x, y, hj, hx, hy, ?_⟩
      intro hcon
      have hmono : ∀ a b, Conn (M.erase e) a b → Conn (T.erase e) a b :=
        fun a b h => Conn.of_subperm (hsub.erase e) h
      apply hbridge e (hsub.subset he)
      rcases Conn.split e hc with h | ⟨h1, h2⟩ | ⟨h1, h2⟩
      · exact absurd h (hex e he)
      · exact ((hmono _ _ h1).symm.trans hcon).trans (hmono _ _ h2).symm
      · exact ((hmono _ _ h2).trans hcon.symm).trans (hmono _ _ h1)

theorem totalWeight_cons (e : Edge) (T : List Edge) :
    totalWeight (e :: T) = e.weight + totalWeight T := by
  simp [totalWeight]

theorem totalWeight_append (T1 T2 : List Edge) :
    totalWeight (T1 ++ T2) = totalWeight T1 + totalWeight T2 := by
  simp [totalWeight]

theorem totalWeight_erase (e : Edge) (T : List Edge) (he : e ∈ T) :
    e.weight + totalWeight (T.erase e) = totalWeight T :=
  List.sum_map_erase (fun e => e.weight) he

theorem totalWeight_perm {T1 T2 : List Edge} (h : T1.Perm T2) :
    totalWeight T1 = totalWeight T2 :=
  (h.map _).sum_eq

/-- Exchange step: an edge that joins two parts not yet connected by `F` and is no heavier
than any tree edge leaving the part of its first endpoint can be put into the tree in
place of a tree edge, without increasing the total weight. -/
theorem CountTree.exchange {g : Graph} {comp : List String} {s : String} {T F : List Edge}
    (hT : CountTree g comp s T) (hnd : comp.Nodup) (hs : s ∈ comp) (hF : F.Subperm T)
    (e : Edge) (harc : arcWeight g e.from_ e.to_ = some e.weight)
    (hin : e.from_ ∈ comp ∧ e.to_ ∈ comp) (hne : ¬ Conn F e.from_ e.to_)
    (hlight : ∀ f ∈ T, ∀ x y, f.joins x y → Conn F e.from_ x → ¬ Conn F e.from_ y →
      e.weight ≤ f.weight) :
    ∃ T1, CountTree g comp s T1 ∧ (e :: F).Subperm T1 ∧ totalWeight T1 ≤ totalWeight T := by
  have huv : Conn T e.from_ e.to_ := (hT.spans _ hin.1).symm.trans (hT.spans _ hin.2)
  obtain ⟨f, hf, x, y, hj, hx, hy, hsep⟩ :=
    exists_path_edge T (fun e he => hT.bridge hnd hs e he) (fun a => Conn F e.from_ a)
      e.from_ e.to_ (Conn.refl _ _) hne T.length T rfl (List.Subperm.refl T) huv
  have hfF : f ∉ F := by
    intro hm
    exact hy (hx.trans (Conn.edge hm hj))
  have hw : e.weight ≤ f.weight := hlight f hf x y hj hx hy
  have hFsub : F.Subperm (T.erase f) := by
    have := hF.erase f
    rwa [List.erase_of_not_mem hfF] at this
  have hside : ∀ a ∈ comp, Conn (T.erase f) a f.from_ ∨ Conn (T.erase f) a f.to_ := by
    intro a ha
    have hc : Conn T a f.from_ := (hT.spans a ha).symm.trans (hT.spans _ (hT.inside f hf).1)
    rcases Conn.split f hc with h | ⟨h1, _⟩ | ⟨h1, _⟩
    · exact Or.inl h
    · exact Or.inl h1
    · exact Or.inr h1
  have hmono : ∀ a b, Conn (T.erase f) a b → Conn (e :: T.erase f) a b :=
    fun a b h => Conn.mono (fun t ht => List.mem_cons_of_mem _ ht) h
  have hedge : Conn (e :: T.erase f) e.from_ e.to_ :=
    Conn.edge (List.mem_cons_self _ _) e.joins_self
  have hf1 : Conn (e :: T.erase f) f.from_ f.to_ := by
    rcases hside _ hin.1 with hu | hu <;> rcases hside _ hin.2 with hv | hv
    · exact absurd (hu.trans hv.symm) hsep
    · exact ((hmono _ _ hu).symm.trans hedge).trans (hmono _ _ hv)
    · exact ((hmono _ _ hv).symm.trans hedge.symm).trans (hmono _ _ hu)
    · exact absurd (hu.trans hv.symm) hsep
  refine ⟨e :: T.erase f, ⟨?_, ?_, ?_, ?_⟩, (List.subperm_cons e).mpr hFsub, ?_⟩
  · intro t ht
    rcases List.mem_cons.mp ht with e1 | ht
    · rw [e1]; exact harc
    · exact hT.arcs t (List.mem_of_mem_erase ht)
  · intro t ht
    rcases List.mem_cons.mp ht with e1 | ht
    · rw [e1]; exact hin
    · exact hT.inside t (List.mem_of_mem_erase ht)
  · intro a ha
    refine Conn.of_edges (fun t ht => ?_) (hT.spans a ha)
    by_cases htf : t = f
    · rw [htf]; exact hf1
    · exact Conn.edge (List.mem_cons_of_mem _ ((List.mem_erase_of_ne htf).mpr ht)) t.joins_self
  · have h1 := List.length_erase_of_mem hf
    have h2 : 0 < T.length := List.length_pos_of_mem hf
    have h3 := hT.count
    simp only [List.length_cons]
    omega
  · have := totalWeight_erase f T hf
    rw [totalWeight_cons]
    omega

/-- Closing step: a sub-list of a spanning tree that already connects the component is the
whole tree, up to the order of its edges. -/
theorem CountTree.perm_of_spans {g : Graph} {comp : List String} {s : String}
    {T F : List Edge} (hT : CountTree g comp s T) (hnd : comp.Nodup) (hs : s ∈ comp)
    (hF : F.Subperm T) (hspan : ∀ v ∈ comp, Conn F s v) : F.Perm T := by
  obtain ⟨U, hU, hlen, _⟩ := exists_spanning_sub comp hnd s hs F
    (fun f hf => hT.inside f (hF.subset hf)) hspan
  have h1 := hU.length_le
  have h2 := hT.count
  exact hF.perm_of_length_le (by omega)

theorem CountTree.of_perm {g : Graph} {comp : List String} {s : String} {T F : List Edge}
    (hT : CountTree g comp s T) (h : F.Perm T) : CountTree g comp s F :=
  ⟨fun e he => hT.arcs e (h.mem_iff.mp he), fun e he => hT.inside e (h.mem_iff.mp he),
    fun v hv => Conn.mono (fun _ he => h.mem_iff.mpr he) (hT.spans v hv),
    by rw [h.length_eq]; exact hT.count⟩

/-- A spanning tree in counting form is a spanning tree. -/
theorem CountTree.isSpanningTree {g : Graph} {comp : List String} {s : String}
    {T : List Edge} (hT : CountTree g comp s T) (hnd : comp.Nodup)
    (hcomp : ∀ v, v ∈ comp ↔ Reach g s v) : IsSpanningTree g s T :=
  have hs : s ∈ comp := (hcomp s).mpr Relation.ReflTransGen.refl
  ⟨hT.arcs, fun e he => (hcomp _).mp (hT.inside e he).1,
    fun v hv => hT.spans v ((hcomp v).mpr hv), fun e he => hT.bridge hnd hs e he⟩

/-- A spanning tree is a spanning tree in counting form. -/
theorem IsSpanningTree.countTree {g : Graph} {comp : List String} {s : String}
    {T : List Edge} (hT : IsSpanningTree g s T) (hnd : comp.Nodup)
    (hcomp : ∀ v, v ∈ comp ↔ Reach g s v) : CountTree g comp s T := by
  have hs : s ∈ comp := (hcomp s).mpr Relation.ReflTransGen.refl
  have hin : ∀ e ∈ T, e.from_ ∈ comp ∧ e.to_ ∈ comp := by
    intro e he
    have h1 := hT.inside e he
    refine ⟨(hcomp _).mpr h1, (hcomp _).mpr (Relation.ReflTransGen.tail h1 ?_)⟩
    rw [hasArc_eq_isSome, hT.arcs e he]
    rfl
  have hsp : ∀ v ∈ comp, Conn T s v := fun v hv => hT.spans v ((hcomp v).mp hv)
  obtain ⟨U, hU, hlen, hUc⟩ := exists_spanning_sub comp hnd s hs T hin hsp
  refine ⟨hT.arcs, hin, hsp, ?_⟩
  by_contra hne
  have hlt : U.length < T.length := by
    have := hU.length_le
    omega
  have hlt2 : (U : Multiset Edge) < (T : Multiset Edge) := by
    refine lt_of_le_of_ne (Multiset.coe_le.mpr hU) ?_
    intro heq
    have := congrArg Multiset.card heq
    simp only [Multiset.coe_card] at this
    omega
  obtain ⟨a, ha⟩ := Multiset.lt_iff_cons_le.mp hlt2
  have haT : a ∈ T := by
    have : a ∈ (T : Multiset Edge) := Multiset.mem_of_le ha (Multiset.mem_cons_self a _)
    simpa using this
  have hUe : U.Subperm (T.erase a) := by
    have h1 : ((a :: U : List Edge) : Multiset Edge) ≤ (T : Multiset Edge) := by
      simpa using ha
    have h2 := (Multiset.coe_le.mp h1).erase a
    simpa using h2
  apply hT.acyclic a haT
  have h1 := hin a haT
  exact Conn.of_subperm hUe ((hUc _ h1.1).symm.trans (hUc _ h1.2))

/-! ### Priority queue -/

theorem lightest_le_head (e0 : Edge) (q : List Edge) : lightest e0 q ≤ e0.weight := by
  cases q with
  | nil => exact le_refl _
  | cons e q => exact min_le_left _ _

theorem lightest_le (e0 : Edge) (q : List Edge) : ∀ x ∈ e0 :: q, lightest e0 q ≤ x.weight := by
  induction q generalizing e0 with
  | nil =>
    intro x hx
    rw [List.mem_singleton.mp hx]
    exact le_refl _
  | cons e q ih =>
    intro x hx
    rcases List.mem_cons.mp hx with h | h
    · rw [h]; exact min_le_left _ _
    · exact le_trans (min_le_right _ _) (ih e x h)

theorem lightest_mem (e0 : Edge) (q : List Edge) :
    ∃ x ∈ e0 :: q, x.weight = lightest e0 q := by
  induction q generalizing e0 with
  | nil => exact ⟨e0, List.mem_singleton.mpr rfl, rfl⟩
  | cons e q ih =>
    obtain ⟨x, hx, hw⟩ := ih e
    by_cases h : e0.weight ≤ lightest e q
    · exact ⟨e0, List.mem_cons_self _ _, by simp [lightest, h]⟩
    · refine ⟨x, List.mem_cons_of_mem _ hx, ?_⟩
      rw [hw]
      simp only [lightest]
      rw [min_eq_right (le_of_lt (not_le.mp h))]

theorem pqPop_nil (tie : List Edge → Nat) (q : List Edge) (h : pqPop tie q = none) : q = [] := by
  cases q with
  | nil => rfl
  | cons e0 rest => simp [pqPop] at h

theorem pqPop_some (tie : List Edge → Nat) (q : List Edge) (e : Edge) (q1 : List Edge)
    (h : pqPop tie q = some (e, q1)) :
    e ∈ q ∧ q1 = q.erase e ∧ ∀ x ∈ q, e.weight ≤ x.weight := by
  cases q with
  | nil => simp [pqPop] at h
  | cons e0 rest =>
    simp only [pqPop, Option.some.injEq, Prod.mk.injEq] at h
    obtain ⟨h1, h2⟩ := h
    have hne : 0 < ((e0 :: rest).filter (fun e => e.weight = lightest e0 rest)).length := by
      obtain ⟨x, hx, hw⟩ := lightest_mem e0 rest
      exact List.length_pos_of_mem (List.mem_filter.mpr ⟨hx, by simpa using hw⟩)
    have hidx := Nat.mod_lt (tie (e0 :: rest)) hne
    rw [h1] at h2
    rw [List.getD_eq_getElem _ _ hidx] at h1
    have hmem := List.getElem_mem hidx
    rw [h1] at hmem
    obtain ⟨hm1, hm2⟩ := List.mem_filter.mp hmem
    have hw : e.weight = lightest e0 rest := by simpa using hm2
    refine ⟨hm1, h2.symm, fun x hx => ?_⟩
    rw [hw]
    exact lightest_le e0 rest x hx

/-! ### Arcs and adjacency entries -/

theorem find_iff_mem_of_nodup (c : List (String × Int)) (h : (c.map Prod.fst).Nodup)
    (b : String) (w : Int) :
    (c.find? (fun p => p.1 = b)).map Prod.snd = some w ↔ (b, w) ∈ c := by
  induction c with
  | nil => simp
  | cons p rest ih =>
    rw [List.map_cons, List.nodup_cons] at h
    by_cases hp : p.1 = b
    · simp only [List.find?_cons, hp, decide_True, Option.map_some', Option.some.injEq,
        List.mem_cons]
      constructor
      · intro hw
        left
        rw [← hw, ← hp]
      · rintro (h1 | h1)
        · rw [← h1]
        · exfalso
          apply h.1
          rw [hp]
          exact List.mem_map_of_mem Prod.fst h1
    · simp only [List.find?_cons, hp, decide_False, List.mem_cons]
      rw [ih h.2]
      constructor
      · intro h1; exact Or.inr h1
      · rintro (h1 | h1)
        · exact absurd (by rw [← h1]) hp
        · exact h1

theorem arcWeight_iff_mem (g : Graph) (hwf : g.WF) (a b : String) (w : Int) :
    arcWeight g a b = some w ↔ (b, w) ∈ connectedOf g.vertices a :=
  find_iff_mem_of_nodup _ (hwf.keysNodup a) b w

theorem hasArc_of_arcWeight (g : Graph) (a b : String) (w : Int)
    (h : arcWeight g a b = some w) : hasArc g a b = true := by
  rw [hasArc_eq_isSome, h]
  rfl

theorem arcWeight_of_hasArc (g : Graph) (a b : String) (h : hasArc g a b = true) :
    ∃ w, arcWeight g a b = some w := by
  rw [hasArc_eq_isSome] at h
  exact Option.isSome_iff_exists.mp h

theorem wrapInt_add_left (a b : Int) : wrapInt (wrapInt a + b) = wrapInt (a + b) := by
  unfold wrapInt
  omega

theorem wrapInt_idem (a : Int) : wrapInt (wrapInt a) = wrapInt a := by
  unfold wrapInt
  omega

/-! ### The `mstPrim` loop -/

theorem PrimInv.closed {g : Graph} {comp : List String} {start : String} {T0 : List Edge}
    {V : List String} {Q F : List Edge} (inv : PrimInv g comp start T0 V Q F) {a b : String}
    (hc : Conn F a b) (ha : a ∈ V) : b ∈ V := by
  induction hc with
  | refl => exact ha
  | tail _ hbc ih =>
    obtain ⟨f, hf, hj⟩ := hbc
    obtain ⟨h1, h2⟩ := inv.inside f hf
    rcases hj with ⟨e1, e2⟩ | ⟨e1, e2⟩
    · exact e2 ▸ h2
    · exact e1 ▸ h1

theorem primLoop_spec (g : Graph) (hwf : g.WF) (hd : g.directional = false)
    (comp : List String) (hnd : comp.Nodup) (start : String)
    (hcomp : ∀ v, v ∈ comp ↔ Reach g start v) (tie : List Edge → Nat) (T0 : List Edge) :
    ∀ fuel V Q F acc, PrimInv g comp start T0 V Q F → wrapInt acc = acc →
      Q.length + degreeSum g V ≤ fuel →
      ∃ total calls, primLoop g tie fuel V Q acc = some (total, calls) ∧
        total = wrapInt (acc + totalWeight calls) ∧
        CountTree g comp start (F ++ calls) ∧
        totalWeight (F ++ calls) ≤ totalWeight T0 := by
  have hs : start ∈ comp := (hcomp start).mpr Relation.ReflTransGen.refl
  have hdone : ∀ V F acc, PrimInv g comp start T0 V [] F → wrapInt acc = acc →
      acc = wrapInt (acc + totalWeight []) ∧ CountTree g comp start (F ++ []) ∧
        totalWeight (F ++ []) ≤ totalWeight T0 := by
    intro V F acc inv hacc
    have hall : ∀ v, Reach g start v → v ∈ V := by
      intro v hv
      induction hv with
      | refl => exact inv.start_mem
      | @tail b c _ hbc ih =>
        obtain ⟨w, hw⟩ := arcWeight_of_hasArc g b c hbc
        by_contra hc
        have := inv.frontier b ih c w hw hc
        simp at this
    obtain ⟨T, hT, hsub, hle⟩ := inv.tree
    have hperm := hT.perm_of_spans hnd hs hsub
      (fun v hv => inv.conn v (hall v ((hcomp v).mp hv)))
    refine ⟨by simp [totalWeight, hacc], ?_, ?_⟩
    · rw [List.append_nil]; exact hT.of_perm hperm
    · rw [List.append_nil, totalWeight_perm hperm]; exact hle
  intro fuel
  induction fuel with
  | zero =>
    intro V Q F acc inv hacc hfuel
    have hQ : Q = [] := List.length_eq_zero.mp (by omega)
    subst hQ
    exact ⟨acc, [], by simp [primLoop, pqPop], hdone V F acc inv hacc⟩
  | succ fuel ih =>
    intro V Q F acc inv hacc hfuel
    cases hp : pqPop tie Q with
    | none =>
      have hQ := pqPop_nil tie Q hp
      subst hQ
      exact ⟨acc, [], by simp [primLoop, pqPop], hdone V F acc inv hacc⟩
    | some r =>
      obtain ⟨curr, Q1⟩ := r
      obtain ⟨hmem, hQ1, hmin⟩ := pqPop_some tie Q curr Q1 hp
      obtain ⟨hfrom, harc⟩ := inv.queue curr hmem
      have hlen1 : Q1.length + 1 = Q.length := by
        rw [hQ1, List.length_erase_of_mem hmem]
        have := List.length_pos_of_mem hmem
        omega
      rw [primLoop, hp]
      by_cases hv : curr.to_ ∈ V
      · simp only [hv, if_true]
        apply ih V Q1 F acc _ hacc (by omega)
        refine ⟨inv.start_mem, inv.sub, inv.conn, inv.inside, ?_, ?_, inv.tree⟩
        · intro q hq
          exact inv.queue q (List.mem_of_mem_erase (hQ1 ▸ hq))
        · intro x hx y w hw hy
          have h1 := inv.frontier x hx y w hw hy
          rw [hQ1]
          refine (List.mem_erase_of_ne ?_).mpr h1
          intro e
          rw [← e] at hv
          exact hy hv
      · simp only [hv, if_false]
        obtain ⟨T, hT, hsub, hle⟩ := inv.tree
        have hfromc : curr.from_ ∈ comp := inv.sub _ hfrom
        have htoc : curr.to_ ∈ comp :=
          (hcomp _).mpr (Relation.ReflTransGen.tail ((hcomp _).mp hfromc)
            (hasArc_of_arcWeight g _ _ _ harc))
        have hne : ¬ Conn F curr.from_ curr.to_ := fun hc => hv (inv.closed hc hfrom)
        obtain ⟨T1, hT1, hsub1, hle1⟩ := hT.exchange hnd hs hsub curr harc ⟨hfromc, htoc⟩ hne
          (by
            intro f hf x y hj hx hy
            have hxV : x ∈ V := inv.closed hx hfrom
            have hyV : y ∉ V := fun hyV =>
              hy ((inv.conn _ hfrom).symm.trans (inv.conn y hyV))
            have hxy : arcWeight g x y = some f.weight := by
              have := hT.arcs f hf
              rcases hj with ⟨e1, e2⟩ | ⟨e1, e2⟩
              · rw [← e1, ← e2]; exact this
              · rw [hwf.symm hd, ← e1, ← e2]; exact this
            exact hmin ⟨x, f.weight, y⟩ (inv.frontier x hxV y f.weight hxy hyV))
        have hdeg := degreeSum_step g V (curr.to_ :: V) curr.to_ (by simp) hv
        have hlenf := List.length_filter_le (fun i : String × Int => decide (i.1 ∉ curr.to_ :: V))
          (connectedOf g.vertices curr.to_)
        obtain ⟨total, calls, h1, h2, h3, h4⟩ := ih (curr.to_ :: V)
          (Q1 ++ outEdges curr.to_
            ((connectedOf g.vertices curr.to_).filter (fun i => i.1 ∉ curr.to_ :: V)))
          (F ++ [curr]) (wrapInt (acc + curr.weight))
          (by
            refine ⟨List.mem_cons_of_mem _ inv.start_mem, ?_, ?_, ?_, ?_, ?_, ?_⟩
            · intro v hv1
              rcases List.mem_cons.mp hv1 with e | hv1
              · rw [e]; exact htoc
              · exact inv.sub v hv1
            · intro v hv1
              have hmono : ∀ a, Conn F start a → Conn (F ++ [curr]) start a :=
                fun a ha => Conn.mono (fun e he => List.mem_append_left _ he) ha
              rcases List.mem_cons.mp hv1 with e | hv1
              · rw [e]
                exact (hmono _ (inv.conn _ hfrom)).trans
                  (Conn.edge (List.mem_append_right _ (List.mem_singleton.mpr rfl))
                    curr.joins_self)
              · exact hmono v (inv.conn v hv1)
            · intro f hf
              rcases List.mem_append.mp hf with hf | hf
              · obtain ⟨a1, a2⟩ := inv.inside f hf
                exact ⟨List.mem_cons_of_mem _ a1, List.mem_cons_of_mem _ a2⟩
              · rw [List.mem_singleton.mp hf]
                exact ⟨List.mem_cons_of_mem _ hfrom, List.mem_cons_self _ _⟩
            · intro q hq
              rcases List.mem_append.mp hq with hq | hq
              · obtain ⟨a1, a2⟩ := inv.queue q (List.mem_of_mem_erase (hQ1 ▸ hq))
                exact ⟨List.mem_cons_of_mem _ a1, a2⟩
              · obtain ⟨p, hp1, rfl⟩ := (mem_outEdges _ _ _).mp hq
                exact ⟨List.mem_cons_self _ _,
                  (arcWeight_iff_mem g hwf _ _ _).mpr (List.mem_filter.mp hp1).1⟩
            · intro x hx y w hw hy
              rcases List.mem_cons.mp hx with e | hx
              · subst e
                apply List.mem_append_right
                rw [mem_outEdges]
                exact ⟨(y, w), List.mem_filter.mpr
                  ⟨(arcWeight_iff_mem g hwf _ _ _).mp hw, by simpa using hy⟩, rfl⟩
              · apply List.mem_append_left
                have hyV : y ∉ V := fun h => hy (List.mem_cons_of_mem _ h)
                have h1 := inv.frontier x hx y w hw hyV
                rw [hQ1]
                refine (List.mem_erase_of_ne ?_).mpr h1
                intro e
                apply hy
                rw [← e]
                exact List.mem_cons_self _ _
            · refine ⟨T1, hT1, ?_, le_trans hle1 hle⟩
              exact (List.perm_append_singleton curr F).subperm.trans hsub1)
          (wrapInt_idem _)
          (by
            simp only [List.length_append, outEdges, List.length_map]
            omega)
        refine ⟨total, curr :: calls, by rw [h1], ?_, ?_, ?_⟩
        · rw [h2, wrapInt_add_left, totalWeight_cons, add_assoc]
        · simpa using h3
        · simpa using h4

/-! ### The cycle test of `mstKruskal` -/

theorem cyclePush_spec (origin : List (String × String)) (curr : String) :
    ∀ (l : List (String × Int)) (s cv : List String),
      ∃ new, (cyclePush origin curr l s cv).1 = new ++ s ∧
        (∀ x, x ∈ (cyclePush origin curr l s cv).2 ↔ x ∈ cv ∨ x ∈ new) ∧
        (∀ x ∈ new, (curr, x) ∈ origin ∧ x ∉ cv) ∧
        (∀ i ∈ l, (curr, i.1) ∈ origin → i.1 ∈ (cyclePush origin curr l s cv).2) ∧
        (cyclePush origin curr l s cv).1.length + unmarked origin (cyclePush origin curr l s cv).2
          ≤ s.length + unmarked origin cv := by
  intro l
  induction l with
  | nil => intro s cv; exact ⟨[], by simp [cyclePush]⟩
  | cons i rest ih =>
    intro s cv
    rw [cyclePush]
    by_cases hi : (curr, i.1) ∈ origin ∧ i.1 ∉ cv
    · simp only [hi, and_self, not_false_eq_true, if_true]
      obtain ⟨new, h1, h2, h3, h4, h5⟩ := ih (i.1 :: s) (i.1 :: cv)
      have hlt := filter_notMem_length_lt (origin.map Prod.snd) cv (i.1 :: cv) i.1
        (fun x hx => List.mem_cons_of_mem _ hx)
        (List.mem_map_of_mem Prod.snd hi.1) hi.2 (List.mem_cons_self _ _)
      refine ⟨new ++ [i.1], by rw [h1]; simp, ?_, ?_, ?_, ?_⟩
      · intro x
        rw [h2]
        simp only [List.mem_cons, List.mem_append, List.mem_singleton]
        tauto
      · intro x hx
        rcases List.mem_append.mp hx with hx | hx
        · obtain ⟨a1, a2⟩ := h3 x hx
          exact ⟨a1, fun h => a2 (List.mem_cons_of_mem _ h)⟩
        · rw [List.mem_singleton.mp hx]; exact hi
      · intro j hj hjo
        rcases List.mem_cons.mp hj with e | hj
        · subst e; exact (h2 _).mpr (Or.inl (List.mem_cons_self _ _))
        · exact h4 j hj hjo
      · simp only [List.length_cons] at h5
        unfold unmarked at h5 ⊢
        omega
    · simp only [hi, if_false]
      obtain ⟨new, h1, h2, h3, h4, h5⟩ := ih s cv
      refine ⟨new, h1, h2, h3, ?_, h5⟩
      intro j hj hjo
      rcases List.mem_cons.mp hj with e | hj
      · subst e
        have : j.1 ∈ cv := by
          by_contra hn
          exact hi ⟨hjo, hn⟩
        exact (h2 _).mpr (Or.inl this)
      · exact h4 j hj hjo

theorem cycleSeed_spec (origin : List (String × String)) (from_ : String) :
    ∀ (l : List (String × Int)) (s : List String),
      (∀ x, x ∈ cycleSeed origin from_ l s ↔
        x ∈ s ∨ ∃ i ∈ l, i.1 = x ∧ (from_, x) ∈ origin) ∧
      (cycleSeed origin from_ l s).length ≤ s.length + l.length := by
  intro l
  induction l with
  | nil => intro s; simp [cycleSeed]
  | cons i rest ih =>
    intro s
    rw [cycleSeed]
    by_cases hi : (from_, i.1) ∈ origin
    · simp only [hi, if_true]
      obtain ⟨h1, h2⟩ := ih (i.1 :: s)
      refine ⟨fun x => ?_, by simp only [List.length_cons] at h2 ⊢; omega⟩
      rw [h1]
      simp only [List.mem_cons, exists_eq_or_imp]
      constructor
      · rintro ((h | h) | h)
        · exact Or.inr (Or.inl ⟨h.symm, h ▸ hi⟩)
        · exact Or.inl h
        · exact Or.inr (Or.inr h)
      · rintro (h | ⟨h, _⟩ | h)
        · exact Or.inl (Or.inr h)
        · exact Or.inl (Or.inl h.symm)
        · exact Or.inr h
    · simp only [hi, if_false]
      obtain ⟨h1, h2⟩ := ih s
      refine ⟨fun x => ?_, by simp only [List.length_cons]; omega⟩
      rw [h1]
      simp only [List.mem_cons, exists_eq_or_imp]
      constructor
      · rintro (h | h)
        · exact Or.inl h
        · exact Or.inr (Or.inr h)
      · rintro (h | ⟨h, h2⟩ | h)
        · exact Or.inl h
        · exact absurd (h ▸ h2) hi
        · exact Or.inr h

theorem originHasKey_of_mem (origin : List (String × String)) (x y : String)
    (h : (x, y) ∈ origin) : originHasKey origin x = true := by
  simp only [originHasKey, List.any_eq_true, decide_eq_true_eq]
  exact ⟨(x, y), h, rfl⟩

theorem cycleLoop_spec (g : Graph) (origin : List (String × String)) (from_ to_ : String)
    (hsymm : ∀ x y, (x, y) ∈ origin → (y, x) ∈ origin)
    (harc : ∀ x y, (x, y) ∈ origin → hasArc g x y = true) (hne : from_ ≠ to_) :
    ∀ fuel s cv D, CycleInv origin from_ to_ s cv D → s.length + unmarked origin cv ≤ fuel →
      ∃ b, cycleLoop g origin to_ fuel s cv = .returned b ∧
        (b = true ↔ OriginConn origin from_ to_) := by
  have hdone : ∀ cv D, CycleInv origin from_ to_ [] cv D → ¬ OriginConn origin from_ to_ := by
    intro cv D inv hc
    have hall : ∀ y, OriginConn origin from_ y → y ∈ D := by
      intro y hy
      induction hy with
      | refl => exact inv.from_mem
      | tail _ hbc ih =>
        rcases inv.closed _ ih _ hbc with h | h
        · simp at h
        · exact h
    rcases Relation.ReflTransGen.cases_tail hc with h | ⟨c, hc1, hc2⟩
    · exact hne h.symm
    · exact inv.notTo c (hall c hc1) hc2
  intro fuel
  induction fuel with
  | zero =>
    intro s cv D inv hfuel
    have hs : s = [] := List.length_eq_zero.mp (by omega)
    subst hs
    exact ⟨false, by simp [cycleLoop], by simpa using hdone cv D inv⟩
  | succ fuel ih =>
    intro s cv D inv hfuel
    cases s with
    | nil => exact ⟨false, by simp [cycleLoop], by simpa using hdone cv D inv⟩
    | cons curr s =>
      obtain ⟨hcurr, hkey⟩ := inv.stack curr (List.mem_cons_self _ _)
      rw [cycleLoop]
      simp only [hkey, Bool.true_eq_false, if_false]
      by_cases hto : (curr, to_) ∈ origin
      · simp only [hto, if_true]
        exact ⟨true, rfl, by simpa using Relation.ReflTransGen.tail hcurr hto⟩
      · simp only [hto, if_false]
        obtain ⟨new, h1, h2, h3, h4, h5⟩ :=
          cyclePush_spec origin curr (connectedOf g.vertices curr) s cv
        apply ih _ _ (curr :: D)
        · refine ⟨?_, ?_, ?_, ?_, List.mem_cons_of_mem _ inv.from_mem⟩
          · intro x hx y hy
            have hside : y ∈ curr :: s ∨ y ∈ D →
                y ∈ (cyclePush origin curr (connectedOf g.vertices curr) s cv).1 ∨
                  y ∈ curr :: D := by
              rintro (h | h)
              · rcases List.mem_cons.mp h with e | h
                · exact Or.inr (e ▸ List.mem_cons_self _ _)
                · exact Or.inl (h1 ▸ List.mem_append_right _ h)
              · exact Or.inr (List.mem_cons_of_mem _ h)
            rcases List.mem_cons.mp hx with e | hx
            · subst e
              obtain ⟨i, hi, hiy⟩ := mem_of_hasArc g x y (harc x y hy)
              have := h4 i hi (hiy ▸ hy)
              rw [hiy] at this
              rcases (h2 y).mp this with h | h
              · exact hside (inv.marked y h)
              · exact Or.inl (h1 ▸ List.mem_append_left _ h)
            · exact hside (inv.closed x hx y hy)
          · intro x hx
            rcases List.mem_cons.mp hx with e | hx
            · rw [e]; exact hto
            · exact inv.notTo x hx
          · intro x hx
            rw [h1] at hx
            rcases List.mem_append.mp hx with hx | hx
            · obtain ⟨a1, _⟩ := h3 x hx
              exact ⟨Relation.ReflTransGen.tail hcurr a1,
                originHasKey_of_mem origin x curr (hsymm _ _ a1)⟩
            · exact inv.stack x (List.mem_cons_of_mem _ hx)
          · intro x hx
            rcases (h2 x).mp hx with h | h
            · rcases inv.marked x h with h | h
              · rcases List.mem_cons.mp h with e | h
                · exact Or.inr (e ▸ List.mem_cons_self _ _)
                · exact Or.inl (h1 ▸ List.mem_append_right _ h)
              · exact Or.inr (List.mem_cons_of_mem _ h)
            · exact Or.inl (h1 ▸ List.mem_append_left _ h)
        · simp only [List.length_cons] at hfuel
          omega

/-- Result of `cycle`: it returns, and it returns true exactly when the endpoints of the
edge are connected through `origin`. -/
theorem cycle_spec (g : Graph) (origin : List (String × String)) (edge : Edge)
    (hsymm : ∀ x y, (x, y) ∈ origin → (y, x) ∈ origin)
    (harc : ∀ x y, (x, y) ∈ origin → hasArc g x y = true) (hne : edge.from_ ≠ edge.to_)
    (hnot : (edge.from_, edge.to_) ∉ origin) :
    ∃ b, g.cycle origin edge = .returned b ∧
      (b = true ↔ OriginConn origin edge.from_ edge.to_) := by
  unfold Graph.cycle
  obtain ⟨hs1, hs2⟩ := cycleSeed_spec origin edge.from_ (connectedOf g.vertices edge.from_) []
  apply cycleLoop_spec g origin edge.from_ edge.to_ hsymm harc hne _ _ _ [edge.from_]
  · refine ⟨?_, ?_, ?_, ?_, List.mem_singleton.mpr rfl⟩
    · intro x hx y hy
      rw [List.mem_singleton.mp hx] at hy
      left
      rw [if_pos (originHasKey_of_mem origin _ _ hy), hs1]
      right
      obtain ⟨i, hi, hiy⟩ := mem_of_hasArc g _ y (harc _ y hy)
      exact ⟨i, hi, hiy, hy⟩
    · intro x hx
      rw [List.mem_singleton.mp hx]; exact hnot
    · intro x hx
      split at hx
      · obtain h | ⟨i, _, _, hio⟩ := (hs1 x).mp hx
        · simp at h
        · exact ⟨Relation.ReflTransGen.single hio,
            originHasKey_of_mem origin x _ (hsymm _ _ hio)⟩
      · simp at hx
    · intro x hx
      exact Or.inr hx
  · have h0 : unmarked origin [edge.from_] ≤ origin.length := by
      unfold unmarked
      have := List.length_filter_le (fun x => decide (x ∉ [edge.from_])) (origin.map Prod.snd)
      simpa using this
    split
    · simp only [List.length_nil] at hs2
      omega
    · simp only [List.length_nil]
      omega

/-! ### Edge collection of `mstKruskal` -/

theorem kruskalScan_eq (curr : String) :
    ∀ (l : List (String × Int)) (V q : List String) (O : List (String × String))
      (E : List Edge),
      kruskalScan curr l V q O E =
        ((bfsEnqueue l V q).1, (bfsEnqueue l V q).2, (scanEdges curr l O E).1,
          (scanEdges curr l O E).2) := by
  intro l
  induction l with
  | nil => intro V q O E; rfl
  | cons i rest ih =>
    intro V q O E
    rw [kruskalScan, ih, bfsEnqueue, scanEdges]
    by_cases hi : i.1 ∈ V <;> simp [hi]

theorem scanEdges_spec (curr : String) :
    ∀ (l : List (String × Int)) (O : List (String × String)) (E : List Edge),
      (∀ a b, (b, a) ∈ O ↔ ∃ w, (⟨a, w, b⟩ : Edge) ∈ E) → EdgesUnique E →
      (l.map Prod.fst).Nodup → (∀ e ∈ E, e.from_ = curr → e.to_ ∉ l.map Prod.fst) →
      (∀ a b, (b, a) ∈ (scanEdges curr l O E).1 ↔
        ∃ w, (⟨a, w, b⟩ : Edge) ∈ (scanEdges curr l O E).2) ∧
      EdgesUnique (scanEdges curr l O E).2 ∧
      (∀ e ∈ (scanEdges curr l O E).2, e ∈ E ∨ ∃ i ∈ l, e = ⟨curr, i.2, i.1⟩) ∧
      (∀ e ∈ E, e ∈ (scanEdges curr l O E).2) ∧
      (∀ i ∈ l, (⟨curr, i.2, i.1⟩ : Edge) ∈ (scanEdges curr l O E).2 ∨
        ∃ w, (⟨i.1, w, curr⟩ : Edge) ∈ (scanEdges curr l O E).2) := by
  intro l
  induction l with
  | nil =>
    intro O E hO hU _ _
    exact ⟨hO, hU, fun e he => Or.inl he, fun e he => he, by simp⟩
  | cons i rest ih =>
    intro O E hO hU hnd hfresh
    rw [List.map_cons, List.nodup_cons] at hnd
    rw [scanEdges]
    by_cases hi : (curr, i.1) ∈ O
    · simp only [hi, if_true]
      obtain ⟨h1, h2, h3, h4, h5⟩ := ih O E hO hU hnd.2
        (fun e he hc hm => hfresh e he hc (List.mem_cons_of_mem _ hm))
      refine ⟨h1, h2, ?_, h4, ?_⟩
      · intro e he
        rcases h3 e he with h | ⟨j, hj, e1⟩
        · exact Or.inl h
        · exact Or.inr ⟨j, List.mem_cons_of_mem _ hj, e1⟩
      · intro j hj
        rcases List.mem_cons.mp hj with e1 | hj
        · subst e1
          obtain ⟨w, hw⟩ := (hO j.1 curr).mp hi
          exact Or.inr ⟨w, h4 _ hw⟩
        · exact h5 j hj
    · simp only [hi, if_false]
      obtain ⟨h1, h2, h3, h4, h5⟩ := ih ((i.1, curr) :: O) (E ++ [⟨curr, i.2, i.1⟩])
        (by
          intro a b
          rw [List.mem_cons, hO]
          constructor
          · rintro (h | ⟨w, hw⟩)
            · have h1 : b = i.1 ∧ a = curr := by simpa using h
              exact ⟨i.2, List.mem_append_right _
                (List.mem_singleton.mpr (by rw [h1.1, h1.2]))⟩
            · exact ⟨w, List.mem_append_left _ hw⟩
          · rintro ⟨w, hw⟩
            rcases List.mem_append.mp hw with hw | hw
            · exact Or.inr ⟨w, hw⟩
            · have h3 : a = curr ∧ w = i.2 ∧ b = i.1 := by
                simpa using List.mem_singleton.mp hw
              exact Or.inl (by rw [h3.1, h3.2.2]))
        (by
          unfold EdgesUnique at hU ⊢
          rw [List.pairwise_append]
          refine ⟨hU, List.pairwise_singleton _ _, ?_⟩
          intro e he b hb
          rw [List.mem_singleton.mp hb]
          rintro (⟨e1, e2⟩ | ⟨e1, e2⟩)
          · exact hfresh e he e1 (by rw [e2]; exact List.mem_cons_self _ _)
          · apply hi
            rw [hO]
            refine ⟨e.weight, ?_⟩
            have : e = ⟨i.1, e.weight, curr⟩ := by
              rcases e with ⟨f, w, t⟩
              simp only at e1 e2
              rw [e1, e2]
            rw [← this]
            exact he)
        hnd.2
        (by
          intro e he hc hm
          rcases List.mem_append.mp he with he | he
          · exact hfresh e he hc (List.mem_cons_of_mem _ hm)
          · rw [List.mem_singleton.mp he] at hm
            exact hnd.1 hm)
      refine ⟨h1, h2, ?_, fun e he => h4 e (List.mem_append_left _ he), ?_⟩
      · intro e he
        rcases h3 e he with h | ⟨j, hj, e1⟩
        · rcases List.mem_append.mp h with h | h
          · exact Or.inl h
          · exact Or.inr ⟨i, List.mem_cons_self _ _, List.mem_singleton.mp h⟩
        · exact Or.inr ⟨j, List.mem_cons_of_mem _ hj, e1⟩
      · intro j hj
        rcases List.mem_cons.mp hj with e1 | hj
        · subst e1
          exact Or.inl (h4 _ (List.mem_append_right _ (List.mem_singleton.mpr rfl)))
        · exact h5 j hj

theorem kruskalCollect_spec (g : Graph) (hwf : g.WF) (hd : g.directional = false)
    (start : String) :
    ∀ fuel V q O E done, CollectInv g start V q O E done →
      q.length + degreeSum g done ≤ fuel →
      ∃ E1, kruskalCollect g fuel V q O E = some E1 ∧ Collected g start E1 := by
  have hdone : ∀ V O E done, CollectInv g start V [] O E done → Collected g start E := by
    intro V O E done inv
    have hVd : ∀ x, x ∈ V ↔ x ∈ done := by
      intro x
      rw [inv.mem_visited]
      simp
    have hall : ∀ x, Reach g start x → x ∈ done := by
      intro x hx
      induction hx with
      | refl => exact (hVd _).mp inv.start_mem
      | tail _ hbc ih => exact (hVd _).mp (inv.closed _ ih _ hbc)
    exact ⟨fun e he => (inv.arcs e he).2,
      fun e he => inv.reach _ ((hVd _).mpr (inv.arcs e he).1),
      fun x hx y w hw => inv.cover x (hall x hx) y w hw, inv.unique⟩
  intro fuel
  induction fuel with
  | zero =>
    intro V q O E done inv hfuel
    have hq : q = [] := List.length_eq_zero.mp (by omega)
    subst hq
    exact ⟨E, by simp [kruskalCollect], hdone V O E done inv⟩
  | succ fuel ih =>
    intro V q O E done inv hfuel
    cases q with
    | nil => exact ⟨E, by simp [kruskalCollect], hdone V O E done inv⟩
    | cons curr q =>
      rw [kruskalCollect, kruskalScan_eq]
      simp only
      obtain ⟨new, e1, n1, n2, n3, n4, n5, n6⟩ :=
        bfsEnqueue_spec (connectedOf g.vertices curr) V q
      have hnd := inv.nodup
      have hcurr_done : curr ∉ done := by
        intro hm
        exact (List.nodup_append.mp hnd).2.2 hm (List.mem_cons_self _ _)
      have hcurrV : curr ∈ V := (inv.mem_visited curr).mpr (Or.inr (List.mem_cons_self _ _))
      obtain ⟨s1, s2, s3, s4, s5⟩ := scanEdges_spec curr (connectedOf g.vertices curr) O E
        inv.origin inv.unique (hwf.keysNodup curr)
        (fun e he hc _ => hcurr_done (hc ▸ (inv.arcs e he).1))
      have hmono : ∀ x, x ∈ V → x ∈ (bfsEnqueue (connectedOf g.vertices curr) V q).1 :=
        fun x hx => (n4 x).mpr (Or.inl hx)
      have harcs : ∀ e ∈ (scanEdges curr (connectedOf g.vertices curr) O E).2,
          e.from_ ∈ done ++ [curr] ∧ arcWeight g e.from_ e.to_ = some e.weight := by
        intro e he
        rcases s3 e he with h | ⟨i, hi, rfl⟩
        · exact ⟨List.mem_append_left _ (inv.arcs e h).1, (inv.arcs e h).2⟩
        · exact ⟨List.mem_append_right _ (List.mem_singleton.mpr rfl),
            (arcWeight_iff_mem g hwf _ _ _).mpr hi⟩
      have hdeg := degreeSum_step g done (done ++ [curr]) curr
        (by intro x; simp only [List.mem_append, List.mem_singleton]; tauto) hcurr_done
      apply ih _ _ _ _ (done ++ [curr])
      · refine ⟨?_, ?_, hmono _ inv.start_mem, ?_, ?_, s1, harcs, ?_, s2⟩
        · intro x
          rw [n4, inv.mem_visited, e1]
          simp only [List.mem_append, List.mem_cons, List.mem_singleton]
          tauto
        · rw [e1]
          have h1 : ((done ++ curr :: q) ++ new).Nodup := by
            refine List.Nodup.append hnd n1 ?_
            intro x hx hx2
            exact n2 x hx2 ((inv.mem_visited x).mpr (List.mem_append.mp hx))
          simpa [List.append_assoc] using h1
        · intro x hx
          rcases (n4 x).mp hx with h | h
          · exact inv.reach x h
          · obtain ⟨i, hi, e2⟩ := n3 x h
            exact Relation.ReflTransGen.tail (inv.reach curr hcurrV)
              (e2 ▸ hasArc_of_mem g curr i hi)
        · intro x hx y hy
          rcases List.mem_append.mp hx with hx | hx
          · exact hmono y (inv.closed x hx y hy)
          · rw [List.mem_singleton.mp hx] at hy
            obtain ⟨i, hi, e2⟩ := mem_of_hasArc g curr y hy
            exact e2 ▸ n5 i hi
        · intro x hx y w hw
          rcases List.mem_append.mp hx with hx | hx
          · rcases inv.cover x hx y w hw with h | h
            · exact Or.inl (s4 _ h)
            · exact Or.inr (s4 _ h)
          · rw [List.mem_singleton.mp hx] at hw ⊢
            rcases s5 (y, w) ((arcWeight_iff_mem g hwf _ _ _).mp hw) with h | ⟨w1, h⟩
            · exact Or.inl h
            · right
              have h2 := (harcs _ h).2
              simp only at h2
              rw [hwf.symm hd, hw] at h2
              rw [Option.some.injEq] at h2
              rw [h2]
              exact h
      · rw [e1]
        simp only [List.length_append, List.length_cons] at hfuel ⊢
        omega

/-! ### The `mstKruskal` loop -/

theorem originConn_iff (O : List (String × String)) (F : List Edge)
    (h : ∀ a b, (a, b) ∈ O ↔ Adj F a b) (x y : String) : OriginConn O x y ↔ Conn F x y := by
  constructor
  · intro hc
    exact Relation.ReflTransGen.mono (fun a b hab => (h a b).mp hab) hc
  · intro hc
    exact Relation.ReflTransGen.mono (fun a b hab => (h a b).mpr hab) hc

theorem joins_comm (a b : Edge) (h : a.joins b.from_ b.to_) : b.joins a.from_ a.to_ := by
  rcases h with ⟨h1, h2⟩ | ⟨h1, h2⟩
  · exact Or.inl ⟨h1.symm, h2.symm⟩
  · exact Or.inr ⟨h2.symm, h1.symm⟩

theorem arcWeight_of_joins (g : Graph) (hwf : g.WF) (hd : g.directional = false) (f : Edge)
    (hf : arcWeight g f.from_ f.to_ = some f.weight) (x y : String) (hj : f.joins x y) :
    arcWeight g x y = some f.weight := by
  rcases hj with ⟨e1, e2⟩ | ⟨e1, e2⟩
  · rw [← e1, ← e2]; exact hf
  · rw [hwf.symm hd, ← e1, ← e2]; exact hf

theorem kruskalLoop_spec (g : Graph) (hwf : g.WF) (hd : g.directional = false)
    (comp : List String) (hnd : comp.Nodup) (start : String)
    (hcomp : ∀ v, v ∈ comp ↔ Reach g start v) (tie : List Edge → Nat) (T0 E1 : List Edge)
    (hE : Collected g start E1) :
    ∀ fuel O Q F acc, KruskalInv g comp start T0 E1 O Q F → wrapInt acc = acc →
      Q.length ≤ fuel →
      ∃ total calls, kruskalLoop g tie fuel O Q acc = .returned (total, calls) ∧
        total = wrapInt (acc + totalWeight calls) ∧
        CountTree g comp start (F ++ calls) ∧
        totalWeight (F ++ calls) ≤ totalWeight T0 := by
  have hs : start ∈ comp := (hcomp start).mpr Relation.ReflTransGen.refl
  have hdone : ∀ O F acc, KruskalInv g comp start T0 E1 O [] F → wrapInt acc = acc →
      acc = wrapInt (acc + totalWeight []) ∧ CountTree g comp start (F ++ []) ∧
        totalWeight (F ++ []) ≤ totalWeight T0 := by
    intro O F acc inv hacc
    have hall : ∀ v, Reach g start v → Conn F start v := by
      intro v hv
      induction hv with
      | refl => exact Conn.refl _ _
      | @tail b c hb hbc ih =>
        obtain ⟨w, hw⟩ := arcWeight_of_hasArc g b c hbc
        refine ih.trans ?_
        rcases hE.cover b hb c w hw with h | h
        · rcases inv.processed _ h with h1 | h1
          · simp at h1
          · exact h1
        · rcases inv.processed _ h with h1 | h1
          · simp at h1
          · exact h1.symm
    obtain ⟨T, hT, hsub, hle⟩ := inv.tree
    have hperm := hT.perm_of_spans hnd hs hsub (fun v hv => hall v ((hcomp v).mp hv))
    refine ⟨by simp [totalWeight, hacc], ?_, ?_⟩
    · rw [List.append_nil]; exact hT.of_perm hperm
    · rw [List.append_nil, totalWeight_perm hperm]; exact hle
  intro fuel
  induction fuel with
  | zero =>
    intro O Q F acc inv hacc hfuel
    have hQ : Q = [] := List.length_eq_zero.mp (by omega)
    subst hQ
    exact ⟨acc, [], by simp [kruskalLoop, pqPop], hdone O F acc inv hacc⟩
  | succ fuel ih =>
    intro O Q F acc inv hacc hfuel
    cases hp : pqPop tie Q with
    | none =>
      have hQ := pqPop_nil tie Q hp
      subst hQ
      exact ⟨acc, [], by simp [kruskalLoop, pqPop], hdone O F acc inv hacc⟩
    | some r =>
      obtain ⟨e, Q1⟩ := r
      obtain ⟨hmem, hQ1, hmin⟩ := pqPop_some tie Q e Q1 hp
      obtain ⟨T, hT, hsub, hle⟩ := inv.tree
      have heE := inv.queue e hmem
      have harc := hE.arcs e heE
      have hne : e.from_ ≠ e.to_ := by
        intro h
        rw [← h, hwf.noSelf] at harc
        simp at harc
      have hlen1 : Q1.length + 1 = Q.length := by
        rw [hQ1, List.length_erase_of_mem hmem]
        have := List.length_pos_of_mem hmem
        omega
      have huniq := inv.unique
      unfold EdgesUnique at huniq
      have hnot : (e.from_, e.to_) ∉ O := by
        intro h
        obtain ⟨f, hf, hj⟩ := (inv.origin _ _).mp h
        exact (List.pairwise_append.mp huniq).2.2 f hf e hmem hj
      obtain ⟨b, hb1, hb2⟩ := cycle_spec g O e
        (fun x y h => by
          obtain ⟨f, hf, hj⟩ := (inv.origin _ _).mp h
          exact (inv.origin _ _).mpr ⟨f, hf, f.joins_symm _ _ hj⟩)
        (fun x y h => by
          obtain ⟨f, hf, hj⟩ := (inv.origin _ _).mp h
          exact hasArc_of_arcWeight g x y _
            (arcWeight_of_joins g hwf hd f (hT.arcs f (hsub.subset hf)) x y hj))
        hne hnot
      rw [originConn_iff O F inv.origin] at hb2
      rw [kruskalLoop, hp]
      simp only [hb1]
      cases b with
      | true =>
        have hconn : Conn F e.from_ e.to_ := hb2.mp rfl
        simp only
        apply ih O Q1 F acc _ hacc (by omega)
        refine ⟨inv.origin, ?_, ?_, ?_, inv.tree⟩
        · intro q hq
          exact inv.queue q (List.mem_of_mem_erase (hQ1 ▸ hq))
        · unfold EdgesUnique
          rw [hQ1]
          exact List.Pairwise.sublist
            (List.Sublist.append (List.Sublist.refl F) (List.erase_sublist e Q)) huniq
        · intro q hq
          rcases inv.processed q hq with h | h
          · by_cases hqe : q = e
            · rw [hqe]; exact Or.inr hconn
            · exact Or.inl (hQ1 ▸ (List.mem_erase_of_ne hqe).mpr h)
          · exact Or.inr h
      | false =>
        have hnconn : ¬ Conn F e.from_ e.to_ := fun h => by simpa using hb2.mpr h
        have hfromc : e.from_ ∈ comp := (hcomp _).mpr (hE.inside e heE)
        have htoc : e.to_ ∈ comp :=
          (hcomp _).mpr (Relation.ReflTransGen.tail (hE.inside e heE)
            (hasArc_of_arcWeight g _ _ _ harc))
        obtain ⟨T1, hT1, hsub1, hle1⟩ := hT.exchange hnd hs hsub e harc ⟨hfromc, htoc⟩ hnconn
          (by
            intro f hf x y hj hx hy
            have hxy : arcWeight g x y = some f.weight :=
              arcWeight_of_joins g hwf hd f (hT.arcs f hf) x y hj
            have hxc : x ∈ comp := by
              obtain ⟨a1, a2⟩ := hT.inside f hf
              rcases hj with ⟨e1, _⟩ | ⟨_, e2⟩
              · exact e1 ▸ a1
              · exact e2 ▸ a2
            have hnxy : ¬ Conn F x y := fun h => hy (hx.trans h)
            rcases hE.cover x ((hcomp x).mp hxc) y f.weight hxy with h | h
            · rcases inv.processed _ h with h1 | h1
              · exact hmin ⟨x, f.weight, y⟩ h1
              · exact absurd h1 hnxy
            · rcases inv.processed _ h with h1 | h1
              · exact hmin ⟨y, f.weight, x⟩ h1
              · exact absurd h1.symm hnxy)
        obtain ⟨total, calls, h1, h2, h3, h4⟩ := ih
          ((e.from_, e.to_) :: (e.to_, e.from_) :: O) Q1 (F ++ [e])
          (wrapInt (acc + e.weight))
          (by
            refine ⟨?_, ?_, ?_, ?_, ?_⟩
            · intro a c
              rw [List.mem_cons, List.mem_cons, inv.origin]
              constructor
              · rintro (h | h | ⟨f, hf, hj⟩)
                · have h1 : a = e.from_ ∧ c = e.to_ := by simpa using h
                  exact ⟨e, List.mem_append_right _ (List.mem_singleton.mpr rfl),
                    Or.inl ⟨h1.1.symm, h1.2.symm⟩⟩
                · have h1 : a = e.to_ ∧ c = e.from_ := by simpa using h
                  exact ⟨e, List.mem_append_right _ (List.mem_singleton.mpr rfl),
                    Or.inr ⟨h1.2.symm, h1.1.symm⟩⟩
                · exact ⟨f, List.mem_append_left _ hf, hj⟩
              · rintro ⟨f, hf, hj⟩
                rcases List.mem_append.mp hf with hf | hf
                · exact Or.inr (Or.inr ⟨f, hf, hj⟩)
                · rw [List.mem_singleton.mp hf] at hj
                  rcases hj with ⟨e1, e2⟩ | ⟨e1, e2⟩
                  · exact Or.inl (by rw [e1, e2])
                  · exact Or.inr (Or.inl (by rw [e1, e2]))
            · intro q hq
              exact inv.queue q (List.mem_of_mem_erase (hQ1 ▸ hq))
            · unfold EdgesUnique
              have hperm : ((F ++ [e]) ++ Q1).Perm (F ++ Q) := by
                rw [hQ1, List.append_assoc]
                exact List.Perm.append_left F (List.perm_cons_erase hmem).symm
              exact (List.Perm.pairwise_iff
                (fun {a b} hab hba => hab (joins_comm b a hba)) hperm).mpr huniq
            · intro q hq
              have hmono : ∀ a c, Conn F a c → Conn (F ++ [e]) a c :=
                fun a c h => Conn.mono (fun t ht => List.mem_append_left _ ht) h
              rcases inv.processed q hq with h | h
              · by_cases hqe : q = e
                · rw [hqe]
                  exact Or.inr (Conn.edge
                    (List.mem_append_right _ (List.mem_singleton.mpr rfl)) e.joins_self)
                · exact Or.inl (hQ1 ▸ (List.mem_erase_of_ne hqe).mpr h)
              · exact Or.inr (hmono _ _ h)
            · exact ⟨T1, hT1, (List.perm_append_singleton e F).subperm.trans hsub1,
                le_trans hle1 hle⟩)
          (wrapInt_idem _) (by omega)
        simp only [h1]
        refine ⟨total, e :: calls, rfl, ?_, ?_, ?_⟩
        · rw [h2, wrapInt_add_left, totalWeight_cons, add_assoc]
        · simpa using h3
        · simpa using h4

/-! ### Minimum spanning trees: results of `mstPrim` and `mstKruskal` -/

theorem exists_countTree (g : Graph) (hwf : g.WF) (comp : List String) (hnd : comp.Nodup)
    (start : String) (hcomp : ∀ v, v ∈ comp ↔ Reach g start v) :
    ∃ T, CountTree g comp start T := by
  have hs : start ∈ comp := (hcomp start).mpr Relation.ReflTransGen.refl
  have hmem : ∀ e ∈ compEdges g comp,
      e.from_ ∈ comp ∧ (e.to_, e.weight) ∈ connectedOf g.vertices e.from_ := by
    intro e he
    obtain ⟨a, ha, hea⟩ := List.mem_flatMap.mp he
    obtain ⟨p, hp, rfl⟩ := (mem_outEdges _ _ _).mp hea
    exact ⟨ha, hp⟩
  obtain ⟨U, hU, hlen, hUc⟩ := exists_spanning_sub comp hnd start hs (compEdges g comp)
    (by
      intro e he
      obtain ⟨h1, h2⟩ := hmem e he
      exact ⟨h1, (hcomp _).mpr (Relation.ReflTransGen.tail ((hcomp _).mp h1)
        (hasArc_of_mem g _ _ h2))⟩)
    (by
      intro v hv
      have hr := (hcomp v).mp hv
      induction hr with
      | refl => exact Conn.refl _ _
      | @tail b c hb hbc ih =>
        obtain ⟨p, hp, hpc⟩ := mem_of_hasArc g b c hbc
        refine (ih ((hcomp b).mpr hb)).trans (Conn.edge (e := ⟨b, p.2, p.1⟩) ?_ ?_)
        · exact List.mem_flatMap.mpr ⟨b, (hcomp b).mpr hb,
            (mem_outEdges _ _ _).mpr ⟨p, hp, rfl⟩⟩
        · exact Or.inl ⟨rfl, hpc⟩)
  refine ⟨U, ?_, ?_, hUc, hlen⟩
  · intro e he
    exact (arcWeight_iff_mem g hwf _ _ _).mpr (hmem e (hU.subset he)).2
  · intro e he
    obtain ⟨h1, h2⟩ := hmem e (hU.subset he)
    exact ⟨h1, (hcomp _).mpr (Relation.ReflTransGen.tail ((hcomp _).mp h1)
      (hasArc_of_mem g _ _ h2))⟩

/-- Result of `mstPrim` on an undirected graph from a contained start: the call returns,
the accepted edges form a spanning tree of the component of start that no spanning tree
undercuts, and the returned value is their total weight in 32-bit arithmetic. -/
theorem mstPrim_minimum (g : Graph) (hwf : g.WF) (hd : g.directional = false)
    (tie : List Edge → Nat) (start : String) (h : g.contains start = true) :
    ∃ total calls, g.mstPrim tie start = some (total, calls) ∧
      IsSpanningTree g start calls ∧ total = wrapInt (totalWeight calls) ∧
      ∀ T, IsSpanningTree g start T → totalWeight calls ≤ totalWeight T := by
  have hc : countLabel g.vertices start = true := h
  obtain ⟨rest, _, hnd, hcomp, _⟩ := dfs_result g start h
  have hguard : ¬ (g.directional = true ∨ g.vertices.isEmpty = true ∨
      countLabel g.vertices start = false) := by
    rintro (h1 | h1 | h1)
    · rw [hd] at h1; simp at h1
    · have : g.vertices = [] := by simpa using h1
      rw [this] at hc
      simp [countLabel, findVertex] at hc
    · rw [hc] at h1; simp at h1
  have hinv : ∀ T0, CountTree g (start :: rest) start T0 →
      PrimInv g (start :: rest) start T0 [start]
        (outEdges start (connectedOf g.vertices start)) [] := by
    intro T0 hT0
    refine ⟨by simp, ?_, ?_, by simp, ?_, ?_, ⟨T0, hT0, List.nil_subperm, le_refl _⟩⟩
    · intro v hv
      rw [List.mem_singleton.mp hv]; exact List.mem_cons_self _ _
    · intro v hv
      rw [List.mem_singleton.mp hv]; exact Conn.refl _ _
    · intro q hq
      obtain ⟨p, hp, rfl⟩ := (mem_outEdges _ _ _).mp hq
      exact ⟨by simp, (arcWeight_iff_mem g hwf _ _ _).mpr hp⟩
    · intro x hx y w hw _
      rw [List.mem_singleton.mp hx] at hw ⊢
      exact (mem_outEdges _ _ _).mpr ⟨(y, w), (arcWeight_iff_mem g hwf _ _ _).mp hw, rfl⟩
  have hfuel : (outEdges start (connectedOf g.vertices start)).length +
      degreeSum g [start] ≤ degreeSum g [] := by
    have := degreeSum_step g [] [start] start (by simp) (by simp)
    simp only [outEdges, List.length_map]
    omega
  have hrun : ∀ T0, CountTree g (start :: rest) start T0 →
      ∃ total calls, g.mstPrim tie start = some (total, calls) ∧
        total = wrapInt (totalWeight calls) ∧ CountTree g (start :: rest) start calls ∧
        totalWeight calls ≤ totalWeight T0 := by
    intro T0 hT0
    obtain ⟨total, calls, h1, h2, h3, h4⟩ := primLoop_spec g hwf hd (start :: rest) hnd start
      hcomp tie T0 _ _ _ _ 0 (hinv T0 hT0) (by decide) hfuel
    refine ⟨total, calls, ?_, by simpa using h2, by simpa using h3, by simpa using h4⟩
    unfold Graph.mstPrim
    rw [if_neg hguard]
    exact h1
  obtain ⟨T0, hT0⟩ := exists_countTree g hwf (start :: rest) hnd start hcomp
  obtain ⟨total, calls, h1, h2, h3, _⟩ := hrun T0 hT0
  refine ⟨total, calls, h1, h3.isSpanningTree hnd hcomp, h2, fun T hT => ?_⟩
  obtain ⟨total1, calls1, h5, _, _, h8⟩ := hrun T (hT.countTree hnd hcomp)
  rw [h1] at h5
  simp only [Option.some.injEq, Prod.mk.injEq] at h5
  rw [h5.2]
  exact h8

/-- Result of `mstKruskal` on an undirected graph from a contained start: the call returns,
the accepted edges form a spanning tree of the component of start that no spanning tree
undercuts, and the returned value is their total weight in 32-bit arithmetic. -/
theorem mstKruskal_minimum (g : Graph) (hwf : g.WF) (hd : g.directional = false)
    (tie : List Edge → Nat) (start : String) (h : g.contains start = true) :
    ∃ total calls, g.mstKruskal tie start = .returned (total, calls) ∧
      IsSpanningTree g start calls ∧ total = wrapInt (totalWeight calls) ∧
      ∀ T, IsSpanningTree g start T → totalWeight calls ≤ totalWeight T := by
  have hc : countLabel g.vertices start = true := h
  obtain ⟨rest, _, hnd, hcomp, _⟩ := dfs_result g start h
  have hguard : ¬ (g.directional = true ∨ g.vertices.isEmpty = true ∨
      countLabel g.vertices start = false) := by
    rintro (h1 | h1 | h1)
    · rw [hd] at h1; simp at h1
    · have : g.vertices = [] := by simpa using h1
      rw [this] at hc
      simp [countLabel, findVertex] at hc
    · rw [hc] at h1; simp at h1
  obtain ⟨E1, hE1, hcol⟩ := kruskalCollect_spec g hwf hd start (degreeSum g [] + 1)
    [start] [start] [] [] []
    (by
      refine ⟨by simp, by simp, by simp, ?_, by simp, by simp, by simp, by simp, ?_⟩
      · intro x hx
        rw [List.mem_singleton.mp hx]; exact Relation.ReflTransGen.refl
      · exact List.Pairwise.nil)
    (by simp; omega)
  have hrun : ∀ T0, CountTree g (start :: rest) start T0 →
      ∃ total calls, g.mstKruskal tie start = .returned (total, calls) ∧
        total = wrapInt (totalWeight calls) ∧ CountTree g (start :: rest) start calls ∧
        totalWeight calls ≤ totalWeight T0 := by
    intro T0 hT0
    obtain ⟨total, calls, h1, h2, h3, h4⟩ := kruskalLoop_spec g hwf hd (start :: rest) hnd
      start hcomp tie T0 E1 hcol E1.length [] E1 [] 0
      ⟨by simp [Adj], fun e he => he, by simpa using hcol.unique, fun e he => Or.inl he,
        ⟨T0, hT0, List.nil_subperm, le_refl _⟩⟩
      (by decide) (le_refl _)
    refine ⟨total, calls, ?_, by simpa using h2, by simpa using h3, by simpa using h4⟩
    unfold Graph.mstKruskal
    rw [if_neg hguard, hE1]
    exact h1
  obtain ⟨T0, hT0⟩ := exists_countTree g hwf (start :: rest) hnd start hcomp
  obtain ⟨total, calls, h1, h2, h3, _⟩ := hrun T0 hT0
  refine ⟨total, calls, h1, h3.isSpanningTree hnd hcomp, h2, fun T hT => ?_⟩
  obtain ⟨total1, calls1, h5, _, _, h8⟩ := hrun T (hT.countTree hnd hcomp)
  rw [h1] at h5
  simp only [Outcome.returned.injEq, Prod.mk.injEq] at h5
  rw [h5.2]
  exact h8

theorem reach_symm (g : Graph) (hwf : g.WF) (hd : g.directional = false) {a b : String}
    (h : Reach g a b) : Reach g b a := by
  induction h with
  | refl => exact Relation.ReflTransGen.refl
  | tail _ hbc ih =>
    refine Relation.ReflTransGen.head ?_ ih
    rw [hasArc_eq_isSome, hwf.symm hd, ← hasArc_eq_isSome]
    exact hbc

theorem IsSpanningTree.change_root {g : Graph} {s t : String} {T : List Edge}
    (hT : IsSpanningTree g s T) (hst : Reach g s t) (hts : Reach g t s) :
    IsSpanningTree g t T :=
  ⟨hT.arcs, fun e he => hts.trans (hT.inside e he),
    fun v hv => (hT.spans t hst).symm.trans (hT.spans v (hst.trans hv)), hT.acyclic⟩

/-! ### C9: `mstPrim` returns the minimum total weight -/

/-- C9 as stated fails: in the undirected graph with the edges A-B of weight 2147483647 and
B-C of weight 1, the `int` total of `mstPrim` wraps around: the call returns -2147483648,
while every spanning tree of the component of `A` has total weight at least 2147483648. -/
theorem mstPrim_overflow_counterexample :
    graphBig.contains "A" = true ∧
    graphBig.mstPrim (fun _ => 0) "A" =
      some (-2147483648, [⟨"A", 2147483647, "B"⟩, ⟨"B", 1, "C"⟩]) ∧
    ∀ T, IsSpanningTree graphBig "A" T → 2147483648 ≤ totalWeight T := by
  have h0 : graphBig.mstPrim (fun _ => 0) "A" =
      some (-2147483648, [⟨"A", 2147483647, "B"⟩, ⟨"B", 1, "C"⟩]) := by decide
  refine ⟨by decide, h0, fun T hT => ?_⟩
  obtain ⟨total, calls, h1, _, _, h4⟩ := mstPrim_minimum graphBig (WF_build _ _ _)
    (directional_build _ _ _) (fun _ => 0) "A" (by decide)
  rw [h0] at h1
  simp only [Option.some.injEq, Prod.mk.injEq] at h1
  have := h4 T hT
  rw [← h1.2] at this
  exact this

/-- C9, amended: for every undirected graph built by add / connect / disconnect, every
contained start label and every choice among equal-weight edges of the priority queue,
`mstPrim` returns; the edges it passes to the visitor form a spanning tree of the connected
component of start whose total weight is minimum among all spanning trees of that
component; and the returned value is that minimum computed in 32-bit arithmetic, hence
the minimum itself whenever it is a value of `int`. -/
theorem mstPrim_minimum_weight (addr : String → Nat) (ops : List Op) (tie : List Edge → Nat)
    (start : String) (h : (build addr false ops).contains start = true) :
    ∃ total calls, (build addr false ops).mstPrim tie start = some (total, calls) ∧
      IsSpanningTree (build addr false ops) start calls ∧
      (∀ T, IsSpanningTree (build addr false ops) start T →
        totalWeight calls ≤ totalWeight T) ∧
      total = wrapInt (totalWeight calls) ∧
      (-2147483648 ≤ totalWeight calls → totalWeight calls ≤ 2147483647 →
        total = totalWeight calls) := by
  obtain ⟨total, calls, h1, h2, h3, h4⟩ := mstPrim_minimum (build addr false ops)
    (WF_build _ _ _) (directional_build _ _ _) tie start h
  exact ⟨total, calls, h1, h2, h4, h3, fun hlo hhi => by rw [h3, wrapInt_eq _ hlo hhi]⟩

theorem mstPrim_minimum_weight_witness :
    (build graph0Addr false graph0Ops).contains "A" = true ∧
    ∃ total calls,
      (build graph0Addr false graph0Ops).mstPrim (fun _ => 0) "A" = some (total, calls) ∧
      IsSpanningTree (build graph0Addr false graph0Ops) "A" calls ∧
      (∀ T, IsSpanningTree (build graph0Addr false graph0Ops) "A" T →
        totalWeight calls ≤ totalWeight T) ∧
      total = wrapInt (totalWeight calls) ∧
      (-2147483648 ≤ totalWeight calls → totalWeight calls ≤ 2147483647 →
        total = totalWeight calls) :=
  ⟨by decide, mstPrim_minimum_weight graph0Addr graph0Ops (fun _ => 0) "A" (by decide)⟩

/-! ### C10: `mstPrim` and `mstKruskal` return the same total weight -/

/-- C10: on a connected undirected graph built by add / connect / disconnect, for any two
contained start labels `s` and `t` and any choices among equal-weight edges, `mstPrim(s)`
and `mstKruskal(t)` both return, and they return the same total weight. -/
theorem mstPrim_mstKruskal_same_weight (addr : String → Nat) (ops : List Op)
    (tieP tieK : List Edge → Nat) (s t : String)
    (hs : (build addr false ops).contains s = true)
    (ht : (build addr false ops).contains t = true)
    (hconn : ∀ u v, (build addr false ops).contains u = true →
      (build addr false ops).contains v = true → Reach (build addr false ops) u v) :
    ∃ total callsP callsK,
      (build addr false ops).mstPrim tieP s = some (total, callsP) ∧
      (build addr false ops).mstKruskal tieK t = .returned (total, callsK) := by
  have hwf := WF_build addr false ops
  have hd := directional_build addr false ops
  obtain ⟨totalP, callsP, p1, p2, p3, p4⟩ :=
    mstPrim_minimum (build addr false ops) hwf hd tieP s hs
  obtain ⟨totalK, callsK, k1, k2, k3, k4⟩ :=
    mstKruskal_minimum (build addr false ops) hwf hd tieK t ht
  have hst := hconn s t hs ht
  have hts := hconn t s ht hs
  have h1 : totalWeight callsP ≤ totalWeight callsK := p4 _ (k2.change_root hts hst)
  have h2 : totalWeight callsK ≤ totalWeight callsP := k4 _ (p2.change_root hst hts)
  have h3 : totalP = totalK := by
    rw [p3, k3, le_antisymm h1 h2]
  exact ⟨totalP, callsP, callsK, p1, h3 ▸ k1⟩

theorem mstPrim_mstKruskal_same_weight_witness :
    (build graph0Addr false graph0Ops).contains "A" = true ∧
    (build graph0Addr false graph0Ops).contains "C" = true ∧
    (∀ u v, (build graph0Addr false graph0Ops).contains u = true →
      (build graph0Addr false graph0Ops).contains v = true →
      Reach (build graph0Addr false graph0Ops) u v) ∧
    ∃ total callsP callsK,
      (build graph0Addr false graph0Ops).mstPrim (fun _ => 0) "A" = some (total, callsP) ∧
      (build graph0Addr false graph0Ops).mstKruskal (fun _ => 0) "C" =
        .returned (total, callsK) := by
  have hlab : ∀ u, (build graph0Addr false graph0Ops).contains u = true →
      u = "A" ∨ u = "B" ∨ u = "C" := by
    intro u hu
    have hv : (build graph0Addr false graph0Ops).vertices.map (fun v => v.val) =
        ["A", "B", "C"] := by decide
    have := (countLabel_iff _ _).mp hu
    rw [hv] at this
    simpa using this
  have hAB : Reach (build graph0Addr false graph0Ops) "A" "B" :=
    Relation.ReflTransGen.single (by decide)
  have hAC : Reach (build graph0Addr false graph0Ops) "A" "C" :=
    Relation.ReflTransGen.single (by decide)
  have hfrom : ∀ u, (build graph0Addr false graph0Ops).contains u = true →
      Reach (build graph0Addr false graph0Ops) "A" u := by
    intro u hu
    rcases hlab u hu with h | h | h <;> subst h
    · exact Relation.ReflTransGen.refl
    · exact hAB
    · exact hAC
  have hconn : ∀ u v, (build graph0Addr false graph0Ops).contains u = true →
      (build graph0Addr false graph0Ops).contains v = true →
      Reach (build graph0Addr false graph0Ops) u v :=
    fun u v hu hv => (reach_symm _ (WF_build _ _ _) (directional_build _ _ _)
      (hfrom u hu)).trans (hfrom v hv)
  exact ⟨by decide, by decide, hconn,
    mstPrim_mstKruskal_same_weight graph0Addr graph0Ops (fun _ => 0) (fun _ => 0) "A" "C"
      (by decide) (by decide) hconn⟩

/-! ### C11: `mstKruskal` accepts a spanning tree of the component -/

/-- C11 (counterexample): on the undirected graph A-B (2147483647), B-C (1) `mstKruskal("A")`
passes both edges to the visitor, their weights sum to 2147483648, and the value returned
is -2147483648. -/
theorem mstKruskal_sum_counterexample :
    graphBig.contains "A" = true ∧
    graphBig.mstKruskal (fun _ => 0) "A" =
      .returned (-2147483648, [⟨"B", 1, "C"⟩, ⟨"A", 2147483647, "B"⟩]) ∧
    totalWeight [⟨"B", 1, "C"⟩, ⟨"A", 2147483647, "B"⟩] = 2147483648 := by
  refine ⟨by decide, by decide, by decide⟩

/-- C11, amended: for every undirected graph built by add / connect / disconnect, every
contained start label and every choice among equal-weight edges of the priority queue,
`mstKruskal` returns; the edges it passes to the visitor are stored arcs with their stored
weights, contain no cycle, and connect every vertex of the connected component of start;
their number is the number of vertices of the component minus one; and the returned value
is the sum of their weights computed in 32-bit arithmetic, hence the sum itself whenever
it is a value of `int`. -/
theorem mstKruskal_spanning_tree (addr : String → Nat) (ops : List Op) (tie : List Edge → Nat)
    (start : String) (h : (build addr false ops).contains start = true) :
    ∃ total calls, (build addr false ops).mstKruskal tie start = .returned (total, calls) ∧
      (∀ e ∈ calls, arcWeight (build addr false ops) e.from_ e.to_ = some e.weight) ∧
      (∀ e ∈ calls, ¬ Conn (calls.erase e) e.from_ e.to_) ∧
      (∀ v, Reach (build addr false ops) start v → Conn calls start v) ∧
      (∀ comp : List String, comp.Nodup →
        (∀ v, v ∈ comp ↔ Reach (build addr false ops) start v) →
        calls.length + 1 = comp.length) ∧
      total = wrapInt (totalWeight calls) ∧
      (-2147483648 ≤ totalWeight calls → totalWeight calls ≤ 2147483647 →
        total = totalWeight calls) := by
  obtain ⟨total, calls, h1, h2, h3, _⟩ := mstKruskal_minimum (build addr false ops)
    (WF_build _ _ _) (directional_build _ _ _) tie start h
  refine ⟨total, calls, h1, h2.arcs, h2.acyclic, h2.spans,
    fun comp hnd hcomp => (h2.countTree hnd hcomp).count, h3, fun hlo hhi => ?_⟩
  rw [h3]
  unfold wrapInt
  omega

theorem mstKruskal_spanning_tree_witness :
    (build graph0Addr false graph0Ops).contains "A" = true ∧
    ∃ total calls,
      (build graph0Addr false graph0Ops).mstKruskal (fun _ => 0) "A" =
        .returned (total, calls) ∧
      (∀ e ∈ calls,
        arcWeight (build graph0Addr false graph0Ops) e.from_ e.to_ = some e.weight) ∧
      (∀ e ∈ calls, ¬ Conn (calls.erase e) e.from_ e.to_) ∧
      (∀ v, Reach (build graph0Addr false graph0Ops) "A" v → Conn calls "A" v) ∧
      (∀ comp : List String, comp.Nodup →
        (∀ v, v ∈ comp ↔ Reach (build graph0Addr false graph0Ops) "A" v) →
        calls.length + 1 = comp.length) ∧
      total = wrapInt (totalWeight calls) ∧
      (-2147483648 ≤ totalWeight calls → totalWeight calls ≤ 2147483647 →
        total = totalWeight calls) :=
  ⟨by decide, mstKruskal_spanning_tree graph0Addr graph0Ops (fun _ => 0) "A" (by decide)⟩

/-! ### C12: guards of `mstPrim` and `mstKruskal` -/

/-- C12: if the graph is directional, or has no vertices, or does not contain the start
label, then `mstPrim` and `mstKruskal` each return -1 and make no visitor call. -/
theorem mst_rejects (g : Graph) (tieP tieK : List Edge → Nat) (start : String)
    (h : g.directional = true ∨ g.vertices = [] ∨ g.contains start = false) :
    g.mstPrim tieP start = some (-1, []) ∧ g.mstKruskal tieK start = .returned (-1, []) := by
  have hguard : g.directional = true ∨ g.vertices.isEmpty = true ∨
      countLabel g.vertices start = false := by
    rcases h with h | h | h
    · exact Or.inl h
    · exact Or.inr (Or.inl (by rw [h]; rfl))
    · exact Or.inr (Or.inr h)
  constructor
  · unfold Graph.mstPrim
    rw [if_pos hguard]
  · unfold Graph.mstKruskal
    rw [if_pos hguard]

theorem mst_rejects_witness :
    (graph0.directional = true ∨ graph0.vertices = [] ∨ graph0.contains "A" = false) ∧
    (graph0.mstPrim (fun _ => 0) "A" = some (-1, []) ∧
      graph0.mstKruskal (fun _ => 0) "A" = .returned (-1, [])) :=
  ⟨by decide, mst_rejects graph0 (fun _ => 0) (fun _ => 0) "A" (by decide)⟩

/-! ### C14: arcs of an undirected graph are mirrored -/

/-- C14: in every undirected graph built from the empty graph by add / connect / disconnect
calls, the arc `a -> b` is stored with weight `w` if and only if the arc `b -> a` is stored
with weight `w`. -/
theorem undirected_arcs_mirrored (addr : String → Nat) (ops : List Op) (a b : String)
    (w : Int) :
    arcWeight (build addr false ops) a b = some w ↔
      arcWeight (build addr false ops) b a = some w := by
  rw [(WF_build addr false ops).symm (directional_build _ _ _) a b]

/-! ### C19: the cycle test of `mstKruskal` -/

/-- C19: for every relation `origin` of accepted edges that is symmetric and holds only
stored arcs of the graph, and every candidate edge with `from != to` that is not in
`origin`, `cycle(origin, edge)` returns (it does not fail on a missing `origin` entry), and
it returns true if and only if `from` and `to` are connected through accepted edges. -/
theorem cycle_iff_accepted_path (g : Graph) (origin : List (String × String)) (edge : Edge)
    (hsymm : ∀ x y, (x, y) ∈ origin → (y, x) ∈ origin)
    (harc : ∀ x y, (x, y) ∈ origin → hasArc g x y = true) (hne : edge.from_ ≠ edge.to_)
    (hnot : (edge.from_, edge.to_) ∉ origin) :
    ∃ b, g.cycle origin edge = .returned b ∧
      (b = true ↔ OriginConn origin edge.from_ edge.to_) :=
  cycle_spec g origin edge hsymm harc hne hnot

theorem cycle_iff_accepted_path_witness :
    (∀ x y, (x, y) ∈ [("A", "B"), ("B", "A")] → (y, x) ∈ [("A", "B"), ("B", "A")]) ∧
    (∀ x y, (x, y) ∈ [("A", "B"), ("B", "A")] →
      hasArc (build graph0Addr false graph0Ops) x y = true) ∧
    (⟨"B", 3, "C"⟩ : Edge).from_ ≠ (⟨"B", 3, "C"⟩ : Edge).to_ ∧
    ((⟨"B", 3, "C"⟩ : Edge).from_, (⟨"B", 3, "C"⟩ : Edge).to_) ∉ [("A", "B"), ("B", "A")] ∧
    ∃ b, (build graph0Addr false graph0Ops).cycle [("A", "B"), ("B", "A")] ⟨"B", 3, "C"⟩ =
        .returned b ∧
      (b = true ↔ OriginConn [("A", "B"), ("B", "A")] (⟨"B", 3, "C"⟩ : Edge).from_
        (⟨"B", 3, "C"⟩ : Edge).to_) := by
  have h1 : ∀ x y, (x, y) ∈ [("A", "B"), ("B", "A")] → (y, x) ∈ [("A", "B"), ("B", "A")] := by
    intro x y h
    simp only [List.mem_cons, Prod.mk.injEq, List.mem_nil_iff, or_false] at h
    rcases h with ⟨rfl, rfl⟩ | ⟨rfl, rfl⟩ <;> decide
  have h2 : ∀ x y, (x, y) ∈ [("A", "B"), ("B", "A")] →
      hasArc (build graph0Addr false graph0Ops) x y = true := by
    intro x y h
    simp only [List.mem_cons, Prod.mk.injEq, List.mem_nil_iff, or_false] at h
    rcases h with ⟨rfl, rfl⟩ | ⟨rfl, rfl⟩ <;> decide
  exact ⟨h1, h2, by decide, by decide,
    cycle_iff_accepted_path (build graph0Addr false graph0Ops) [("A", "B"), ("B", "A")]
      ⟨"B", 3, "C"⟩ h1 h2 (by decide) (by decide)⟩

/-! ### Successful and rejected calls of `connect` -/

theorem connect_true (addr : String → Nat) (g : Graph) (a b : String) (w : Int)
    (h : (g.connect addr a b w).1 = true) :
    a ≠ b ∧ connCount (connectedOf g.vertices a) b = false ∧
    (g.connect addr a b w).2.vertices =
      (if g.directional then
        updateConnected (ensureVertex (ensureVertex g.vertices a) b) a
          (fun c => connAssign addr c b w)
       else
        updateConnected
          (updateConnected (ensureVertex (ensureVertex g.vertices a) b) a
            (fun c => connAssign addr c b w)) b (fun c => connAssign addr c a w)) := by
  unfold Graph.connect at h ⊢
  by_cases hab : a = b
  · rw [if_pos hab] at h; simp at h
  · rw [if_neg hab] at h ⊢
    simp only [connectedOf_ensureVertex] at h ⊢
    by_cases hc : connCount (connectedOf g.vertices a) b = true
    · rw [if_pos hc] at h; simp at h
    · rw [if_neg hc]
      refine ⟨hab, by simpa using hc, ?_⟩
      by_cases hd : g.directional = true
      · simp [hd]
      · simp [hd]

theorem countLabel_connect (addr : String → Nat) (g : Graph) (a b : String) (w : Int)
    (x : String) (h : (g.connect addr a b w).1 = true) :
    countLabel (g.connect addr a b w).2.vertices x = true ↔
      (x = a ∨ x = b ∨ countLabel g.vertices x = true) := by
  obtain ⟨_, _, hv⟩ := connect_true addr g a b w h
  rw [hv]
  have key : countLabel (ensureVertex (ensureVertex g.vertices a) b) x = true ↔
      (x = a ∨ x = b ∨ countLabel g.vertices x = true) := by
    constructor
    · intro hx
      by_cases hxa : x = a
      · exact Or.inl hxa
      by_cases hxb : x = b
      · exact Or.inr (Or.inl hxb)
      refine Or.inr (Or.inr ?_)
      have e1 : ∀ vs l, x ≠ l → countLabel (ensureVertex vs l) x = countLabel vs x := by
        intro vs l hne
        unfold ensureVertex
        split
        · rfl
        · unfold countLabel
          rw [findVertex_insertVertex_ne]
          exact fun e => hne e.symm
      rw [e1 _ _ hxb, e1 _ _ hxa] at hx
      exact hx
    · rintro (rfl | rfl | hx)
      · exact countLabel_ensureVertex_of _ _ _ (countLabel_ensureVertex_self _ _)
      · exact countLabel_ensureVertex_self _ _
      · exact countLabel_ensureVertex_of _ _ _ (countLabel_ensureVertex_of _ _ _ hx)
  split <;> simp only [countLabel_updateConnected] <;> exact key

theorem length_connInsert (addr : String → Nat) (c : List (String × Int)) (b : String)
    (w : Int) : (connInsert addr b w c).length = c.length + 1 := by
  have := (keys_connInsert_perm addr c b w).length_eq
  simpa using this

/-! ### C17: `connect` and `vertexDegree` -/

/-- C17 (counterexample): in the empty directed graph `connect("A", "B", 1)` returns true,
`vertexDegree("A")` is -1 before the call and 1 after it, not -1 + 1. -/
theorem connect_degree_counterexample :
    (Graph.empty true).directional = true ∧
    ((Graph.empty true).connect graph0Addr "A" "B" 1).1 = true ∧
    (Graph.empty true).vertexDegree "A" = -1 ∧
    ((Graph.empty true).connect graph0Addr "A" "B" 1).2.vertexDegree "A" = 1 ∧
    ((Graph.empty true).connect graph0Addr "A" "B" 1).2.vertexDegree "A" ≠
      (Graph.empty true).vertexDegree "A" + 1 := by
  decide

/-- C17, amended: for every graph, directed ones in particular, and every call
`connect(a, b, w)` that returns true (hence with `a != b`): if `a` was contained before the call, `vertexDegree(a)` after
the call is `vertexDegree(a)` before the call plus 1; if `a` was not contained,
`vertexDegree(a)` is -1 before the call and 1 after it. -/
theorem connect_degree (addr : String → Nat) (g : Graph) (a b : String) (w : Int)
    (h : (g.connect addr a b w).1 = true) :
    (g.contains a = true →
      (g.connect addr a b w).2.vertexDegree a = g.vertexDegree a + 1) ∧
    (g.contains a = false →
      g.vertexDegree a = -1 ∧ (g.connect addr a b w).2.vertexDegree a = 1) := by
  obtain ⟨_, hc, _⟩ := connect_true addr g a b w h
  have hafter : (g.connect addr a b w).2.vertexDegree a =
      ((connectedOf g.vertices a).length : Int) + 1 := by
    unfold Graph.vertexDegree
    rw [if_pos ((countLabel_connect addr g a b w a h).2 (Or.inl rfl)),
      connectedOf_connect addr g a b w a h, if_pos rfl]
    unfold connAssign
    rw [hc]
    simp only [Bool.false_eq_true, if_false, length_connInsert]
    push_cast
    rfl
  constructor
  · intro hin
    have hin' : countLabel g.vertices a = true := hin
    rw [hafter]
    unfold Graph.vertexDegree
    rw [if_pos hin']
  · intro hout
    have hout' : countLabel g.vertices a = false := hout
    rw [hafter, connectedOf_of_not_count _ _ hout']
    unfold Graph.vertexDegree
    rw [hout']
    simp

theorem connect_degree_witness :
    graph0.directional = true ∧ (graph0.connect graph0Addr "C" "A" 5).1 = true ∧
    ((graph0.contains "C" = true →
      (graph0.connect graph0Addr "C" "A" 5).2.vertexDegree "C" =
        graph0.vertexDegree "C" + 1) ∧
    (graph0.contains "C" = false →
      graph0.vertexDegree "C" = -1 ∧
        (graph0.connect graph0Addr "C" "A" 5).2.vertexDegree "C" = 1)) :=
  ⟨by decide, by decide, connect_degree graph0Addr graph0 "C" "A" 5 (by decide)⟩

/-! ### C20: `dijkstra` terminates -/

theorem dijkstraLoop_returns (g : Graph) (start : String) :
    ∀ fuel W Pr visited edges, edges.length + degreeSum g visited ≤ fuel →
      ∃ r, dijkstraLoop g start fuel W Pr visited edges = some r := by
  intro fuel
  induction fuel with
  | zero =>
    intro W Pr visited edges hle
    cases edges with
    | nil => exact ⟨(W, Pr), by simp [dijkstraLoop]⟩
    | cons e es => simp at hle
  | succ n ih =>
    intro W Pr visited edges hle
    cases edges with
    | nil => exact ⟨(W, Pr), by simp [dijkstraLoop]⟩
    | cons e es =>
      simp only [List.length_cons] at hle
      by_cases hv : e.to_ ∈ visited
      · simp only [dijkstraLoop, if_pos hv]
        exact ih _ _ _ _ (by omega)
      · simp only [dijkstraLoop, if_neg hv]
        apply ih
        have h1 := degreeSum_step g visited (e.to_ :: visited) e.to_
          (fun x => by simp) hv
        have h2 : (outEdges e.to_
            ((connectedOf g.vertices e.to_).filter (fun i => i.1 ≠ start))).length ≤
            (connectedOf g.vertices e.to_).length := by
          simp only [outEdges, List.length_map]
          exact List.length_filter_le _ _
        rw [List.length_append]
        omega

/-- C20: for every graph value (cycles and arbitrary weights included) and every start
label, `dijkstra(start)` returns.  A vertex is expanded (its outgoing arcs appended to the
worklist) only when it enters `visited`, so from any loop state the loop ends within
`edges.size()` plus the number of arcs leaving vertices not yet in `visited` iterations;
at entry this is at most the number of stored arcs, which is the iteration budget of
`Graph.dijkstra`. -/
theorem dijkstra_terminates (g : Graph) (start : String) :
    (∃ r, g.dijkstra start = some r) ∧
    (∀ W Pr visited edges, ∃ r,
      dijkstraLoop g start (edges.length + degreeSum g visited) W Pr visited edges = some r) ∧
    (outEdges start (connectedOf g.vertices start)).length + degreeSum g [start] ≤
      degreeSum g [] ∧
    degreeSum g [] =
      ((g.vertices.map (fun v => v.val)).map
        (fun l => (connectedOf g.vertices l).length)).sum := by
  have h0 : (outEdges start (connectedOf g.vertices start)).length + degreeSum g [start] ≤
      degreeSum g [] := by
    have := degreeSum_step g [] [start] start (fun x => by simp) (by simp)
    simp only [outEdges, List.length_map]
    omega
  refine ⟨?_, fun W Pr visited edges => dijkstraLoop_returns g start _ W Pr visited edges
    (Nat.le_refl _), h0, ?_⟩
  · unfold Graph.dijkstra
    split
    · exact dijkstraLoop_returns g start _ _ _ _ _ h0
    · exact ⟨_, rfl⟩
  · simp [degreeSum]

/-! ### The invariant `Closed` -/

theorem labels_insertVertex (v : Vertex) (vs : List Vertex) :
    ((insertVertex v vs).map (fun u => u.val)).Perm (v.val :: vs.map (fun u => u.val)) := by
  induction vs with
  | nil => exact List.Perm.refl _
  | cons u rest ih =>
    unfold insertVertex
    split
    · exact List.Perm.refl _
    · simp only [List.map_cons]
      exact (List.Perm.cons _ ih).trans (List.Perm.swap _ _ _)

theorem labels_updateConnected (vs : List Vertex) (a : String)
    (f : List (String × Int) → List (String × Int)) :
    (updateConnected vs a f).map (fun u => u.val) = vs.map (fun u => u.val) := by
  unfold updateConnected
  rw [List.map_map]
  apply List.map_congr_left
  intro v _
  simp only [Function.comp]
  split <;> rfl

theorem labels_ensureVertex_nodup (vs : List Vertex) (l : String)
    (h : (vs.map (fun u => u.val)).Nodup) :
    ((ensureVertex vs l).map (fun u => u.val)).Nodup := by
  unfold ensureVertex
  split
  · exact h
  · rename_i hc
    rw [(labels_insertVertex _ _).nodup_iff]
    refine List.nodup_cons.2 ⟨fun hmem => hc ((countLabel_iff vs l).2 hmem), h⟩

theorem ensureVertex_of_count (vs : List Vertex) (l : String) (h : countLabel vs l = true) :
    ensureVertex vs l = vs := by
  unfold ensureVertex
  rw [if_pos h]

theorem connect_false_eq (addr : String → Nat) (g : Graph) (hc : g.Closed) (a b : String)
    (w : Int) (h : (g.connect addr a b w).1 = false) : (g.connect addr a b w).2 = g := by
  unfold Graph.connect at h ⊢
  by_cases hab : a = b
  · rw [if_pos hab]
  · rw [if_neg hab] at h ⊢
    simp only [connectedOf_ensureVertex] at h ⊢
    by_cases hcc : connCount (connectedOf g.vertices a) b = true
    · rw [if_pos hcc]
      have hb : countLabel g.vertices b = true := hc.targets a b hcc
      have ha : countLabel g.vertices a = true := by
        by_contra hna
        have hna' : countLabel g.vertices a = false := by simpa using hna
        rw [connectedOf_of_not_count _ _ hna'] at hcc
        simp [connCount] at hcc
      simp only [ensureVertex_of_count _ _ ha, ensureVertex_of_count _ _ hb]
    · rw [if_neg hcc] at h
      simp at h

theorem Closed_empty (d : Bool) : (Graph.empty d).Closed := by
  refine ⟨by simp [Graph.empty], fun a b h => ?_⟩
  simp [Graph.empty, hasArc, connectedOf, findVertex, connCount] at h

theorem Closed_add (g : Graph) (l : String) (hc : g.Closed) : (g.add l).2.Closed := by
  unfold Graph.add
  split
  · exact hc
  · rename_i hcount
    refine ⟨?_, fun a b h => ?_⟩
    · have := labels_ensureVertex_nodup g.vertices l hc.labelsNodup
      unfold ensureVertex at this
      rw [if_neg hcount] at this
      exact this
    · have e := connectedOf_ensureVertex g.vertices l a
      unfold ensureVertex at e
      rw [if_neg hcount] at e
      have h' : hasArc g a b = true := by
        unfold hasArc at h ⊢
        simp only at h
        rw [e] at h
        exact h
      have := countLabel_ensureVertex_of g.vertices l b (hc.targets a b h')
      unfold ensureVertex at this
      rw [if_neg hcount] at this
      exact this

theorem Closed_connect (addr : String → Nat) (g : Graph) (a b : String) (w : Int)
    (hc : g.Closed) : (g.connect addr a b w).2.Closed := by
  cases h : (g.connect addr a b w).1
  · rw [connect_false_eq addr g hc a b w h]; exact hc
  · refine ⟨?_, fun x y hxy => ?_⟩
    · obtain ⟨_, _, hv⟩ := connect_true addr g a b w h
      rw [hv]
      have := labels_ensureVertex_nodup _ b (labels_ensureVertex_nodup _ a hc.labelsNodup)
      split <;> simp only [labels_updateConnected] <;> exact this
    · rw [countLabel_connect addr g a b w y h]
      rw [hasArc_eq_isSome, arcWeight_connect addr g a b w x y h] at hxy
      by_cases h1 : x = a ∧ y = b
      · exact Or.inr (Or.inl h1.2)
      · rw [if_neg h1] at hxy
        by_cases h2 : g.directional = false ∧ x = b ∧ y = a
        · exact Or.inl h2.2.2
        · rw [if_neg h2, ← hasArc_eq_isSome] at hxy
          exact Or.inr (Or.inr (hc.targets x y hxy))

theorem disconnect_true (g : Graph) (a b : String) (h : (g.disconnect a b).1 = true) :
    countLabel g.vertices a = true ∧ countLabel g.vertices b = true ∧
    connCount (connectedOf g.vertices a) b = true ∧
    (g.disconnect a b).2.vertices =
      (if g.directional then updateConnected g.vertices a (fun c => connErase c b)
       else updateConnected (updateConnected g.vertices a (fun c => connErase c b)) b
        (fun c => connErase c a)) := by
  unfold Graph.disconnect at h ⊢
  by_cases h1 : countLabel g.vertices a = false ∨ countLabel g.vertices b = false
  · rw [if_pos h1] at h; simp at h
  · rw [if_neg h1] at h ⊢
    by_cases h2 : connCount (connectedOf g.vertices a) b = false
    · rw [if_pos h2] at h; simp at h
    · rw [if_neg h2]
      have h1' : countLabel g.vertices a = true ∧ countLabel g.vertices b = true := by
        constructor
        · by_contra hh; exact h1 (Or.inl (by simpa using hh))
        · by_contra hh; exact h1 (Or.inr (by simpa using hh))
      refine ⟨h1'.1, h1'.2, by simpa using h2, ?_⟩
      by_cases hd : g.directional = true
      · simp [hd]
      · simp [hd]

theorem Closed_disconnect (g : Graph) (a b : String) (hwf : g.WF) (hc : g.Closed) :
    (g.disconnect a b).2.Closed := by
  cases h : (g.disconnect a b).1
  · rw [connectedOf_disconnect_false g a b h]; exact hc
  · obtain ⟨_, _, harc, hv⟩ := disconnect_true g a b h
    have hab : a ≠ b := by
      intro e
      subst e
      have h2 : hasArc g a a = true := harc
      rw [hasArc_eq_isSome, hwf.noSelf] at h2
      simp at h2
    have hcount : ∀ y, countLabel (g.disconnect a b).2.vertices y = countLabel g.vertices y := by
      intro y
      rw [hv]
      split <;> simp only [countLabel_updateConnected]
    refine ⟨?_, fun x y hxy => ?_⟩
    · rw [hv]
      split <;> simp only [labels_updateConnected] <;> exact hc.labelsNodup
    · rw [hcount]
      rw [hasArc_eq_isSome, arcWeight_disconnect g a b x y hab h] at hxy
      by_cases h1 : x = a ∧ y = b
      · rw [if_pos h1] at hxy; simp at hxy
      · rw [if_neg h1] at hxy
        by_cases h2 : g.directional = false ∧ x = b ∧ y = a
        · rw [if_pos h2] at hxy; simp at hxy
        · rw [if_neg h2, ← hasArc_eq_isSome] at hxy
          exact hc.targets x y hxy

theorem Closed_build (addr : String → Nat) (d : Bool) (ops : List Op) :
    (build addr d ops).Closed := by
  have key : ∀ (ops : List Op) (g : Graph), g.WF → g.Closed →
      (ops.foldl (applyOp addr) g).Closed := by
    intro ops
    induction ops with
    | nil => intro g _ h; exact h
    | cons op ops ih =>
      intro g hwf h
      rw [List.foldl_cons]
      cases op with
      | add l => exact ih _ (WF_add g l hwf) (Closed_add g l h)
      | connect a b w => exact ih _ (WF_connect addr g a b w hwf) (Closed_connect addr g a b w h)
      | disconnect a b => exact ih _ (WF_disconnect g a b hwf) (Closed_disconnect g a b hwf h)
  exact key ops (Graph.empty d) (WF_empty d) (Closed_empty d)

/-! ### C15: a rejected call leaves the graph unchanged -/

/-- C15: for every graph built by add / connect / disconnect and all arguments, a call of
`connect` or of `disconnect` that returns false leaves the graph as it was: same vertices,
same arcs, same weights. -/
theorem rejected_call_unchanged (addr : String → Nat) (d : Bool) (ops : List Op)
    (a b : String) (w : Int) :
    (((build addr d ops).connect addr a b w).1 = false →
      ((build addr d ops).connect addr a b w).2 = build addr d ops) ∧
    (((build addr d ops).disconnect a b).1 = false →
      ((build addr d ops).disconnect a b).2 = build addr d ops) :=
  ⟨connect_false_eq addr _ (Closed_build addr d ops) a b w,
    connectedOf_disconnect_false _ a b⟩

theorem rejected_call_unchanged_witness :
    ((build graph0Addr true graph0Ops).connect graph0Addr "A" "B" 9).1 = false ∧
    ((build graph0Addr true graph0Ops).connect graph0Addr "A" "B" 9).2 =
      build graph0Addr true graph0Ops ∧
    ((build graph0Addr true graph0Ops).disconnect "C" "A").1 = false ∧
    ((build graph0Addr true graph0Ops).disconnect "C" "A").2 =
      build graph0Addr true graph0Ops :=
  ⟨by decide, (rejected_call_unchanged graph0Addr true graph0Ops "A" "B" 9).1 (by decide),
    by decide, (rejected_call_unchanged graph0Addr true graph0Ops "C" "A" 9).2 (by decide)⟩

/-! ### Counting edges -/

theorem findVertex_of_mem (vs : List Vertex) (hnd : (vs.map (fun v => v.val)).Nodup)
    (v : Vertex) (hv : v ∈ vs) : findVertex vs v.val = some v := by
  induction vs with
  | nil => cases hv
  | cons u rest ih =>
    simp only [List.map_cons, List.nodup_cons] at hnd
    unfold findVertex
    by_cases hu : u.val = v.val
    · rw [List.find?_cons_of_pos _ (by simpa using hu)]
      rcases List.mem_cons.1 hv with e | hmem
      · rw [e]
      · exfalso
        apply hnd.1
        rw [hu]
        exact List.mem_map.2 ⟨v, hmem, rfl⟩
    · rw [List.find?_cons_of_neg _ (by simpa using hu)]
      rcases List.mem_cons.1 hv with e | hmem
      · exact absurd (by rw [e]) hu
      · exact ih hnd.2 hmem

theorem connectedOf_of_mem (vs : List Vertex) (hnd : (vs.map (fun v => v.val)).Nodup)
    (v : Vertex) (hv : v ∈ vs) : connectedOf vs v.val = v.connected := by
  unfold connectedOf
  rw [findVertex_of_mem vs hnd v hv]

theorem mem_arcList (g : Graph) (hnd : (g.vertices.map (fun v => v.val)).Nodup)
    (a b : String) : (a, b) ∈ arcList g.vertices ↔ hasArc g a b = true := by
  unfold arcList hasArc
  rw [List.mem_flatMap, connCount_iff]
  constructor
  · rintro ⟨v, hv, hp⟩
    obtain ⟨p, hp, e⟩ := List.mem_map.1 hp
    simp only [Prod.mk.injEq] at e
    rw [← e.1, connectedOf_of_mem _ hnd v hv, ← e.2]
    exact List.mem_map.2 ⟨p, hp, rfl⟩
  · intro h
    obtain ⟨p, hp, e⟩ := List.mem_map.1 h
    unfold connectedOf at hp
    cases hf : findVertex g.vertices a with
    | none => rw [hf] at hp; cases hp
    | some v =>
      rw [hf] at hp
      have hva : v.val = a := by
        have := List.find?_some hf
        simpa using this
      refine ⟨v, List.mem_of_find?_eq_some hf, List.mem_map.2 ⟨p, hp, ?_⟩⟩
      rw [hva, e]

theorem nodup_arcList (g : Graph) (hwf : g.WF) (hc : g.Closed) :
    (arcList g.vertices).Nodup := by
  unfold arcList
  rw [List.nodup_flatMap]
  constructor
  · intro v hv
    have hk := hwf.keysNodup v.val
    rw [connectedOf_of_mem _ hc.labelsNodup v hv] at hk
    have : v.connected.map (fun p => (v.val, p.1)) =
        (v.connected.map Prod.fst).map (fun b => (v.val, b)) := by
      rw [List.map_map]; rfl
    rw [this]
    exact List.Nodup.map (fun x y e => by simpa using e) hk
  · have hl := hc.labelsNodup
    unfold List.Nodup at hl
    rw [List.pairwise_map] at hl
    refine List.Pairwise.imp ?_ hl
    intro u v huv q hq1 hq2
    obtain ⟨p1, _, e1⟩ := List.mem_map.1 hq1
    obtain ⟨p2, _, e2⟩ := List.mem_map.1 hq2
    rw [← e2] at e1
    simp only [Prod.mk.injEq] at e1
    exact huv e1.1

theorem length_arcList (vs : List Vertex) :
    (arcList vs).length = (vs.map (fun v => v.connected.length)).sum := by
  induction vs with
  | nil => rfl
  | cons v rest ih =>
    unfold arcList at ih ⊢
    rw [List.flatMap_cons, List.length_append, ih]
    simp

theorem edgesLoop_directed (vs : List Vertex) (V : List (String × String)) (t : Nat) :
    edgesLoop true vs V t = t + (vs.map (fun v => v.connected.length)).sum := by
  induction vs generalizing V t with
  | nil => simp [edgesLoop]
  | cons v rest ih =>
    unfold edgesLoop
    rw [if_pos rfl, ih]
    simp only [List.map_cons, List.sum_cons]
    omega

theorem edgesScan_spec (g : Graph) (hwf : g.WF) (hd : g.directional = false) (i : String) :
    ∀ c V t, (∀ p ∈ c, hasArc g i p.1 = true) → EdgesInv g V t →
      EdgesInv g (edgesScan i c V t).1 (edgesScan i c V t).2 ∧
      (∀ q, q ∈ V → q ∈ (edgesScan i c V t).1) ∧
      (∀ p ∈ c, (i, p.1) ∈ (edgesScan i c V t).1) := by
  intro c
  induction c with
  | nil => intro V t _ inv; exact ⟨inv, fun q h => h, fun p hp => by cases hp⟩
  | cons j rest ih =>
    intro V t harc inv
    have hij : hasArc g i j.1 = true := harc j (List.mem_cons_self _ _)
    have hne : i ≠ j.1 := by
      intro e
      rw [← e, hasArc_eq_isSome, hwf.noSelf] at hij
      simp at hij
    have hji : hasArc g j.1 i = true := by
      rw [hasArc_eq_isSome, ← hwf.symm hd i j.1, ← hasArc_eq_isSome]
      exact hij
    have hrest : ∀ p ∈ rest, hasArc g i p.1 = true :=
      fun p hp => harc p (List.mem_cons_of_mem _ hp)
    unfold edgesScan
    by_cases hin : (i, j.1) ∈ V
    · rw [if_neg (not_not.2 hin)]
      obtain ⟨h1, h2, h3⟩ := ih V t hrest inv
      refine ⟨h1, h2, fun p hp => ?_⟩
      rcases List.mem_cons.1 hp with e | hp
      · rw [e]; exact h2 _ hin
      · exact h3 p hp
    · rw [if_pos hin]
      have hnji : (j.1, i) ∉ V := fun h => hin (inv.symm _ _ h)
      have inv1 : EdgesInv g ((j.1, i) :: (i, j.1) :: V) (t + 1) := by
        refine ⟨?_, ?_, ?_, ?_⟩
        · refine List.nodup_cons.2 ⟨?_, List.nodup_cons.2 ⟨hin, inv.nodup⟩⟩
          intro h
          rcases List.mem_cons.1 h with e | h
          · simp only [Prod.mk.injEq] at e
            exact hne e.2
          · exact hnji h
        · intro x y h
          rcases List.mem_cons.1 h with e | h
          · simp only [Prod.mk.injEq] at e
            rw [e.1, e.2]
            exact List.mem_cons_of_mem _ (List.mem_cons_self _ _)
          · rcases List.mem_cons.1 h with e | h
            · simp only [Prod.mk.injEq] at e
              rw [e.1, e.2]
              exact List.mem_cons_self _ _
            · exact List.mem_cons_of_mem _ (List.mem_cons_of_mem _ (inv.symm _ _ h))
        · intro x y h
          rcases List.mem_cons.1 h with e | h
          · simp only [Prod.mk.injEq] at e
            rw [e.1, e.2]; exact hji
          · rcases List.mem_cons.1 h with e | h
            · simp only [Prod.mk.injEq] at e
              rw [e.1, e.2]; exact hij
            · exact inv.arcs _ _ h
        · simp only [List.length_cons]
          have := inv.count
          omega
      obtain ⟨h1, h2, h3⟩ := ih _ _ hrest inv1
      refine ⟨h1, fun q hq => h2 q (List.mem_cons_of_mem _ (List.mem_cons_of_mem _ hq)),
        fun p hp => ?_⟩
      rcases List.mem_cons.1 hp with e | hp
      · rw [e]; exact h2 _ (List.mem_cons_of_mem _ (List.mem_cons_self _ _))
      · exact h3 p hp

theorem edgesLoop_spec (g : Graph) (hwf : g.WF) (hd : g.directional = false) :
    ∀ vs V t, (∀ v ∈ vs, ∀ p ∈ v.connected, hasArc g v.val p.1 = true) → EdgesInv g V t →
      ∃ Vf, EdgesInv g Vf (edgesLoop false vs V t) ∧ (∀ q ∈ V, q ∈ Vf) ∧
        ∀ v ∈ vs, ∀ p ∈ v.connected, (v.val, p.1) ∈ Vf := by
  intro vs
  induction vs with
  | nil =>
    intro V t _ inv
    exact ⟨V, by simpa [edgesLoop] using inv, fun q h => h, fun v hv => by cases hv⟩
  | cons u rest ih =>
    intro V t harc inv
    obtain ⟨h1, h2, h3⟩ := edgesScan_spec g hwf hd u.val u.connected V t
      (harc u (List.mem_cons_self _ _)) inv
    obtain ⟨Vf, k1, k2, k3⟩ := ih _ _ (fun v hv => harc v (List.mem_cons_of_mem _ hv)) h1
    refine ⟨Vf, ?_, fun q hq => k2 q (h2 q hq), fun v hv p hp => ?_⟩
    · unfold edgesLoop
      simpa using k1
    · rcases List.mem_cons.1 hv with e | hv
      · rw [e] at hp ⊢
        exact k2 _ (h3 p hp)
      · exact k3 v hv p hp

theorem edgesSize_eq (g : Graph) (hwf : g.WF) (hc : g.Closed) :
    (g.directional = true → g.edgesSize = ((arcList g.vertices).length : Int)) ∧
    (g.directional = false → 2 * g.edgesSize = ((arcList g.vertices).length : Int)) := by
  constructor
  · intro hd
    unfold Graph.edgesSize
    rw [hd, edgesLoop_directed, length_arcList]
    simp
  · intro hd
    have harc : ∀ v ∈ g.vertices, ∀ p ∈ v.connected, hasArc g v.val p.1 = true := by
      intro v hv p hp
      rw [← mem_arcList g hc.labelsNodup]
      unfold arcList
      exact List.mem_flatMap.2 ⟨v, hv, List.mem_map.2 ⟨p, hp, rfl⟩⟩
    obtain ⟨Vf, inv, _, hcov⟩ := edgesLoop_spec g hwf hd g.vertices [] 0 harc
      ⟨List.nodup_nil, fun _ _ h => (by cases h), fun _ _ h => (by cases h), rfl⟩
    have hperm : Vf.Perm (arcList g.vertices) := by
      rw [List.perm_ext_iff_of_nodup inv.nodup (nodup_arcList g hwf hc)]
      rintro ⟨x, y⟩
      constructor
      · intro h
        exact (mem_arcList g hc.labelsNodup x y).2 (inv.arcs x y h)
      · intro h
        unfold arcList at h
        obtain ⟨v, hv, hp⟩ := List.mem_flatMap.1 h
        obtain ⟨p, hp, e⟩ := List.mem_map.1 hp
        rw [← e]
        exact hcov v hv p hp
    unfold Graph.edgesSize
    rw [hd, ← hperm.length_eq, inv.count]
    push_cast
    rfl

theorem outDegreeSum_eq (g : Graph) (hc : g.Closed) :
    outDegreeSum g = ((arcList g.vertices).length : Int) := by
  unfold outDegreeSum
  rw [List.map_map, length_arcList]
  have : g.vertices.map ((fun l => g.vertexDegree l) ∘ fun v => v.val) =
      g.vertices.map (fun v => (v.connected.length : Int)) := by
    apply List.map_congr_left
    intro v hv
    simp only [Function.comp]
    unfold Graph.vertexDegree
    rw [if_pos ((countLabel_iff _ _).2 (List.mem_map.2 ⟨v, hv, rfl⟩)),
      connectedOf_of_mem _ hc.labelsNodup v hv]
  rw [this, Nat.cast_list_sum, List.map_map]
  rfl

theorem hasArc_symm (g : Graph) (hwf : g.WF) (hd : g.directional = false) (x y : String) :
    hasArc g x y = hasArc g y x := by
  rw [hasArc_eq_isSome, hasArc_eq_isSome, hwf.symm hd x y]

theorem hasArc_ne (g : Graph) (hwf : g.WF) (x y : String) (h : hasArc g x y = true) :
    x ≠ y := by
  intro e
  rw [e, hasArc_eq_isSome, hwf.noSelf] at h
  simp at h

theorem source_contained (g : Graph) (x y : String) (h : hasArc g x y = true) :
    countLabel g.vertices x = true := by
  by_contra hna
  have hna' : countLabel g.vertices x = false := by simpa using hna
  unfold hasArc at h
  rw [connectedOf_of_not_count _ _ hna'] at h
  simp [connCount] at h

theorem unorderedPairCount_eq (g : Graph) (hwf : g.WF) (hd : g.directional = false)
    (hc : g.Closed) :
    unorderedPairCount g =
      ((arcList g.vertices).filter (fun p => decide (p.1.data < p.2.data))).length := by
  unfold unorderedPairCount
  apply List.Perm.length_eq
  refine (List.perm_ext_iff_of_nodup
    ((List.Nodup.product hc.labelsNodup hc.labelsNodup).filter _)
    ((nodup_arcList g hwf hc).filter _)).2 ?_
  rintro ⟨x, y⟩
  rw [List.mem_filter, List.mem_filter]
  simp only [mem_arcList g hc.labelsNodup, decide_eq_true_eq]
  constructor
  · rintro ⟨_, hlt, h | h⟩
    · exact ⟨h, hlt⟩
    · exact ⟨by rw [hasArc_symm g hwf hd]; exact h, hlt⟩
  · rintro ⟨h, hlt⟩
    exact ⟨List.pair_mem_product.2 ⟨(countLabel_iff _ _).1 (source_contained g x y h),
      (countLabel_iff _ _).1 (hc.targets x y h)⟩, hlt, Or.inl h⟩

theorem arcList_half (g : Graph) (hwf : g.WF) (hd : g.directional = false) (hc : g.Closed) :
    2 * ((arcList g.vertices).filter (fun p => decide (p.1.data < p.2.data))).length =
      (arcList g.vertices).length := by
  have hsplit := List.length_eq_countP_add_countP
    (fun p : String × String => decide (p.1.data < p.2.data)) (arcList g.vertices)
  rw [List.countP_eq_length_filter, List.countP_eq_length_filter] at hsplit
  have hperm : ((arcList g.vertices).filter
      (fun a => decide ¬ (decide (a.1.data < a.2.data)) = true)).Perm
      (((arcList g.vertices).filter (fun p => decide (p.1.data < p.2.data))).map
        Prod.swap) := by
    rw [List.perm_ext_iff_of_nodup ((nodup_arcList g hwf hc).filter _)
      (List.Nodup.map Prod.swap_injective ((nodup_arcList g hwf hc).filter _))]
    rintro ⟨x, y⟩
    simp only [List.mem_filter, List.mem_map, Prod.exists, Prod.swap_prod_mk, Prod.mk.injEq,
      mem_arcList g hc.labelsNodup, decide_eq_true_eq, decide_not, Bool.not_eq_true',
      decide_eq_false_iff_not]
    constructor
    · rintro ⟨h, hlt⟩
      refine ⟨y, x, ⟨by rw [hasArc_symm g hwf hd]; exact h, ?_⟩, rfl, rfl⟩
      rcases lt_trichotomy x.data y.data with h1 | h1 | h1
      · exact absurd h1 hlt
      · exact absurd (String.ext h1) (hasArc_ne g hwf x y h)
      · exact h1
    · rintro ⟨a, b, ⟨h, hlt⟩, rfl, rfl⟩
      exact ⟨by rw [hasArc_symm g hwf hd]; exact h, fun h2 => lt_asymm hlt h2⟩
  rw [hperm.length_eq, List.length_map] at hsplit
  omega

theorem arcList_connect (addr : String → Nat) (g : Graph) (hwf : g.WF) (hc : g.Closed)
    (a b : String) (w : Int) (h : (g.connect addr a b w).1 = true) :
    (arcList (g.connect addr a b w).2.vertices).length =
      (arcList g.vertices).length + (if g.directional then 1 else 2) := by
  obtain ⟨hab, hcc, _⟩ := connect_true addr g a b w h
  have hnab : (a, b) ∉ arcList g.vertices := by
    rw [mem_arcList g hc.labelsNodup]
    unfold hasArc
    rw [hcc]
    simp
  have hwf1 := WF_connect addr g a b w hwf
  have hc1 := Closed_connect addr g a b w hc
  have hmem : ∀ x y, (x, y) ∈ arcList (g.connect addr a b w).2.vertices ↔
      ((x = a ∧ y = b) ∨ (g.directional = false ∧ x = b ∧ y = a) ∨
        (x, y) ∈ arcList g.vertices) := by
    intro x y
    rw [mem_arcList _ hc1.labelsNodup, mem_arcList g hc.labelsNodup, hasArc_eq_isSome,
      arcWeight_connect addr g a b w x y h, hasArc_eq_isSome]
    by_cases h1 : x = a ∧ y = b
    · simp [h1]
    · by_cases h2 : g.directional = false ∧ x = b ∧ y = a
      · simp [h1, h2]
      · simp [h1, h2]
  by_cases hd : g.directional = true
  · rw [if_pos hd]
    have hperm : (arcList (g.connect addr a b w).2.vertices).Perm
        ((a, b) :: arcList g.vertices) := by
      rw [List.perm_ext_iff_of_nodup (nodup_arcList _ hwf1 hc1)
        (List.nodup_cons.2 ⟨hnab, nodup_arcList g hwf hc⟩)]
      rintro ⟨x, y⟩
      rw [hmem]
      simp [hd]
    rw [hperm.length_eq]
    rfl
  · have hd' : g.directional = false := by simpa using hd
    rw [if_neg hd]
    have hnba : (b, a) ∉ arcList g.vertices := by
      rw [mem_arcList g hc.labelsNodup, hasArc_symm g hwf hd', ← mem_arcList g hc.labelsNodup]
      exact hnab
    have hperm : (arcList (g.connect addr a b w).2.vertices).Perm
        ((a, b) :: (b, a) :: arcList g.vertices) := by
      rw [List.perm_ext_iff_of_nodup (nodup_arcList _ hwf1 hc1)
        (List.nodup_cons.2 ⟨?_, List.nodup_cons.2 ⟨hnba, nodup_arcList g hwf hc⟩⟩)]
      · rintro ⟨x, y⟩
        rw [hmem]
        simp [hd']
      · intro hm
        rcases List.mem_cons.1 hm with e | hm
        · simp only [Prod.mk.injEq] at e
          exact hab e.1
        · exact hnab hm
    rw [hperm.length_eq]
    rfl

theorem arcList_disconnect (g : Graph) (hwf : g.WF) (hc : g.Closed)
    (a b : String) (h : (g.disconnect a b).1 = true) :
    (arcList g.vertices).length =
      (arcList (g.disconnect a b).2.vertices).length + (if g.directional then 1 else 2) := by
  obtain ⟨_, _, hcc, _⟩ := disconnect_true g a b h
  have harc : hasArc g a b = true := hcc
  have hab : a ≠ b := hasArc_ne g hwf a b harc
  have hwf1 := WF_disconnect g a b hwf
  have hc1 := Closed_disconnect g a b hwf hc
  have hmem : ∀ x y, (x, y) ∈ arcList (g.disconnect a b).2.vertices ↔
      (¬ (x = a ∧ y = b) ∧ ¬ (g.directional = false ∧ x = b ∧ y = a) ∧
        (x, y) ∈ arcList g.vertices) := by
    intro x y
    rw [mem_arcList _ hc1.labelsNodup, mem_arcList g hc.labelsNodup, hasArc_eq_isSome,
      arcWeight_disconnect g a b x y hab h, hasArc_eq_isSome]
    by_cases h1 : x = a ∧ y = b
    · simp [h1]
    · by_cases h2 : g.directional = false ∧ x = b ∧ y = a
      · simp [h1, h2]
      · simp [h1, h2]
  have hnab : (a, b) ∉ arcList (g.disconnect a b).2.vertices := by
    rw [hmem]; simp
  have hin : (a, b) ∈ arcList g.vertices := (mem_arcList g hc.labelsNodup a b).2 harc
  by_cases hd : g.directional = true
  · rw [if_pos hd]
    have hperm : (arcList g.vertices).Perm
        ((a, b) :: arcList (g.disconnect a b).2.vertices) := by
      rw [List.perm_ext_iff_of_nodup (nodup_arcList g hwf hc)
        (List.nodup_cons.2 ⟨hnab, nodup_arcList _ hwf1 hc1⟩)]
      rintro ⟨x, y⟩
      rw [List.mem_cons, hmem]
      by_cases h1 : x = a ∧ y = b
      · simp [h1, hin]
      · have h1' : ¬ ((x, y) = (a, b)) := by simpa using h1
        simp [h1, h1', hd]
    rw [hperm.length_eq]
    rfl
  · have hd' : g.directional = false := by simpa using hd
    rw [if_neg hd]
    have hin2 : (b, a) ∈ arcList g.vertices := by
      rw [mem_arcList g hc.labelsNodup, hasArc_symm g hwf hd']
      exact harc
    have hnba : (b, a) ∉ arcList (g.disconnect a b).2.vertices := by
      rw [hmem]; simp [hd']
    have hperm : (arcList g.vertices).Perm
        ((a, b) :: (b, a) :: arcList (g.disconnect a b).2.vertices) := by
      rw [List.perm_ext_iff_of_nodup (nodup_arcList g hwf hc)
        (List.nodup_cons.2 ⟨?_, List.nodup_cons.2 ⟨hnba, nodup_arcList _ hwf1 hc1⟩⟩)]
      · rintro ⟨x, y⟩
        rw [List.mem_cons, List.mem_cons, hmem]
        by_cases h1 : x = a ∧ y = b
        · simp [h1, hin]
        · by_cases h2 : x = b ∧ y = a
          · simp [h2, hin2]
          · have h1' : ¬ ((x, y) = (a, b)) := by simpa using h1
            have h2' : ¬ ((x, y) = (b, a)) := by simpa using h2
            simp [h1, h2, h1', h2', hd']
      · intro hm
        rcases List.mem_cons.1 hm with e | hm
        · simp only [Prod.mk.injEq] at e
          exact hab e.1
        · exact hnab hm
    rw [hperm.length_eq]
    rfl

/-! ### C13: what `edgesSize` counts -/

/-- C13: for every graph built from the empty graph by add / connect / disconnect: in
directed mode `edgesSize()` is the sum of the out-degrees of all vertices; in undirected
mode it is the number of unordered connected pairs, which is half of that sum; and in both
modes a `connect` that returns true raises `edgesSize()` by 1 and a `disconnect` that
returns true lowers it by 1. -/
theorem edgesSize_counts (addr : String → Nat) (ops : List Op) :
    (build addr true ops).edgesSize = outDegreeSum (build addr true ops) ∧
    ((build addr false ops).edgesSize = unorderedPairCount (build addr false ops) ∧
      2 * (build addr false ops).edgesSize = outDegreeSum (build addr false ops)) ∧
    (∀ d a b w, ((build addr d ops).connect addr a b w).1 = true →
      ((build addr d ops).connect addr a b w).2.edgesSize =
        (build addr d ops).edgesSize + 1) ∧
    (∀ d a b, ((build addr d ops).disconnect a b).1 = true →
      ((build addr d ops).disconnect a b).2.edgesSize =
        (build addr d ops).edgesSize - 1) := by
  have hwf := fun d => WF_build addr d ops
  have hc := fun d => Closed_build addr d ops
  have hdir := fun d => directional_build addr d ops
  refine ⟨?_, ⟨?_, ?_⟩, ?_, ?_⟩
  · rw [(edgesSize_eq _ (hwf true) (hc true)).1 (hdir true), outDegreeSum_eq _ (hc true)]
  · have h1 := (edgesSize_eq _ (hwf false) (hc false)).2 (hdir false)
    have h2 := arcList_half _ (hwf false) (hdir false) (hc false)
    rw [unorderedPairCount_eq _ (hwf false) (hdir false) (hc false)]
    omega
  · rw [(edgesSize_eq _ (hwf false) (hc false)).2 (hdir false), outDegreeSum_eq _ (hc false)]
  · intro d a b w h
    have hlen := arcList_connect addr _ (hwf d) (hc d) a b w h
    have hwf1 := WF_connect addr _ a b w (hwf d)
    have hc1 := Closed_connect addr _ a b w (hc d)
    have hd1 := directional_connect addr (build addr d ops) a b w
    rw [hdir d] at hlen hd1
    cases d
    · have e0 := (edgesSize_eq _ (hwf false) (hc false)).2 (hdir false)
      have e1 := (edgesSize_eq _ hwf1 hc1).2 hd1
      simp only [Bool.false_eq_true, if_false] at hlen
      omega
    · have e0 := (edgesSize_eq _ (hwf true) (hc true)).1 (hdir true)
      have e1 := (edgesSize_eq _ hwf1 hc1).1 hd1
      simp only [if_true] at hlen
      omega
  · intro d a b h
    have hlen := arcList_disconnect _ (hwf d) (hc d) a b h
    have hwf1 := WF_disconnect _ a b (hwf d)
    have hc1 := Closed_disconnect _ a b (hwf d) (hc d)
    have hd1 := directional_disconnect (build addr d ops) a b
    rw [hdir d] at hlen hd1
    cases d
    · have e0 := (edgesSize_eq _ (hwf false) (hc false)).2 (hdir false)
      have e1 := (edgesSize_eq _ hwf1 hc1).2 hd1
      simp only [Bool.false_eq_true, if_false] at hlen
      omega
    · have e0 := (edgesSize_eq _ (hwf true) (hc true)).1 (hdir true)
      have e1 := (edgesSize_eq _ hwf1 hc1).1 hd1
      simp only [if_true] at hlen
      omega

theorem edgesSize_counts_witness :
    ((build graph0Addr false graph0Ops).connect graph0Addr "C" "D" 7).1 = true ∧
    ((build graph0Addr false graph0Ops).connect graph0Addr "C" "D" 7).2.edgesSize =
      (build graph0Addr false graph0Ops).edgesSize + 1 ∧
    ((build graph0Addr false graph0Ops).disconnect "A" "B").1 = true ∧
    ((build graph0Addr false graph0Ops).disconnect "A" "B").2.edgesSize =
      (build graph0Addr false graph0Ops).edgesSize - 1 :=
  ⟨by decide,
    (edgesSize_counts graph0Addr graph0Ops).2.2.1 false "C" "D" 7 (by decide),
    by decide,
    (edgesSize_counts graph0Addr graph0Ops).2.2.2 false "A" "B" (by decide)⟩

/-! ### Edges as a string -/

theorem foldl_append_data {α : Type} (f : α → String) (L : List α) (s : String) :
    (L.foldl (fun rtn i => rtn ++ f i) s).data = s.data ++ L.flatMap (fun i => (f i).data) := by
  induction L generalizing s with
  | nil => simp
  | cons x rest ih =>
    rw [List.foldl_cons, ih, String.data_append, List.flatMap_cons, List.append_assoc]

theorem intercalate_go_data (s : String) (l : List String) (acc : String) :
    (String.intercalate.go acc s l).data =
      acc.data ++ l.flatMap (fun a => s.data ++ a.data) := by
  induction l generalizing acc with
  | nil => simp [String.intercalate.go]
  | cons a rest ih =>
    rw [String.intercalate.go, ih, String.data_append, String.data_append, List.flatMap_cons]
    simp only [List.append_assoc]

theorem dropLast_items (sep : Char) (rest : List (List Char)) (x : List Char) :
    (x ++ [sep] ++ rest.flatMap (fun a => a ++ [sep])).dropLast =
      x ++ rest.flatMap (fun a => [sep] ++ a) := by
  induction rest generalizing x with
  | nil => simp
  | cons y r ih =>
    rw [List.flatMap_cons, List.flatMap_cons]
    have := ih (x ++ [sep] ++ y)
    simp only [List.append_assoc] at this ⊢
    exact this

theorem mem_sortedConnected_iff (c : List (String × Int)) (h : (c.map Prod.fst).Nodup)
    (p : String × Int) : p ∈ sortedConnected c ↔ p ∈ c := by
  constructor
  · exact mem_sortedConnected c p
  · intro hp
    have h1 : p.1 ∈ (sortedConnected c).map Prod.fst :=
      (mem_sortedConnected_fst c p.1).2 ((connCount_iff c p.1).2 (List.mem_map.2 ⟨p, hp, rfl⟩))
    obtain ⟨q, hq, e⟩ := List.mem_map.1 h1
    have hqc := mem_sortedConnected c q hq
    have e1 := (find_iff_mem_of_nodup c h q.1 q.2).2 hqc
    have e2 := (find_iff_mem_of_nodup c h p.1 p.2).2 hp
    rw [e, e2] at e1
    have : q = p := by
      simp only [Option.some.injEq] at e1
      exact Prod.ext e e1.symm
    rw [← this]
    exact hq

theorem getEdgesAsString_eq (g : Graph) (label : String) :
    g.getEdgesAsString label =
      String.intercalate ","
        ((sortedConnected (connectedOf g.vertices label)).map
          (fun p => p.1 ++ "(" ++ to_string p.2 ++ ")")) := by
  unfold Graph.getEdgesAsString
  cases hc : connectedOf g.vertices label with
  | nil =>
    have hg : countLabel g.vertices label = false ∨
        ([] : List (String × Int)).isEmpty = true := Or.inr rfl
    rw [if_pos hg]
    rfl
  | cons p0 c0 =>
    have hcount : countLabel g.vertices label = true := by
      by_contra hna
      have hna' : countLabel g.vertices label = false := by simpa using hna
      rw [connectedOf_of_not_count _ _ hna'] at hc
      cases hc
    have hguard : ¬ (countLabel g.vertices label = false ∨
        (p0 :: c0).isEmpty = true) := by
      rw [hcount]; simp
    rw [if_neg hguard]
    cases hs : sortedConnected (p0 :: c0) with
    | nil =>
      exfalso
      have := (mem_sortedConnected_fst (p0 :: c0) p0.1).2 (by simp [connCount])
      rw [hs] at this
      cases this
    | cons q rest =>
      apply String.ext
      rw [foldl_append_data]
      simp only [List.map_cons, String.intercalate, intercalate_go_data]
      have hitem : ∀ i : String × Int, (i.1 ++ "(" ++ to_string i.2 ++ "),").data =
          (i.1 ++ "(" ++ to_string i.2 ++ ")").data ++ [','] := by
        intro i
        simp only [String.data_append, List.append_assoc]
        rfl
      have h1 : (q :: rest).flatMap (fun i => (i.1 ++ "(" ++ to_string i.2 ++ "),").data) =
          (q.1 ++ "(" ++ to_string q.2 ++ ")").data ++ [','] ++
            (rest.map (fun i => (i.1 ++ "(" ++ to_string i.2 ++ ")").data)).flatMap
              (fun a => a ++ [',']) := by
        rw [List.flatMap_cons, hitem, List.flatMap_map]
        congr 1
        apply List.flatMap_congr
        intro i _
        exact hitem i
      have h2 : (rest.map (fun p => p.1 ++ "(" ++ to_string p.2 ++ ")")).flatMap
          (fun a => ",".data ++ a.data) =
          (rest.map (fun i => (i.1 ++ "(" ++ to_string i.2 ++ ")").data)).flatMap
              (fun a => [','] ++ a) := by
        rw [List.flatMap_map, List.flatMap_map]
      show (("" : String).data ++ _).dropLast = _
      rw [h1, h2]
      exact dropLast_items ',' _ _

theorem getEdgesAsString_graphStar : graphStar.getEdgesAsString "a" = "b(10),c(20),d(40)" := by
  decide

/-! ### C16: `getEdgesAsString` -/

/-- C16: for every graph built by add / connect / disconnect and every label,
`getEdgesAsString(label)` is the comma-separated concatenation (no trailing comma) of the
items `neighbor(weight)` of a list `L` that holds exactly the outgoing arcs of the label
with their weights, in strictly ascending order of neighbour label; it is the empty string
when the label is not contained or has no outgoing arcs. -/
theorem getEdgesAsString_items (addr : String → Nat) (d : Bool) (ops : List Op)
    (label : String) :
    (∃ L : List (String × Int),
      L.Pairwise (fun p q => p.1 < q.1) ∧
      (∀ b w, (b, w) ∈ L ↔ arcWeight (build addr d ops) label b = some w) ∧
      (build addr d ops).getEdgesAsString label =
        String.intercalate "," (L.map (fun p => p.1 ++ "(" ++ to_string p.2 ++ ")"))) ∧
    ((build addr d ops).contains label = false ∨
        (build addr d ops).vertexDegree label = 0 →
      (build addr d ops).getEdgesAsString label = "") := by
  constructor
  · refine ⟨sortedConnected (connectedOf (build addr d ops).vertices label),
      sortedConnected_pairwise _, fun b w => ?_, getEdgesAsString_eq _ _⟩
    rw [mem_sortedConnected_iff _ ((WF_build addr d ops).keysNodup label),
      arcWeight_iff_mem _ (WF_build addr d ops)]
  · intro h
    have hnil : connectedOf (build addr d ops).vertices label = [] := by
      rcases h with h | h
      · exact connectedOf_of_not_count _ _ h
      · unfold Graph.vertexDegree at h
        split at h
        · have : (connectedOf (build addr d ops).vertices label).length = 0 := by
            exact_mod_cast h
          exact List.length_eq_zero.1 this
        · simp at h
    unfold Graph.getEdgesAsString
    have hg : countLabel (build addr d ops).vertices label = false ∨
        ([] : List (String × Int)).isEmpty = true := Or.inr rfl
    rw [hnil, if_pos hg]

theorem getEdgesAsString_items_witness :
    (graphStar.contains "e" = false ∨ graphStar.vertexDegree "e" = 0) ∧
    graphStar.getEdgesAsString "e" = "" :=
  ⟨by decide,
    (getEdgesAsString_items
      (fun l => if l = "a" then 0 else if l = "b" then 1 else if l = "c" then 2 else 3) false
      [.add "a", .add "b", .add "c", .add "d", .add "e", .connect "a" "b" 10,
        .connect "a" "c" 20, .connect "a" "d" 40] "e").2 (by decide)⟩

/-! ### Graphs with the same vertices and arcs answer every query alike -/

theorem connectedOf_perm (g1 g2 : Graph) (hwf1 : g1.WF) (hwf2 : g2.WF)
    (ha : ∀ x y, arcWeight g1 x y = arcWeight g2 x y) (l : String) :
    (connectedOf g1.vertices l).Perm (connectedOf g2.vertices l) := by
  have nd : ∀ g : Graph, g.WF → (connectedOf g.vertices l).Nodup :=
    fun g hwf => List.Nodup.of_map _ (hwf.keysNodup l)
  rw [List.perm_ext_iff_of_nodup (nd g1 hwf1) (nd g2 hwf2)]
  rintro ⟨b, w⟩
  rw [← arcWeight_iff_mem g1 hwf1, ← arcWeight_iff_mem g2 hwf2, ha]

theorem sortedConnected_perm (c1 c2 : List (String × Int)) (h1 : (c1.map Prod.fst).Nodup)
    (h2 : (c2.map Prod.fst).Nodup) (hp : c1.Perm c2) :
    sortedConnected c1 = sortedConnected c2 := by
  have s1 : (sortedConnected c1).Pairwise (fun a b => a.1.data < b.1.data) :=
    (sortedConnected_aux c1 []).1 List.Pairwise.nil
  have s2 : (sortedConnected c2).Pairwise (fun a b => a.1.data < b.1.data) :=
    (sortedConnected_aux c2 []).1 List.Pairwise.nil
  have nd : ∀ L : List (String × Int), L.Pairwise (fun a b => a.1.data < b.1.data) →
      L.Nodup := by
    intro L hL
    refine List.Pairwise.imp ?_ hL
    intro a b hab e
    rw [e] at hab
    exact lt_irrefl _ hab
  haveI : IsAntisymm (String × Int) (fun a b => a.1.data < b.1.data) :=
    ⟨fun a b hab hba => absurd hba (lt_asymm hab)⟩
  refine List.eq_of_perm_of_sorted ?_ s1 s2
  rw [List.perm_ext_iff_of_nodup (nd _ s1) (nd _ s2)]
  intro p
  rw [mem_sortedConnected_iff c1 h1, mem_sortedConnected_iff c2 h2]
  exact hp.mem_iff

theorem queries_congr (g1 g2 : Graph) (hwf1 : g1.WF) (hwf2 : g2.WF) (hc1 : g1.Closed)
    (hc2 : g2.Closed) (hd : g1.directional = g2.directional)
    (hl : g1.vertices.map (fun v => v.val) = g2.vertices.map (fun v => v.val))
    (ha : ∀ x y, arcWeight g1 x y = arcWeight g2 x y) :
    (∀ l, g1.contains l = g2.contains l) ∧ g1.verticesSize = g2.verticesSize ∧
    g1.edgesSize = g2.edgesSize ∧ (∀ l, g1.vertexDegree l = g2.vertexDegree l) ∧
    (∀ l, g1.getEdgesAsString l = g2.getEdgesAsString l) := by
  have hcount : ∀ l, countLabel g1.vertices l = countLabel g2.vertices l := by
    intro l
    rw [Bool.eq_iff_iff, countLabel_iff, countLabel_iff, hl]
  have hperm := connectedOf_perm g1 g2 hwf1 hwf2 ha
  refine ⟨hcount, ?_, ?_, fun l => ?_, fun l => ?_⟩
  · unfold Graph.verticesSize
    have := congrArg List.length hl
    simp only [List.length_map] at this
    rw [this]
  · have harcs : (arcList g1.vertices).Perm (arcList g2.vertices) := by
      rw [List.perm_ext_iff_of_nodup (nodup_arcList g1 hwf1 hc1) (nodup_arcList g2 hwf2 hc2)]
      rintro ⟨x, y⟩
      rw [mem_arcList g1 hc1.labelsNodup, mem_arcList g2 hc2.labelsNodup, hasArc_eq_isSome,
        hasArc_eq_isSome, ha]
    have hlen := harcs.length_eq
    cases hd2 : g2.directional
    · have e1 := (edgesSize_eq g1 hwf1 hc1).2 (hd.trans hd2)
      have e2 := (edgesSize_eq g2 hwf2 hc2).2 hd2
      omega
    · have e1 := (edgesSize_eq g1 hwf1 hc1).1 (hd.trans hd2)
      have e2 := (edgesSize_eq g2 hwf2 hc2).1 hd2
      omega
  · unfold Graph.vertexDegree
    rw [hcount l, (hperm l).length_eq]
  · rw [getEdgesAsString_eq, getEdgesAsString_eq,
      sortedConnected_perm _ _ (hwf1.keysNodup l) (hwf2.keysNodup l) (hperm l)]

theorem connect_true_of (addr : String → Nat) (g : Graph) (a b : String) (w : Int)
    (hab : a ≠ b) (h : hasArc g a b = false) : (g.connect addr a b w).1 = true := by
  unfold Graph.connect
  rw [if_neg hab]
  simp only [connectedOf_ensureVertex]
  unfold hasArc at h
  rw [h]
  simp

theorem disconnect_true_of (g : Graph) (hc : g.Closed) (a b : String)
    (h : hasArc g a b = true) : (g.disconnect a b).1 = true := by
  unfold Graph.disconnect
  have h1 : ¬ (countLabel g.vertices a = false ∨ countLabel g.vertices b = false) := by
    rw [source_contained g a b h, hc.targets a b h]
    simp
  have h2 : ¬ (connCount (connectedOf g.vertices a) b = false) := by
    unfold hasArc at h
    rw [h]
    simp
  rw [if_neg h1, if_neg h2]

/-! ### C18: `disconnect` followed by `connect` -/

/-- C18: for every graph built by add / connect / disconnect in which the arc `a -> b` is
stored with weight `w`, `disconnect(a, b)` and then `connect(a, b, w)` both return true, and
the graph afterwards has the same vertex labels and the same arcs with the same weights
as the original, so that `contains`, `verticesSize`, `edgesSize`, `vertexDegree` and
`getEdgesAsString` answer as on the original. -/
theorem disconnect_connect_restores (addr : String → Nat) (d : Bool) (ops : List Op)
    (a b : String) (w : Int) (h : arcWeight (build addr d ops) a b = some w) :
    ((build addr d ops).disconnect a b).1 = true ∧
    (((build addr d ops).disconnect a b).2.connect addr a b w).1 = true ∧
    (((build addr d ops).disconnect a b).2.connect addr a b w).2.vertices.map (fun v => v.val) =
      (build addr d ops).vertices.map (fun v => v.val) ∧
    (∀ x y, arcWeight (((build addr d ops).disconnect a b).2.connect addr a b w).2 x y =
      arcWeight (build addr d ops) x y) ∧
    (∀ l, (((build addr d ops).disconnect a b).2.connect addr a b w).2.contains l =
      (build addr d ops).contains l) ∧
    (((build addr d ops).disconnect a b).2.connect addr a b w).2.verticesSize =
      (build addr d ops).verticesSize ∧
    (((build addr d ops).disconnect a b).2.connect addr a b w).2.edgesSize =
      (build addr d ops).edgesSize ∧
    (∀ l, (((build addr d ops).disconnect a b).2.connect addr a b w).2.vertexDegree l =
      (build addr d ops).vertexDegree l) ∧
    (∀ l, (((build addr d ops).disconnect a b).2.connect addr a b w).2.getEdgesAsString l =
      (build addr d ops).getEdgesAsString l) := by
  have hwf := WF_build addr d ops
  have hc := Closed_build addr d ops
  generalize build addr d ops = g at h hwf hc ⊢
  have harc : hasArc g a b = true := hasArc_of_arcWeight g a b w h
  have hab : a ≠ b := hasArc_ne g hwf a b harc
  have h1 : (g.disconnect a b).1 = true := disconnect_true_of g hc a b harc
  have hwf1 := WF_disconnect g a b hwf
  have hc1 := Closed_disconnect g a b hwf hc
  have harc1 : ∀ x y, arcWeight (g.disconnect a b).2 x y =
      if x = a ∧ y = b then none
      else if g.directional = false ∧ x = b ∧ y = a then none
      else arcWeight g x y := fun x y => arcWeight_disconnect g a b x y hab h1
  have hno : hasArc (g.disconnect a b).2 a b = false := by
    rw [hasArc_eq_isSome, harc1]
    simp
  have h2 : ((g.disconnect a b).2.connect addr a b w).1 = true :=
    connect_true_of addr _ a b w hab hno
  have hwf2 := WF_connect addr _ a b w hwf1
  have hc2 := Closed_connect addr _ a b w hc1
  obtain ⟨ha1, hb1, _, hv1⟩ := disconnect_true g a b h1
  have hl1 : (g.disconnect a b).2.vertices.map (fun v => v.val) =
      g.vertices.map (fun v => v.val) := by
    rw [hv1]
    split <;> simp only [labels_updateConnected]
  have hcount1 : ∀ l, countLabel (g.disconnect a b).2.vertices l = countLabel g.vertices l := by
    intro l
    rw [Bool.eq_iff_iff, countLabel_iff, countLabel_iff, hl1]
  obtain ⟨_, _, hv2⟩ := connect_true addr _ a b w h2
  have hl2 : ((g.disconnect a b).2.connect addr a b w).2.vertices.map (fun v => v.val) =
      g.vertices.map (fun v => v.val) := by
    rw [hv2, ensureVertex_of_count _ a (by rw [hcount1]; exact ha1),
      ensureVertex_of_count _ b (by rw [hcount1]; exact hb1)]
    split <;> simp only [labels_updateConnected] <;> exact hl1
  have hd2 : ((g.disconnect a b).2.connect addr a b w).2.directional = g.directional := by
    rw [directional_connect, directional_disconnect]
  have hw : ∀ x y, arcWeight ((g.disconnect a b).2.connect addr a b w).2 x y =
      arcWeight g x y := by
    intro x y
    rw [arcWeight_connect addr _ a b w x y h2, harc1, directional_disconnect]
    by_cases c1 : x = a ∧ y = b
    · rw [if_pos c1, c1.1, c1.2, h]
    · rw [if_neg c1]
      by_cases c2 : g.directional = false ∧ x = b ∧ y = a
      · rw [if_pos c2, c2.2.1, c2.2.2, ← hwf.symm c2.1 a b, h]
      · rw [if_neg c2, if_neg c1, if_neg c2]
  obtain ⟨q1, q2, q3, q4, q5⟩ := queries_congr _ g hwf2 hwf hc2 hc hd2 hl2 hw
  exact ⟨h1, h2, hl2, hw, q1, q2, q3, q4, q5⟩

theorem disconnect_connect_restores_witness :
    arcWeight (build graph0Addr false graph0Ops) "A" "C" = some 8 ∧
    (((build graph0Addr false graph0Ops).disconnect "A" "C").2.connect
      graph0Addr "A" "C" 8).2.edgesSize = (build graph0Addr false graph0Ops).edgesSize ∧
    ∀ l, (((build graph0Addr false graph0Ops).disconnect "A" "C").2.connect
      graph0Addr "A" "C" 8).2.getEdgesAsString l =
        (build graph0Addr false graph0Ops).getEdgesAsString l :=
  ⟨by decide,
    (disconnect_connect_restores graph0Addr false graph0Ops "A" "C" 8 (by decide)).2.2.2.2.2.2.1,
    (disconnect_connect_restores graph0Addr false graph0Ops "A" "C" 8
      (by decide)).2.2.2.2.2.2.2.2⟩

/-! ### Walks behind the weights of `dijkstra` -/

theorem WalkVia.walk {g : Graph} {start p v : String} {w : Int}
    (h : WalkVia g start p v w) : WalkWeight g start v w := by
  obtain ⟨t, a, h1, h2, rfl⟩ := h
  exact .snoc p v t a h1 h2

theorem walk_nonneg (g : Graph) (hpos : ∀ x y a, arcWeight g x y = some a → 0 ≤ a)
    (s v : String) (t : Int) (h : WalkWeight g s v t) : 0 ≤ t := by
  induction h with
  | nil => exact le_refl _
  | snoc b c t w _ harc ih =>
    have := hpos b c w harc
    omega

theorem exists_shortestDist (g : Graph) (hpos : ∀ x y a, arcWeight g x y = some a → 0 ≤ a)
    (s v : String) (w : Int) (h : WalkWeight g s v w) :
    ∃ dist, ShortestDist g s v dist ∧ dist ≤ w := by
  classical
  have hex : ∃ n : Nat, WalkWeight g s v (n : Int) := by
    refine ⟨w.toNat, ?_⟩
    rw [Int.toNat_of_nonneg (walk_nonneg g hpos s v w h)]
    exact h
  have hmin : ∀ t, WalkWeight g s v t → ((Nat.find hex : Nat) : Int) ≤ t := by
    intro t ht
    have h0 := walk_nonneg g hpos s v t ht
    have h1 : WalkWeight g s v ((t.toNat : Nat) : Int) := by
      rw [Int.toNat_of_nonneg h0]
      exact ht
    have := Nat.find_min' hex h1
    omega
  exact ⟨(Nat.find hex : Nat), ⟨Nat.find_spec hex, hmin⟩, hmin w h⟩

theorem arcs_graphMaxZero (x y : String) (a : Int)
    (h : arcWeight graphMaxZero x y = some a) :
    (x = "A" ∧ y = "B" ∧ a = 2147483647) ∨ (x = "B" ∧ y = "C" ∧ a = 0) := by
  have hv : graphMaxZero.vertices =
      [⟨"A", [("B", 2147483647)]⟩, ⟨"B", [("C", 0)]⟩, ⟨"C", []⟩] := by decide
  unfold arcWeight connectedOf findVertex at h
  rw [hv] at h
  by_cases hA : "A" = x
  · subst hA
    simp only [List.find?_cons_of_pos, decide_True] at h
    by_cases hy : "B" = y
    · subst hy
      simp at h
      exact Or.inl ⟨rfl, rfl, h.symm⟩
    · simp [hy] at h
  · by_cases hB : "B" = x
    · subst hB
      simp only [List.find?, show decide ("A" = "B") = false by decide,
        show decide ("B" = "B") = true by decide] at h
      by_cases hy : "C" = y
      · subst hy
        simp at h
        exact Or.inr ⟨rfl, rfl, h.symm⟩
      · simp [hy] at h
    · by_cases hC : "C" = x
      · subst hC
        simp [List.find?] at h
      · simp [List.find?, hA, hB, hC] at h

theorem walks_graphMaxZero (v : String) (t : Int) (h : WalkWeight graphMaxZero "A" v t) :
    (v = "A" ∧ t = 0) ∨ (v = "B" ∧ t = 2147483647) ∨ (v = "C" ∧ t = 2147483647) := by
  induction h with
  | nil => exact Or.inl ⟨rfl, rfl⟩
  | snoc b c t w _ harc ih =>
    rcases arcs_graphMaxZero b c w harc with ⟨hb, hc, hw⟩ | ⟨hb, hc, hw⟩
    · rcases ih with ⟨_, h2⟩ | ⟨h1, _⟩ | ⟨h1, _⟩
      · exact Or.inr (Or.inl ⟨hc, by omega⟩)
      · rw [hb] at h1; exact absurd h1 (by decide)
      · rw [hb] at h1; exact absurd h1 (by decide)
    · rcases ih with ⟨h1, _⟩ | ⟨_, h2⟩ | ⟨h1, _⟩
      · rw [hb] at h1; exact absurd h1 (by decide)
      · exact Or.inr (Or.inr ⟨hc, by omega⟩)
      · rw [hb] at h1; exact absurd h1 (by decide)

/-- With negative weights the walk behind a reported weight can pass a vertex twice: on
A->B (5), B->C (-10), C->B (1) the weight reported for `B` is -4, the total of the walk
A, B, C, B. -/
theorem dijkstra_walk_repeats_vertex :
    graphNeg.dijkstra "A" = some ([("B", -4), ("C", -5)], [("B", "C"), ("C", "B")]) ∧
    WalkVia graphNeg "A" "C" "B" (-4) := by
  refine ⟨by decide, -5, 1, ?_, by decide, by decide⟩
  have h : WalkWeight graphNeg "A" "C" (0 + 5 + -10) :=
    .snoc "B" "C" _ (-10) (.snoc "A" "B" _ 5 .nil (by decide)) (by decide)
  exact h

/-! ### C21: the weights of `dijkstra` are weights of walks -/

/-- C21 (counterexample): in the directed graph A->B (2147483647), B->C (0) all weights are
non-negative and every walk from `A` has a total that is a value of `int` (nothing
overflows), yet `dijkstra("A")` reports weight 0 for `C` with `previous["C"] = "B"`, while
the shortest distance from `A` to `C` is 2147483647: the candidate total for `B` equals
`INT_MAX`, the value that stands for "no weight yet", so `B` gets no weight and the arc
B->C is then treated as if `B` were the start. -/
theorem dijkstra_sentinel_counterexample :
    graphMaxZero.contains "A" = true ∧
    (∀ x y a, arcWeight graphMaxZero x y = some a → 0 ≤ a ∧ a ≤ 2147483647) ∧
    (∀ v t, WalkWeight graphMaxZero "A" v t → 0 ≤ t ∧ t ≤ 2147483647) ∧
    graphMaxZero.dijkstra "A" = some ([("C", 0)], [("C", "B")]) ∧
    ShortestDist graphMaxZero "A" "C" 2147483647 ∧
    ¬ WalkWeight graphMaxZero "A" "C" 0 := by
  refine ⟨by decide, ?_, ?_, by decide, ⟨?_, ?_⟩, ?_⟩
  · intro x y a h
    rcases arcs_graphMaxZero x y a h with ⟨_, _, ha⟩ | ⟨_, _, ha⟩ <;> omega
  · intro v t h
    rcases walks_graphMaxZero v t h with ⟨_, ht⟩ | ⟨_, ht⟩ | ⟨_, ht⟩ <;> omega
  · have h : WalkWeight graphMaxZero "A" "C" (0 + 2147483647 + 0) :=
      .snoc "B" "C" _ 0 (.snoc "A" "B" _ 2147483647 .nil (by decide)) (by decide)
    exact h
  · intro t h
    rcases walks_graphMaxZero "C" t h with ⟨h1, _⟩ | ⟨h1, _⟩ | ⟨_, ht⟩
    · exact absurd h1 (by decide)
    · exact absurd h1 (by decide)
    · omega
  · intro h
    rcases walks_graphMaxZero "C" 0 h with ⟨h1, _⟩ | ⟨h1, _⟩ | ⟨_, ht⟩
    · exact absurd h1 (by decide)
    · exact absurd h1 (by decide)
    · omega

/-! ### The `dijkstra` loop under exact sums -/

theorem relax_keys (W : List (String × Int)) (Pr : List (String × String)) (e : Edge) :
    (∀ v, (mapFind? (relax W Pr e).1 v).isSome = true ↔
      ((mapFind? W v).isSome = true ∨ (v = e.to_ ∧ prevWeightOf W e > toWeightOf W e))) ∧
    (∀ v, (mapFind? (relax W Pr e).2 v).isSome = true ↔
      ((mapFind? Pr v).isSome = true ∨ (v = e.to_ ∧ prevWeightOf W e > toWeightOf W e))) := by
  refine ⟨?_, ?_⟩
  · intro v
    unfold relax
    by_cases hc : prevWeightOf W e > toWeightOf W e
    · simp only [hc, if_true, mapFind_mapAssign, and_true]
      by_cases hv : v = e.to_ <;> simp [hv]
    · simp [hc]
  · intro v
    unfold relax
    by_cases hc : prevWeightOf W e > toWeightOf W e
    · simp only [hc, if_true, mapFind_mapAssign, and_true]
      by_cases hv : v = e.to_ <;> simp [hv]
    · simp [hc]

theorem toWeightOf_exact (W : List (String × Int)) (e : Edge)
    (h : -2147483648 ≤ exactSum W e ∧ exactSum W e ≤ 2147483647) :
    toWeightOf W e = exactSum W e := by
  unfold toWeightOf exactSum at *
  cases hf : mapFind? W e.from_ with
  | none => rfl
  | some w =>
    rw [hf] at h
    simp only at h ⊢
    exact wrapInt_eq _ h.1 h.2

theorem DijkKeys_step_old (g : Graph) (start : String) (W : List (String × Int))
    (Pr : List (String × String)) (visited : List String) (e : Edge) (rest : List Edge)
    (inv : DijkKeys g start W Pr visited (e :: rest)) (hv : e.to_ ∈ visited) :
    DijkKeys g start (relax W Pr e).1 (relax W Pr e).2 visited rest := by
  obtain ⟨r1, r2⟩ := relax_keys W Pr e
  obtain ⟨_, _, he3⟩ := inv.edges_ok e (List.mem_cons_self _ _)
  refine ⟨?_, ?_, inv.start_mem, ?_, inv.reach, ?_⟩
  · intro v
    rw [r1, r2, inv.keys_eq]
  · intro v
    rw [r1, inv.keys_visited]
    constructor
    · rintro (h | ⟨h, _⟩)
      · exact h
      · rw [h]; exact ⟨hv, he3⟩
    · intro h; exact Or.inl h
  · intro e1 h1
    exact inv.edges_ok e1 (List.mem_cons_of_mem _ h1)
  · intro u hu y hy hys
    rcases inv.frontier u hu y hy hys with h | ⟨e1, h1, h2⟩
    · exact Or.inl h
    · rcases List.mem_cons.mp h1 with h3 | h3
      · subst h3; exact Or.inl (h2 ▸ hv)
      · exact Or.inr ⟨e1, h3, h2⟩

theorem DijkKeys_step_new (g : Graph) (start : String) (W : List (String × Int))
    (Pr : List (String × String)) (visited : List String) (e : Edge) (rest : List Edge)
    (inv : DijkKeys g start W Pr visited (e :: rest)) (hv : e.to_ ∉ visited)
    (hC : prevWeightOf W e > toWeightOf W e) :
    DijkKeys g start (relax W Pr e).1 (relax W Pr e).2 (e.to_ :: visited)
      (rest ++ outEdges e.to_
        ((connectedOf g.vertices e.to_).filter (fun i => i.1 ≠ start))) := by
  obtain ⟨r1, r2⟩ := relax_keys W Pr e
  obtain ⟨he1, he2, he3⟩ := inv.edges_ok e (List.mem_cons_self _ _)
  refine ⟨?_, ?_, List.mem_cons_of_mem _ inv.start_mem, ?_, ?_, ?_⟩
  · intro v
    rw [r1, r2, inv.keys_eq]
  · intro v
    rw [r1, inv.keys_visited, List.mem_cons]
    constructor
    · rintro (h | ⟨h, _⟩)
      · exact ⟨Or.inr h.1, h.2⟩
      · rw [h]; exact ⟨Or.inl rfl, he3⟩
    · rintro ⟨h1 | h1, h2⟩
      · exact Or.inr ⟨h1, hC⟩
      · exact Or.inl ⟨h1, h2⟩
  · intro e1 h1
    rcases List.mem_append.mp h1 with h1 | h1
    · obtain ⟨a1, a2, a3⟩ := inv.edges_ok e1 (List.mem_cons_of_mem _ h1)
      exact ⟨List.mem_cons_of_mem _ a1, a2, a3⟩
    · obtain ⟨p, hp, rfl⟩ := (mem_outEdges _ _ _).mp h1
      have hp' := List.mem_filter.mp hp
      exact ⟨List.mem_cons_self _ _, hasArc_of_mem g _ p hp'.1, by simpa using hp'.2⟩
  · intro v hv1
    rcases List.mem_cons.mp hv1 with h | h
    · rw [h]
      exact Relation.ReflTransGen.tail (inv.reach _ he1) he2
    · exact inv.reach v h
  · intro u hu y hy hys
    rcases List.mem_cons.mp hu with h | h
    · subst h
      obtain ⟨p, hp, hpy⟩ := mem_of_hasArc g _ y hy
      refine Or.inr ⟨⟨e.to_, p.2, p.1⟩, ?_, hpy⟩
      apply List.mem_append_right
      rw [mem_outEdges]
      exact ⟨p, List.mem_filter.mpr ⟨hp, by simpa [hpy] using hys⟩, rfl⟩
    · rcases inv.frontier u h y hy hys with h1 | ⟨e1, h1, h2⟩
      · exact Or.inl (List.mem_cons_of_mem _ h1)
      · rcases List.mem_cons.mp h1 with h3 | h3
        · subst h3; exact Or.inl (h2 ▸ List.mem_cons_self _ _)
        · exact Or.inr ⟨e1, List.mem_append_left _ h3, h2⟩

theorem relax_exact_walks (g : Graph) (start : String) (W : List (String × Int))
    (Pr : List (String × String)) (visited : List String) (e : Edge) (rest : List Edge)
    (inv : DijkKeys g start W Pr visited (e :: rest))
    (hw : ∀ v w, mapFind? W v = some w → ∃ p, mapFind? Pr v = some p ∧ WalkVia g start p v w)
    (he : arcWeight g e.from_ e.to_ = some e.weight)
    (hsum : -2147483648 ≤ exactSum W e ∧ exactSum W e ≤ 2147483647) :
    ∀ v w, mapFind? (relax W Pr e).1 v = some w →
      ∃ p, mapFind? (relax W Pr e).2 v = some p ∧ WalkVia g start p v w := by
  obtain ⟨he1, _, _⟩ := inv.edges_ok e (List.mem_cons_self _ _)
  have hexact := toWeightOf_exact W e hsum
  intro v w hvw
  unfold relax at hvw ⊢
  by_cases hc : prevWeightOf W e > toWeightOf W e
  · simp only [hc, if_true, mapFind_mapAssign] at hvw ⊢
    by_cases hv : v = e.to_
    · simp only [hv, if_true, Option.some.injEq] at hvw ⊢
      refine ⟨e.from_, rfl, ?_⟩
      rw [← hvw, hexact]
      unfold exactSum
      cases hf : mapFind? W e.from_ with
      | none =>
        have hstart : e.from_ = start := by
          by_contra hne
          have := (inv.keys_visited e.from_).mpr ⟨he1, hne⟩
          rw [hf] at this
          simp at this
        refine ⟨0, e.weight, ?_, he, by simp⟩
        rw [hstart]
        exact .nil
      | some wf =>
        obtain ⟨p1, _, hp1⟩ := hw _ _ hf
        exact ⟨wf, e.weight, hp1.walk, he, by simp only; omega⟩
    · simp only [hv, if_false] at hvw ⊢
      exact hw v w hvw
  · simp only [hc, if_false] at hvw ⊢
    exact hw v w hvw

theorem dijkstraLoop_sound (g : Graph) (hwf : g.WF) (start : String) :
    ∀ fuel W Pr visited edges, DijkKeys g start W Pr visited edges →
      (∀ v w, mapFind? W v = some w → ∃ p, mapFind? Pr v = some p ∧ WalkVia g start p v w) →
      (∀ e ∈ edges, arcWeight g e.from_ e.to_ = some e.weight) →
      edges.length + degreeSum g visited ≤ fuel →
      (∀ p ∈ dijkstraSums g start fuel W Pr visited edges,
        (-2147483648 ≤ p.2 ∧ p.2 ≤ 2147483647) ∧ (p.1 = true → p.2 ≠ 2147483647)) →
      ∃ W1 Pr1, dijkstraLoop g start fuel W Pr visited edges = some (W1, Pr1) ∧
        (∀ v, (mapFind? W1 v).isSome = true ↔ (mapFind? Pr1 v).isSome = true) ∧
        (∀ v, (mapFind? W1 v).isSome = true ↔ (v ≠ start ∧ Reach g start v)) ∧
        (∀ v w, mapFind? W1 v = some w →
          ∃ p, mapFind? Pr1 v = some p ∧ WalkVia g start p v w) := by
  have hdone : ∀ fuel W Pr visited, DijkKeys g start W Pr visited [] →
      (∀ v w, mapFind? W v = some w → ∃ p, mapFind? Pr v = some p ∧ WalkVia g start p v w) →
      ∃ W1 Pr1, dijkstraLoop g start fuel W Pr visited [] = some (W1, Pr1) ∧
        (∀ v, (mapFind? W1 v).isSome = true ↔ (mapFind? Pr1 v).isSome = true) ∧
        (∀ v, (mapFind? W1 v).isSome = true ↔ (v ≠ start ∧ Reach g start v)) ∧
        (∀ v w, mapFind? W1 v = some w →
          ∃ p, mapFind? Pr1 v = some p ∧ WalkVia g start p v w) := by
    intro fuel W Pr visited inv hw
    refine ⟨W, Pr, by cases fuel <;> simp [dijkstraLoop], inv.keys_eq, fun v => ?_, hw⟩
    rw [inv.keys_visited]
    constructor
    · rintro ⟨h1, h2⟩
      exact ⟨h2, inv.reach v h1⟩
    · rintro ⟨h1, h2⟩
      refine ⟨?_, h1⟩
      clear h1
      induction h2 with
      | refl => exact inv.start_mem
      | @tail b c _ hbc ih =>
        by_cases hc : c = start
        · rw [hc]; exact inv.start_mem
        · rcases inv.frontier b ih c hbc hc with h | ⟨e, he, _⟩
          · exact h
          · simp at he
  intro fuel
  induction fuel with
  | zero =>
    intro W Pr visited edges inv hw _ hfuel _
    cases edges with
    | nil => exact hdone 0 W Pr visited inv hw
    | cons e rest => simp at hfuel
  | succ fuel ih =>
    intro W Pr visited edges inv hw hedges hfuel hsums
    cases edges with
    | nil => exact hdone (fuel + 1) W Pr visited inv hw
    | cons e rest =>
      rw [dijkstraSums] at hsums
      obtain ⟨⟨hrange, hsent⟩, hsums1⟩ := List.forall_mem_cons.1 hsums
      simp only at hrange hsent
      have hearc := hedges e (List.mem_cons_self _ _)
      have hw1 := relax_exact_walks g start W Pr visited e rest inv hw hearc hrange
      rw [dijkstraLoop]
      by_cases hv : e.to_ ∈ visited
      · simp only [hv, if_true] at hsums1 ⊢
        apply ih _ _ _ _ (DijkKeys_step_old g start W Pr visited e rest inv hv) hw1
          (fun e1 h1 => hedges e1 (List.mem_cons_of_mem _ h1)) _ hsums1
        simp only [List.length_cons] at hfuel
        omega
      · simp only [hv, if_false] at hsums1 ⊢
        have hnone : mapFind? W e.to_ = none := by
          cases hf : mapFind? W e.to_ with
          | none => rfl
          | some w =>
            have := (inv.keys_visited e.to_).mp (by simp [hf])
            exact absurd this.1 hv
        have hC : prevWeightOf W e > toWeightOf W e := by
          have h1 := hsent (by rw [hnone]; rfl)
          rw [toWeightOf_exact W e hrange]
          unfold prevWeightOf
          rw [hnone]
          simp only [INT_MAX]
          omega
        have hdeg := degreeSum_step g visited (e.to_ :: visited) e.to_ (by simp) hv
        have hlen := List.length_filter_le (fun i : String × Int => decide (i.1 ≠ start))
          (connectedOf g.vertices e.to_)
        apply ih _ _ _ _ (DijkKeys_step_new g start W Pr visited e rest inv hv hC) hw1
          _ _ hsums1
        · intro e1 h1
          rcases List.mem_append.mp h1 with h1 | h1
          · exact hedges e1 (List.mem_cons_of_mem _ h1)
          · obtain ⟨p, hp, rfl⟩ := (mem_outEdges _ _ _).mp h1
            exact (arcWeight_iff_mem g hwf _ _ _).2 (List.mem_filter.mp hp).1
        · simp only [List.length_cons, List.length_append, outEdges, List.length_map]
            at hfuel ⊢
          omega

/-- Result of `dijkstra` on a graph that satisfies the invariants of graph objects, when no
candidate total overflows and none equals `INT_MAX` while its target has no weight. -/
theorem dijkstra_sound (g : Graph) (hwf : g.WF) (start : String)
    (hs : ∀ p ∈ g.dijkstraSums start,
      (-2147483648 ≤ p.2 ∧ p.2 ≤ 2147483647) ∧ (p.1 = true → p.2 ≠ 2147483647)) :
    ∃ weights previous, g.dijkstra start = some (weights, previous) ∧
      (∀ v, v ∈ weights.map Prod.fst ↔ v ∈ previous.map Prod.fst) ∧
      (∀ v, v ∈ weights.map Prod.fst ↔ (v ≠ start ∧ Reach g start v)) ∧
      (g.contains start = false → weights = [] ∧ previous = []) ∧
      (∀ v w, mapFind? weights v = some w →
        ∃ p, mapFind? previous v = some p ∧ WalkVia g start p v w) := by
  have hself : hasArc g start start = false := by
    rw [hasArc_eq_isSome, hwf.noSelf]
    rfl
  by_cases hc : countLabel g.vertices start = true
  · have inv : DijkKeys g start [] [] [start]
        (outEdges start (connectedOf g.vertices start)) := by
      refine ⟨by simp [mapFind?], ?_, by simp, ?_, ?_, ?_⟩
      · intro v
        simp only [mapFind?, List.find?_nil, Option.map_none', Option.isSome_none,
          Bool.false_eq_true, List.mem_singleton, false_iff]
        tauto
      · intro e he
        obtain ⟨p, hp, rfl⟩ := (mem_outEdges _ _ _).mp he
        refine ⟨by simp, hasArc_of_mem g _ p hp, ?_⟩
        intro e1
        have := hasArc_of_mem g _ p hp
        simp only at e1
        rw [e1, hself] at this
        simp at this
      · intro v hv
        rw [List.mem_singleton.mp hv]
        exact Relation.ReflTransGen.refl
      · intro u hu y hy _
        rw [List.mem_singleton.mp hu] at hy
        obtain ⟨p, hp, hpy⟩ := mem_of_hasArc g _ y hy
        exact Or.inr ⟨⟨start, p.2, p.1⟩, (mem_outEdges _ _ _).mpr ⟨p, hp, rfl⟩, hpy⟩
    have hfuel : (outEdges start (connectedOf g.vertices start)).length +
        degreeSum g [start] ≤ degreeSum g [] := by
      have := degreeSum_step g [] [start] start (by simp) (by simp)
      simp only [outEdges, List.length_map]
      omega
    unfold Graph.dijkstraSums at hs
    rw [if_pos hc] at hs
    obtain ⟨W, Pr, h1, h2, h3, h4⟩ := dijkstraLoop_sound g hwf start _ _ _ _ _ inv
      (fun v w h => by simp [mapFind?] at h)
      (fun e he => by
        obtain ⟨p, hp, rfl⟩ := (mem_outEdges _ _ _).mp he
        exact (arcWeight_iff_mem g hwf _ _ _).2 hp)
      hfuel hs
    refine ⟨W, Pr, by simp [Graph.dijkstra, hc, h1], fun v => ?_, fun v => ?_, fun hn => ?_, h4⟩
    · rw [← mapFind_isSome_iff, ← mapFind_isSome_iff]; exact h2 v
    · rw [← mapFind_isSome_iff]; exact h3 v
    · rw [Graph.contains, hc] at hn
      simp at hn
  · have hc' : countLabel g.vertices start = false := by simpa using hc
    refine ⟨[], [], by simp [Graph.dijkstra, hc'], by simp, fun v => ?_, fun _ => ⟨rfl, rfl⟩,
      fun v w h => by simp [mapFind?] at h⟩
    simp only [List.map_nil, List.not_mem_nil, false_iff, not_and]
    intro hv hr
    exact hv (reach_of_not_contained g start v hc' hr)

/-! ### C8: key sets of the result of `dijkstra`, amended -/

/-- C8, amended: for every graph built by add / connect / disconnect and every start label
such that no candidate total formed by `dijkstra(start)` overflows (each sum
`edge.weight + weights[edge.from]` is a value of `int`) and none equals `INT_MAX` while
`edge.to` has no weight yet: `dijkstra(start)` returns; `weights` and `previous` have the
same key set; that key set is exactly the set of vertices other than start reachable from
start along stored arcs; and both mappings are empty when start is not contained. -/
theorem dijkstra_keys (addr : String → Nat) (d : Bool) (ops : List Op) (start : String)
    (hs : ∀ p ∈ (build addr d ops).dijkstraSums start,
      (-2147483648 ≤ p.2 ∧ p.2 ≤ 2147483647) ∧ (p.1 = true → p.2 ≠ 2147483647)) :
    ∃ weights previous, (build addr d ops).dijkstra start = some (weights, previous) ∧
      (∀ v, v ∈ weights.map Prod.fst ↔ v ∈ previous.map Prod.fst) ∧
      (∀ v, v ∈ weights.map Prod.fst ↔ (v ≠ start ∧ Reach (build addr d ops) start v)) ∧
      ((build addr d ops).contains start = false → weights = [] ∧ previous = []) := by
  obtain ⟨weights, previous, h1, h2, h3, h4, _⟩ :=
    dijkstra_sound _ (WF_build addr d ops) start hs
  exact ⟨weights, previous, h1, h2, h3, h4⟩

theorem dijkstra_keys_witness :
    (∀ p ∈ graphEdge30.dijkstraSums "A",
      (-2147483648 ≤ p.2 ∧ p.2 ≤ 2147483647) ∧ (p.1 = true → p.2 ≠ 2147483647)) ∧
    graphEdge30.dijkstra "A" = some ([("B", 1073741824)], [("B", "A")]) ∧
    ∃ weights previous, graphEdge30.dijkstra "A" = some (weights, previous) ∧
      (∀ v, v ∈ weights.map Prod.fst ↔ v ∈ previous.map Prod.fst) ∧
      (∀ v, v ∈ weights.map Prod.fst ↔ (v ≠ "A" ∧ Reach graphEdge30 "A" v)) ∧
      (graphEdge30.contains "A" = false → weights = [] ∧ previous = []) :=
  ⟨by decide, by decide,
    dijkstra_keys graph0Addr false [.connect "A" "B" 1073741824] "A" (by decide)⟩

/-! ### C21: the weights of `dijkstra` are weights of walks, amended -/

/-- The loop forms sums along walks that are not simple paths: on A->B (1),
B->C (2147483547), C->B (100) the sums are 1, 2147483548 and, for the arc C->B back to
`B`, 2147483648, which is no value of `int`; the weight then recorded for `B` is
-2147483648. -/
theorem dijkstra_back_arc_overflow :
    graphBack.dijkstraSums "A" = [(true, 1), (true, 2147483548), (false, 2147483648)] ∧
    graphBack.dijkstra "A" =
      some ([("B", -2147483648), ("C", 2147483548)], [("B", "C"), ("C", "B")]) := by
  refine ⟨by decide, by decide⟩

/-- The walk of `dijkstra_walk_repeats_vertex` arises without overflow: the candidate totals
formed on A->B (5), B->C (-10), C->B (1) are 5, -5 and -4. -/
theorem dijkstraSums_graphNeg :
    graphNeg.dijkstraSums "A" = [(true, 5), (true, -5), (false, -4)] := by
  decide

/-- C21, amended: for every graph built by add / connect / disconnect and every start label
such that no candidate total formed by `dijkstra(start)` overflows (each sum
`edge.weight + weights[edge.from]` is a value of `int`) and none equals `INT_MAX` while
`edge.to` has no weight yet: `dijkstra(start)` returns; `weights` and `previous` have the
same keys; for every key `v`, `previous[v]` has a stored arc to `v` and `weights[v]` is the
total weight of a walk along stored arcs from start to `v` whose last arc is
`previous[v] -> v`; hence, when all stored weights are non-negative, the shortest distance
from start to `v` exists and `weights[v]` is not below it. -/
theorem dijkstra_weights_are_walks (addr : String → Nat) (d : Bool) (ops : List Op)
    (start : String)
    (hs : ∀ p ∈ (build addr d ops).dijkstraSums start,
      (-2147483648 ≤ p.2 ∧ p.2 ≤ 2147483647) ∧ (p.1 = true → p.2 ≠ 2147483647)) :
    ∃ weights previous, (build addr d ops).dijkstra start = some (weights, previous) ∧
      (∀ v, v ∈ weights.map Prod.fst ↔ v ∈ previous.map Prod.fst) ∧
      (∀ v w, mapFind? weights v = some w →
        ∃ p, mapFind? previous v = some p ∧ hasArc (build addr d ops) p v = true ∧
          WalkVia (build addr d ops) start p v w) ∧
      ((∀ x y a, arcWeight (build addr d ops) x y = some a → 0 ≤ a) →
        ∀ v w, mapFind? weights v = some w →
          ∃ dist, ShortestDist (build addr d ops) start v dist ∧ dist ≤ w) := by
  obtain ⟨weights, previous, hres, hkeys, _, _, hw⟩ :=
    dijkstra_sound _ (WF_build addr d ops) start hs
  refine ⟨weights, previous, hres, hkeys, fun v w h => ?_, fun hpos v w h => ?_⟩
  · obtain ⟨p, hp, hvia⟩ := hw v w h
    obtain ⟨t, a, hwalk, harc, hsum⟩ := hvia
    exact ⟨p, hp, hasArc_of_arcWeight _ p v a harc, t, a, hwalk, harc, hsum⟩
  · obtain ⟨p, _, hvia⟩ := hw v w h
    exact exists_shortestDist _ hpos start v w hvia.walk

theorem dijkstra_weights_are_walks_witness :
    (∀ p ∈ graphStar9.dijkstraSums "A",
      (-2147483648 ≤ p.2 ∧ p.2 ≤ 2147483647) ∧ (p.1 = true → p.2 ≠ 2147483647)) ∧
    graphStar9.dijkstra "A" =
      some ([("B", 1000000000), ("C", 1000000000), ("D", 1000000000)],
        [("B", "A"), ("C", "A"), ("D", "A")]) ∧
    ∃ weights previous, graphStar9.dijkstra "A" = some (weights, previous) ∧
      (∀ v, v ∈ weights.map Prod.fst ↔ v ∈ previous.map Prod.fst) ∧
      (∀ v w, mapFind? weights v = some w →
        ∃ p, mapFind? previous v = some p ∧ hasArc graphStar9 p v = true ∧
          WalkVia graphStar9 "A" p v w) ∧
      ((∀ x y a, arcWeight graphStar9 x y = some a → 0 ≤ a) →
        ∀ v w, mapFind? weights v = some w →
          ∃ dist, ShortestDist graphStar9 "A" v dist ∧ dist ≤ w) :=
  ⟨by decide, by decide,
    dijkstra_weights_are_walks
      (fun l => if l = "A" then 0 else if l = "B" then 1 else if l = "C" then 2 else 3) false
      [.connect "A" "B" 1000000000, .connect "A" "C" 1000000000, .connect "A" "D" 1000000000]
      "A" (by decide)⟩

end GraphProject
